import Mathlib

set_option autoImplicit false

/-!
Shallow embedding of the `s-graffito` query-processor core (Rust) in Lean 4,
used to check the natural-language specification against the code.

Conventions of the embedding:
* `u64` and `u8` values are modelled as `Nat` (the claims under study never
  reach the wrap-around of the machine types; `u64::MAX` is modelled by the
  constant `U64MAX`).
* Rust hash containers (`HashMap`, `HashSet`, hashbrown) iterate in an
  arbitrary order; the embedding realises them as insertion-ordered
  association lists / deduplicated lists, which is one admissible ordering.
  `BTreeSet<u8>` is modelled by a sorted deduplicated `List Nat`.
* The `priority_queue::PriorityQueue` used by `MinPQIndex` stores items in an
  `IndexMap`; `push` on a key that is already present goes through the
  occupied map entry and therefore replaces only the *priority*, keeping the
  stored item (and hence the value wrapped inside `PQEntry`, whose `Eq` and
  `Hash` look at the key only).  The model's `push` reflects this.
* Ties between equal priorities are broken arbitrarily by the binary heap;
  the model breaks them deterministically in favour of the entry that occurs
  first in insertion order.  No theorem below depends on the tie order.
-/

namespace SGraffito

/-- `u64::MAX`, used by the source as the priority of "no expiry". -/
def U64MAX : Nat := 2 ^ 64 - 1

abbrev Vertex := Nat
abbrev State := Nat
abbrev Label := String
abbrev VSPair := Vertex × State

/-- `util::types::HalfOpenTimeInterval`; the Rust field `end` is named `stop`
here because `end` is a Lean keyword. -/
structure HalfOpenTimeInterval where
  start : Nat
  stop : Nat
deriving DecidableEq, Repr

namespace HalfOpenTimeInterval

/-- `HalfOpenTimeInterval::ZERO`. -/
def ZERO : HalfOpenTimeInterval := ⟨0, 0⟩

/-- `HalfOpenInterval::overlaps` for `HalfOpenTimeInterval`, branch for branch. -/
def overlaps (a b : HalfOpenTimeInterval) : Bool :=
  if a.start > b.start then decide (a.start < b.stop)
  else if a.start < b.start then decide (a.stop > b.start)
  else true

/-- `HalfOpenInterval::merge`. -/
def merge (a b : HalfOpenTimeInterval) : HalfOpenTimeInterval :=
  ⟨min a.start b.start, max a.stop b.stop⟩

/-- `HalfOpenInterval::intersect`. -/
def intersect (a b : HalfOpenTimeInterval) : HalfOpenTimeInterval :=
  ⟨max a.start b.start, min a.stop b.stop⟩

/-- `HalfOpenInterval::get_end`. -/
def get_end (a : HalfOpenTimeInterval) : Nat := a.stop

end HalfOpenTimeInterval

/-- `operator::MinPQIndex<K, V>`: a keyed min-priority queue (priorities are
`u64`).  Modelled as the list of its `(key, value, priority)` entries in
insertion order. -/
structure MinPQIndex (K V : Type) where
  entries : List (K × V × Nat)
deriving DecidableEq, Repr

namespace MinPQIndex

variable {K V : Type} [DecidableEq K]

/-- `MinPQIndex::default()`. -/
def default {K V : Type} : MinPQIndex K V := ⟨[]⟩

/-- Does a key occur among the entries? -/
def hasKey (pq : MinPQIndex K V) (k : K) : Bool :=
  pq.entries.any (fun e => decide (e.1 = k))

/-- `MinPQIndex::push`.  If the key is already present, the underlying
`PriorityQueue::push` lands in the occupied `IndexMap` entry: the priority is
replaced and the previously stored item — hence the previously stored value —
is kept (`PQEntry` equality and hashing use the key only).  If the key is
absent the new entry is appended. -/
def push (pq : MinPQIndex K V) (k : K) (v : V) (p : Nat) : MinPQIndex K V :=
  if pq.hasKey k then
    ⟨pq.entries.map (fun e => if e.1 = k then (e.1, e.2.1, p) else e)⟩
  else
    ⟨pq.entries ++ [(k, v, p)]⟩

/-- `MinPQIndex::get`. -/
def get (pq : MinPQIndex K V) (k : K) : Option (V × Nat) :=
  (pq.entries.find? (fun e => decide (e.1 = k))).map (fun e => e.2)

/-- Functional counterpart of mutation through `MinPQIndex::get_mut`:
replace the value stored at a key (no-op when the key is absent). -/
def modifyValue (pq : MinPQIndex K V) (k : K) (f : V → V) : MinPQIndex K V :=
  ⟨pq.entries.map (fun e => if e.1 = k then (e.1, f e.2.1, e.2.2) else e)⟩

/-- `MinPQIndex::change_priority` (no-op when the key is absent, as in the
underlying crate). -/
def change_priority (pq : MinPQIndex K V) (k : K) (p : Nat) : MinPQIndex K V :=
  ⟨pq.entries.map (fun e => if e.1 = k then (e.1, e.2.1, p) else e)⟩

/-- `MinPQIndex::try_decrease_priority`: decrease the priority of `k` only if
its current priority is strictly larger than `p`. -/
def try_decrease_priority (pq : MinPQIndex K V) (k : K) (p : Nat) : MinPQIndex K V :=
  match pq.get k with
  | some (_, cur) => if cur > p then pq.change_priority k p else pq
  | none => pq

/-- The entry `peek`/`pop` act on: the first entry holding the minimal
priority (a deterministic resolution of the heap's arbitrary tie-breaking). -/
def peekList : List (K × V × Nat) → Option (K × V × Nat)
  | [] => none
  | e :: es =>
    match peekList es with
    | none => some e
    | some m => if e.2.2 ≤ m.2.2 then some e else some m

/-- `MinPQIndex::peek`. -/
def peek (pq : MinPQIndex K V) : Option (K × V × Nat) :=
  peekList pq.entries

/-- Remove the entry `peekList` designates (positional removal). -/
def popMinList : List (K × V × Nat) → List (K × V × Nat)
  | [] => []
  | e :: es =>
    match peekList es with
    | none => []
    | some m => if e.2.2 ≤ m.2.2 then es else e :: popMinList es

/-- `MinPQIndex::pop`: extract the minimum-priority entry. -/
def pop (pq : MinPQIndex K V) : Option ((K × V × Nat) × MinPQIndex K V) :=
  match pq.peek with
  | none => none
  | some m => some (m, ⟨popMinList pq.entries⟩)

/-- `MinPQIndex::remove`: drop the entry with the given key. -/
def remove (pq : MinPQIndex K V) (k : K) : MinPQIndex K V :=
  ⟨pq.entries.filter (fun e => decide (e.1 ≠ k))⟩

/-- `MinPQIndex::is_empty`. -/
def is_empty (pq : MinPQIndex K V) : Bool :=
  pq.entries.isEmpty

/-- Fuelled body of the `while let Some(peek) ... pop` loops of the source
that drop every entry with priority `≤ w`.  Each iteration pops exactly one
entry, so fuel `= length` never runs out (proved below as
`popLeGo_fuel_free`). -/
def popLeGo (w : Nat) : Nat → List (K × V × Nat) → List (K × V × Nat)
  | 0, l => l
  | fuel + 1, l =>
    match peekList l with
    | none => l
    | some m => if m.2.2 ≤ w then popLeGo w fuel (popMinList l) else l

/-- Keep popping the minimum while its priority is `≤ w`
(`GraphNode::remove_expired_inedges` / `_outedges` inner loops). -/
def popLe (pq : MinPQIndex K V) (w : Nat) : MinPQIndex K V :=
  ⟨popLeGo w pq.entries.length pq.entries⟩

/-- Fuelled body of the collecting variant of the same loop
(`Graph::remove_edges`, `Delta::get_expired_trees`): also return the popped
entries in pop order. -/
def popAllLeGo (w : Nat) :
    Nat → List (K × V × Nat) → List (K × V × Nat) × List (K × V × Nat)
  | 0, l => ([], l)
  | fuel + 1, l =>
    match peekList l with
    | none => ([], l)
    | some m =>
      if m.2.2 ≤ w then
        let r := popAllLeGo w fuel (popMinList l)
        (m :: r.1, r.2)
      else ([], l)

/-- Pop every entry with priority `≤ w`, returning them in pop order together
with the remaining queue. -/
def popAllLe (pq : MinPQIndex K V) (w : Nat) :
    List (K × V × Nat) × MinPQIndex K V :=
  let r := popAllLeGo w pq.entries.length pq.entries
  (r.1, ⟨r.2⟩)

end MinPQIndex

/-! ### Generic association-list helpers (models of `HashMap` usage) -/

/-- `HashMap::get` on an insertion-ordered association list. -/
def assocFind {α β : Type} [DecidableEq α] (l : List (α × β)) (k : α) : Option β :=
  (l.find? (fun e => decide (e.1 = k))).map (fun e => e.2)

/-- Replace the binding of `k` in place, or append it — the effect of
`HashMap::entry(k).or_insert(...)` followed by mutation. -/
def assocUpdate {α β : Type} [DecidableEq α] (l : List (α × β)) (k : α) (v : β) :
    List (α × β) :=
  if l.any (fun e => decide (e.1 = k)) then
    l.map (fun e => if e.1 = k then (k, v) else e)
  else l ++ [(k, v)]

/-- Drop the binding of `k` (`HashMap::remove`). -/
def assocErase {α β : Type} [DecidableEq α] (l : List (α × β)) (k : α) :
    List (α × β) :=
  l.filter (fun e => decide (e.1 ≠ k))

/-- In-place update of index `i` of a `Vec` (no-op out of range; the source
never indexes out of range on the paths under study). -/
def listModify {α : Type} (l : List α) (i : Nat) (f : α → α) : List α :=
  l.modify f i

/-- Insert into a sorted deduplicated `List Nat` (`BTreeSet<u8>::insert`). -/
def insNat (x : Nat) : List Nat → List Nat
  | [] => [x]
  | y :: ys =>
    if x < y then x :: y :: ys
    else if x = y then y :: ys
    else y :: insNat x ys

/-- `BTreeSet<u8>::from_iter`: sorted deduplicated view of a list. -/
def sortedDedup (l : List Nat) : List Nat := l.foldl (fun acc x => insNat x acc) []

/-- `Vec::swap_remove(i)`: replace index `i` with the last element and pop it.
Returns the removed element (the caller guarantees `i <` length; out of range
the list is returned unchanged with a junk element). -/
def swapRemove {α : Type} [Inhabited α] (l : List α) (i : Nat) : α × List α :=
  match l.get? i with
  | none => (Inhabited.default, l)
  | some x =>
    if i = l.length - 1 then (x, l.dropLast)
    else (x, l.dropLast.set i (l.getLast?.getD Inhabited.default))

/-! ### `query::automata::dfa::DFA` -/

/-- `dfa::DFA`.  `transitions` models `HashMap<String, HashSet<(u8,u8)>>`
(insertion-ordered, deduplicated), `forward_transitions` and
`backward_transitions` the two `Vec<Vec<(String, u8)>>`, `alphabet` the
`HashSet<String>`. -/
structure DFA where
  num_states : Nat
  final_states : List Nat
  transitions : List (Label × List (Nat × Nat))
  forward_transitions : List (List (Label × Nat))
  backward_transitions : List (List (Label × Nat))
  alphabet : List Label
deriving DecidableEq, Repr

namespace DFA

/-- `DFA::new`. -/
def new (num_states : Nat) (final_states : List Nat) : DFA :=
  ⟨num_states, final_states, [], List.replicate num_states [],
    List.replicate num_states [], []⟩

/-- `DFA::add_transition`, branch for branch — including the branches that
*skip* the forward (resp. backward) entry when the state already has an entry
with the same label (the source comments them "this should not happen"). -/
def add_transition (d : DFA) (source_state target_state : Nat) (label : Label) : DFA :=
  let alphabet := if d.alphabet.contains label then d.alphabet else d.alphabet ++ [label]
  let tset := (assocFind d.transitions label).getD []
  let tset := if tset.contains (source_state, target_state) then tset
    else tset ++ [(source_state, target_state)]
  let transitions := assocUpdate d.transitions label tset
  let forward := listModify d.forward_transitions source_state (fun lst =>
    if lst.any (fun e => decide (e.1 = label)) then lst else lst ++ [(label, target_state)])
  let backward := listModify d.backward_transitions target_state (fun lst =>
    if lst.any (fun e => decide (e.1 = label)) then lst else lst ++ [(label, source_state)])
  { d with alphabet := alphabet, transitions := transitions,
           forward_transitions := forward, backward_transitions := backward }

/-- `DFA::get_transitions`. -/
def get_transitions (d : DFA) (label : Label) : List (Nat × Nat) :=
  (assocFind d.transitions label).getD []

/-- `DFA::get_outgoing_transitions`. -/
def get_outgoing_transitions (d : DFA) (state : Nat) : List (Label × Nat) :=
  (d.forward_transitions.get? state).getD []

/-- `DFA::get_incoming_transitions`. -/
def get_incoming_transitions (d : DFA) (state : Nat) : List (Label × Nat) :=
  (d.backward_transitions.get? state).getD []

/-- `DFA::state_move`. -/
def state_move (d : DFA) (state : Nat) (label : Label) : Option Nat :=
  (((d.forward_transitions.get? state).getD []).find?
    (fun e => decide (e.1 = label))).map (fun e => e.2)

/-- `DFA::is_final_state`. -/
def is_final_state (d : DFA) (state : Nat) : Bool :=
  d.final_states.contains state

/-- `DFA::contains_label`. -/
def contains_label (d : DFA) (label : Label) : Bool :=
  d.alphabet.contains label

/-- The state-stepping loop inside `DFA::accept`. -/
def acceptFrom (d : DFA) : Nat → List Label → Bool
  | s, [] => d.is_final_state s
  | s, l :: ls =>
    match d.state_move s l with
    | some t => d.acceptFrom t ls
    | none => false

/-- `DFA::accept` (its `assert!` that the word lies in the alphabet is a
panic, not part of the value; the words used below are in the alphabet). -/
def accept (d : DFA) (word : List Label) : Bool :=
  d.acceptFrom 0 word

end DFA

/-! ### `query::automata::nfa::NFA` -/

/-- `nfa::NFA`. -/
structure NFA where
  num_states : Nat
  final_states : List Nat
  transitions : List (Label × List (Nat × Nat))
  forward_transitions : List (List (Label × List Nat))
  backward_transitions : List (List (Label × List Nat))
  epsilon_transitions : List (List Nat)
  alphabet : List Label
deriving DecidableEq, Repr

namespace NFA

/-- `NFA::new`. -/
def new (num_states : Nat) (final_states : List Nat) : NFA :=
  ⟨num_states, final_states, [], List.replicate num_states [],
    List.replicate num_states [], List.replicate num_states [], []⟩

/-- `NFA::add_epsilon_transition` (a plain `Vec::push`; duplicates allowed). -/
def add_epsilon_transition (n : NFA) (source_state target_state : Nat) : NFA :=
  { n with epsilon_transitions :=
      listModify n.epsilon_transitions source_state (fun l => l ++ [target_state]) }

/-- `NFA::add_transition`. -/
def add_transition (n : NFA) (source_state target_state : Nat) (label : Label) : NFA :=
  let alphabet := if n.alphabet.contains label then n.alphabet else n.alphabet ++ [label]
  let tset := (assocFind n.transitions label).getD []
  let tset := if tset.contains (source_state, target_state) then tset
    else tset ++ [(source_state, target_state)]
  let transitions := assocUpdate n.transitions label tset
  let forward := listModify n.forward_transitions source_state (fun lst =>
    match lst.find? (fun e => decide (e.1 = label)) with
    | some _ => lst.map (fun e =>
        if e.1 = label then
          (e.1, if e.2.contains target_state then e.2 else e.2 ++ [target_state])
        else e)
    | none => lst ++ [(label, [target_state])])
  let backward := listModify n.backward_transitions target_state (fun lst =>
    match lst.find? (fun e => decide (e.1 = label)) with
    | some _ => lst.map (fun e =>
        if e.1 = label then
          (e.1, if e.2.contains source_state then e.2 else e.2 ++ [source_state])
        else e)
    | none => lst ++ [(label, [source_state])])
  { n with alphabet := alphabet, transitions := transitions,
           forward_transitions := forward, backward_transitions := backward }

/-- `NFA::get_epsilon_transitions`. -/
def get_epsilon_transitions (n : NFA) (state : Nat) : List Nat :=
  (n.epsilon_transitions.get? state).getD []

/-- `NFA::get_outgoing_transitions`. -/
def get_outgoing_transitions (n : NFA) (state : Nat) : List (Label × List Nat) :=
  (n.forward_transitions.get? state).getD []

/-- Fuelled body of the BFS in `NFA::get_epsilon_closure`; the closure set is
an insertion-ordered deduplicated list. -/
def eClosureGo (n : NFA) : Nat → List Nat → List Nat → List Nat
  | 0, _, clo => clo
  | _ + 1, [], clo => clo
  | fuel + 1, q :: qs, clo =>
    let clo' := if clo.contains q then clo else clo ++ [q]
    let ns := (n.get_epsilon_transitions q).filter (fun x => !clo'.contains x)
    eClosureGo n fuel (qs ++ ns) clo'

/-- `NFA::get_epsilon_closure`.  The BFS terminates on its own; the generous
fuel below is only there to make the model structurally recursive, and is
never exhausted on the automata this development evaluates. -/
def get_epsilon_closure (n : NFA) (state : Nat) : List Nat :=
  eClosureGo n (2 ^ (n.num_states + (n.epsilon_transitions.map List.length).sum))
    [state] []

end NFA

/-! ### `query::automata::mod.rs`: Thompson construction, subset
construction and partition-refinement minimization -/

/-- `automata::transition`: the two-state NFA of a single predicate. -/
def transition (label : Label) : NFA :=
  (NFA.new 2 [1]).add_transition 0 1 label

/-- `automata::move_transitions`: copy all (labelled and ε) transitions of
`source` into `target`, shifting states by `offset`. -/
def move_transitions (source : NFA) (target : NFA) (offset : Nat) : NFA :=
  let t := (List.range source.num_states).foldl (fun acc state =>
    ((source.get_outgoing_transitions state).flatMap
        (fun lt => lt.2.map (fun ts => (lt.1, ts)))).foldl
      (fun acc2 p => acc2.add_transition (state + offset) (p.2 + offset) p.1) acc) target
  (List.range source.num_states).foldl (fun acc state =>
    (source.get_epsilon_transitions state).foldl
      (fun acc2 ts => acc2.add_epsilon_transition (state + offset) (ts + offset)) acc) t

/-- `automata::concatenation`. -/
def concatenation (lhs rhs : NFA) : NFA :=
  let num_states := lhs.num_states + rhs.num_states
  let offset := lhs.num_states
  let final_states := rhs.final_states.map (fun s => s + offset)
  let a := NFA.new num_states final_states
  let a := move_transitions lhs a 0
  let a := move_transitions rhs a offset
  lhs.final_states.foldl (fun acc fs => acc.add_epsilon_transition fs lhs.num_states) a

/-- `automata::alternation`. -/
def alternation (lhs rhs : NFA) : NFA :=
  let num_states := lhs.num_states + rhs.num_states + 2
  let final_state := num_states - 1
  let a := NFA.new num_states [final_state]
  let lhs_offset := 1
  let rhs_offset := lhs.num_states + 1
  let a := move_transitions lhs a lhs_offset
  let a := move_transitions rhs a rhs_offset
  let a := a.add_epsilon_transition 0 lhs_offset
  let a := a.add_epsilon_transition 0 rhs_offset
  let a := lhs.final_states.foldl
    (fun acc ts => acc.add_epsilon_transition (ts + lhs_offset) final_state) a
  rhs.final_states.foldl
    (fun acc ts => acc.add_epsilon_transition (ts + rhs_offset) final_state) a

/-- `automata::kleene_star`. -/
def kleene_star (input : NFA) : NFA :=
  let num_states := input.num_states + 2
  let final_state := num_states - 1
  let a := NFA.new num_states [final_state]
  let offset := 1
  let a := move_transitions input a offset
  let a := a.add_epsilon_transition 0 1
  let a := a.add_epsilon_transition 0 final_state
  input.final_states.foldl (fun acc ts =>
    (acc.add_epsilon_transition (ts + offset) final_state).add_epsilon_transition
      (ts + offset) 1) a

/-- `automata::kleene_plus` (identical to `kleene_star` except there is no
start-to-accept ε bypass). -/
def kleene_plus (input : NFA) : NFA :=
  let num_states := input.num_states + 2
  let final_state := num_states - 1
  let a := NFA.new num_states [final_state]
  let offset := 1
  let a := move_transitions input a offset
  let a := a.add_epsilon_transition 0 1
  input.final_states.foldl (fun acc ts =>
    (acc.add_epsilon_transition (ts + offset) final_state).add_epsilon_transition
      (ts + offset) 1) a

/-- Work item of the subset construction: the worklist state.
`dfa_states` is the `HashSet<BTreeSet<u8>>` (insertion-ordered, each subset a
sorted deduplicated list), `trans` the accumulated transition matrix. -/
structure DetAcc where
  dfa_states : List (List Nat)
  trans : List (List Nat × List (Label × List Nat))
  queue : List (List Nat)
deriving Repr

/-- Processing of one frontier subset inside `determinize`'s `while` loop. -/
def determinizeStep (input : NFA) (acc : DetAcc) (next_subset : List Nat) : DetAcc :=
  let state_transitions := next_subset.foldl (fun st state =>
    (input.get_outgoing_transitions state).foldl (fun st2 lt =>
      let reachable := (assocFind st2 lt.1).getD []
      let reachable := lt.2.foldl (fun r target_state =>
        (input.get_epsilon_closure target_state).foldl (fun r2 t => insNat t r2) r) reachable
      assocUpdate st2 lt.1 reachable) st) ([] : List (Label × List Nat))
  let step := state_transitions.foldl (fun p lt =>
    if p.1.contains lt.2 then p else (p.1 ++ [lt.2], p.2 ++ [lt.2]))
    (acc.dfa_states, acc.queue)
  { dfa_states := step.1, trans := acc.trans ++ [(next_subset, state_transitions)],
    queue := step.2 }

/-- Fuelled worklist loop of `determinize`; each processed subset is
processed exactly once, so `2 ^ num_states + 1` fuel is never exhausted. -/
def determinizeLoop (input : NFA) : Nat → DetAcc → DetAcc
  | 0, acc => acc
  | fuel + 1, acc =>
    match acc.queue with
    | [] => acc
    | s :: rest => determinizeLoop input fuel
        (determinizeStep input { acc with queue := rest } s)

/-- `automata::determinize`: subset construction, then interning of the
subsets into dense state numbers (arbitrary hash-iteration orders realised as
insertion orders). -/
def determinize (input : NFA) : DFA :=
  let start_state := sortedDedup (input.get_epsilon_closure 0)
  let acc0 : DetAcc := ⟨[start_state], [], [start_state]⟩
  let acc := determinizeLoop input (2 ^ input.num_states + 1) acc0
  let nfa_final_states := sortedDedup input.final_states
  let start_final : List Nat :=
    if start_state.any (fun s => nfa_final_states.contains s) then [0] else []
  -- number the subsets: the start subset is state 0, then the remaining
  -- elements of `dfa_states` in order
  let numbered := acc.dfa_states.foldl (fun p subset =>
    if (assocFind p.1 subset).isSome then p
    else
      let fin := if subset.any (fun s => nfa_final_states.contains s) then
        p.2.1 ++ [p.2.2] else p.2.1
      (p.1 ++ [(subset, p.2.2)], (fin, p.2.2 + 1)))
    (([(start_state, 0)] : List (List Nat × Nat)), (start_final, 1))
  let subset_mapping := numbered.1
  let dfa_final_states := numbered.2.1
  let next_state_no := numbered.2.2
  let result := DFA.new next_state_no dfa_final_states
  acc.trans.foldl (fun res st =>
    match assocFind subset_mapping st.1 with
    | none => res
    | some source_state =>
      st.2.foldl (fun res2 lt =>
        match assocFind subset_mapping lt.2 with
        | none => res2
        | some target_state => res2.add_transition source_state target_state lt.1) res)
    result

/-- `automata::is_distinguishable`: two states are distinguishable w.r.t. a
partitioning if some label sends them to different blocks, or moves exactly
one of them. -/
def is_distinguishable (automata : DFA) (partitions : List (List Nat))
    (state_1 state_2 : Nat) : Bool :=
  automata.alphabet.any (fun label =>
    match automata.state_move state_1 label, automata.state_move state_2 label with
    | none, none => false
    | some target_1, some target_2 =>
      partitions.any (fun partition =>
        partition.contains target_1 != partition.contains target_2)
    | _, _ => true)

/-- One refinement pass of `minimize`'s `while` loop: split every block into
singletons, then merge back the pairwise-indistinguishable states of the same
original block (`swap_remove` included). -/
def refinePass (input : DFA) (partitions : List (List Nat)) : List (List Nat) :=
  partitions.foldl (fun next partition =>
    let next := next ++ partition.map (fun s => [s])
    if partition.length ≠ 1 then
      (partition.flatMap (fun first => partition.map (fun second => (first, second)))
        |>.filter (fun p => decide (p.1 > p.2))).foldl (fun np p =>
        if !is_distinguishable input partitions p.1 p.2 then
          match np.findIdx? (fun part => part.contains p.1),
                np.findIdx? (fun part => part.contains p.2) with
          | some pos1, some pos2 =>
            if pos1 ≠ pos2 then
              let removed := swapRemove np (max pos1 pos2)
              listModify removed.2 (min pos1 pos2)
                (fun part => removed.1.foldl (fun q s => insNat s q) part)
            else np
          | _, _ => np
        else np) next
    else next) []

/-- Fuelled `while partitions.len() != next_partitions.len()` loop of
`minimize`. -/
def refineLoop (input : DFA) : Nat → List (List Nat) → List (List Nat) → List (List Nat)
  | 0, _, next => next
  | fuel + 1, partitions, next =>
    if partitions.length ≠ next.length then
      refineLoop input fuel next (refinePass input next)
    else next

/-- `automata::minimize`: partition refinement starting from
`{non-final, final}`, then renumbering with the start block as state 0. -/
def minimize (input : DFA) : DFA :=
  let final_states := sortedDedup input.final_states
  let non_final_states :=
    (List.range input.num_states).filter (fun s => !final_states.contains s)
  let next_partitions := refineLoop input (input.num_states + 3) []
    [non_final_states, final_states]
  let start_idx := (next_partitions.findIdx? (fun part => part.contains 0)).getD 0
  let sw := swapRemove next_partitions start_idx
  let start_partition := sw.1
  let rest_partitions := sw.2
  let start_mapping := start_partition.map (fun s => (s, 0))
  let start_final : List Nat :=
    if start_partition.any (fun s => final_states.contains s) then [0] else []
  let numbered := rest_partitions.foldl (fun p subset =>
    let fin := if subset.any (fun s => final_states.contains s) then
      p.2.1 ++ [p.2.2] else p.2.1
    (p.1 ++ subset.map (fun s => (s, p.2.2)), (fin, p.2.2 + 1)))
    ((start_mapping : List (Nat × Nat)), (start_final, 1))
  let state_mapping := numbered.1
  let minimized_final := numbered.2.1
  let next_state_no := numbered.2.2
  let result := DFA.new next_state_no minimized_final
  input.alphabet.foldl (fun res label =>
    (input.get_transitions label).foldl (fun res2 st =>
      match assocFind state_mapping st.1, assocFind state_mapping st.2 with
      | some sm, some tm => res2.add_transition sm tm label
      | _, _ => res2) res) result

/-! ### The source regular-expression language (specification side)

`RE` is the abstract syntax the grammar of §4.1 produces; `reMatch` decides
membership of a word in the language of an `RE` by Brzozowski derivatives.
These definitions follow the specification's grammar and the standard
semantics of regular expressions; they are the yardstick the compiled DFA is
compared against. -/

inductive RE where
  | zero : RE
  | pred (label : Label) : RE
  | cat (a b : RE) : RE
  | alt (a b : RE) : RE
  | star (a : RE) : RE
  | plus (a : RE) : RE
deriving DecidableEq, Repr

namespace RE

/-- Does the language of `r` contain the empty word? -/
def nullable : RE → Bool
  | zero => false
  | pred _ => false
  | cat a b => a.nullable && b.nullable
  | alt a b => a.nullable || b.nullable
  | star _ => true
  | plus a => a.nullable

/-- Brzozowski derivative of `r` by one letter. -/
def deriv : RE → Label → RE
  | zero, _ => zero
  | pred p, l => if p = l then star zero else zero
  | cat a b, l =>
    if a.nullable then alt (cat (a.deriv l) b) (b.deriv l) else cat (a.deriv l) b
  | alt a b, l => alt (a.deriv l) (b.deriv l)
  | star a, l => cat (a.deriv l) (star a)
  | plus a, l => cat (a.deriv l) (star a)

end RE

/-- Membership of a word in the language of a regular expression. -/
def reMatch (r : RE) (word : List Label) : Bool :=
  (word.foldl RE.deriv r).nullable

/-- The Thompson construction applied to a source AST — the NFA stage of the
compilation pipeline (`RPQParser::parse_*` composed with the `automata`
combinators).  `RE.zero` never occurs in an AST produced by the grammar. -/
def thompsonOf : RE → NFA
  | RE.zero => NFA.new 2 [1]
  | RE.pred l => transition l
  | RE.cat a b => concatenation (thompsonOf a) (thompsonOf b)
  | RE.alt a b => alternation (thompsonOf a) (thompsonOf b)
  | RE.star a => kleene_star (thompsonOf a)
  | RE.plus a => kleene_plus (thompsonOf a)

/-! ### `query::parser::mod.rs` (`RPQParser::parse_rpq`)

Modelled from the spec: the PEG grammar file `query/parser/rpq.pest` that
drives the pest token stage is not part of `src/`; the grammar below follows
§4.1 of the specification verbatim
(`Path = Alt; Alt = Seq ("|" Seq)*; Seq = Elt ("/" Elt)*;
Elt = Primary ("*" | "+")?; Primary = predicate | "(" Path ")"`,
a `predicate` being a nonempty identifier, here a run of alphanumeric
characters).  For a query accepted by this grammar, the AST walk in
`parser/mod.rs` (`parse_path`/`parse_alternative`/`parse_sequence`/
`parse_elt`/`parse_primary`) always reaches its `Ok` branches — its `Err`
branches fire only on pest-tree shapes this grammar does not produce — and
the pipeline `minimize(determinize(thompson))` is applied.  When the pest
parse fails, `parse_rpq` calls `.expect("RPQ Parser unsuccessfull")`, which
panics. -/

mutual

/-- `Path = Alt` (fuelled recursive descent; fuel only makes the recursion
structural and is never exhausted with the budget `parse_pest` supplies). -/
def parsePath : Nat → List Char → Option (RE × List Char)
  | 0, _ => none
  | fuel + 1, cs => parseAlt fuel cs

/-- `Alt = Seq ("|" Seq)*`. -/
def parseAlt : Nat → List Char → Option (RE × List Char)
  | 0, _ => none
  | fuel + 1, cs =>
    match parseSeq fuel cs with
    | none => none
    | some (r, rest) => parseAltTail fuel r rest

/-- The `("|" Seq)*` tail of an alternation. -/
def parseAltTail : Nat → RE → List Char → Option (RE × List Char)
  | 0, _, _ => none
  | fuel + 1, r, cs =>
    match cs with
    | '|' :: rest =>
      match parseSeq fuel rest with
      | none => none
      | some (r2, rest2) => parseAltTail fuel (RE.alt r r2) rest2
    | _ => some (r, cs)

/-- `Seq = Elt ("/" Elt)*`. -/
def parseSeq : Nat → List Char → Option (RE × List Char)
  | 0, _ => none
  | fuel + 1, cs =>
    match parseElt fuel cs with
    | none => none
    | some (r, rest) => parseSeqTail fuel r rest

/-- The `("/" Elt)*` tail of a sequence. -/
def parseSeqTail : Nat → RE → List Char → Option (RE × List Char)
  | 0, _, _ => none
  | fuel + 1, r, cs =>
    match cs with
    | '/' :: rest =>
      match parseElt fuel rest with
      | none => none
      | some (r2, rest2) => parseSeqTail fuel (RE.cat r r2) rest2
    | _ => some (r, cs)

/-- `Elt = Primary ("*" | "+")?`. -/
def parseElt : Nat → List Char → Option (RE × List Char)
  | 0, _ => none
  | fuel + 1, cs =>
    match parsePrimary fuel cs with
    | none => none
    | some (r, rest) =>
      match rest with
      | '*' :: rest2 => some (RE.star r, rest2)
      | '+' :: rest2 => some (RE.plus r, rest2)
      | _ => some (r, rest)

/-- `Primary = predicate | "(" Path ")"`. -/
def parsePrimary : Nat → List Char → Option (RE × List Char)
  | 0, _ => none
  | fuel + 1, cs =>
    match cs with
    | '(' :: rest =>
      match parsePath fuel rest with
      | some (r, ')' :: rest2) => some (r, rest2)
      | _ => none
    | _ =>
      match cs.span Char.isAlphanum with
      | ([], _) => none
      | (c :: cs2, rest) => some (RE.pred (String.mk (c :: cs2)), rest)

end

/-- The pest stage, modelled from the spec grammar: an RPQ string parses iff
the whole input is consumed by `Path`. -/
def parse_pest (query_str : String) : Option RE :=
  match parsePath (8 * (query_str.length + 1)) query_str.toList with
  | some (r, []) => some r
  | _ => none

/-- What `parse_rpq` does for the caller: either the program panics
(`.expect` / an out-of-band abort) or a `Result<DFA, String>` is returned. -/
inductive CompileOutcome where
  | panicked (msg : String) : CompileOutcome
  | ret (result : Except String DFA) : CompileOutcome
deriving Repr

/-- `RPQParser::parse_rpq`: a failed pest parse hits
`.expect("RPQ Parser unsuccessfull")` and panics; a successful parse walks
the tree (always `Ok` under the spec grammar) and returns
`minimize(determinize(thompson(ast)))`. -/
def parse_rpq (query_str : String) : CompileOutcome :=
  match parse_pest query_str with
  | none => CompileOutcome.panicked "RPQ Parser unsuccessfull"
  | some ast => CompileOutcome.ret (Except.ok (minimize (determinize (thompsonOf ast))))

/-! ### `graph::mod.rs`: the product-graph index -/

/-- `graph::GraphNode`: per-vertex label-keyed adjacency.  Each label maps to
a `MinPQIndex<VertexType, u64>` whose *value* is the edge interval's start and
whose *priority* is the interval's end (the expiry timestamp). -/
structure GraphNode where
  node : Vertex
  outgoing_edges : List (Label × MinPQIndex Vertex Nat)
  incoming_edges : List (Label × MinPQIndex Vertex Nat)
deriving DecidableEq, Repr

namespace GraphNode

/-- `GraphNode::new`. -/
def new (vertex : Vertex) : GraphNode := ⟨vertex, [], []⟩

/-- `GraphNode::get_outgoing_edges`: `(neighbour, start, end)` triples of one
label (empty when the label is absent). -/
def get_outgoing_edges (n : GraphNode) (label : Label) : List (Vertex × Nat × Nat) :=
  ((assocFind n.outgoing_edges label).getD MinPQIndex.default).entries

/-- `GraphNode::get_incoming_edges`. -/
def get_incoming_edges (n : GraphNode) (label : Label) : List (Vertex × Nat × Nat) :=
  ((assocFind n.incoming_edges label).getD MinPQIndex.default).entries

/-- `GraphNode::get_outgoing_edges_larger_than`: skip edges whose expiry is
`≤ low_watermark`. -/
def get_outgoing_edges_larger_than (n : GraphNode) (label : Label)
    (low_watermark : Nat) : List (Vertex × Nat × Nat) :=
  ((assocFind n.outgoing_edges label).getD MinPQIndex.default).entries.filter
    (fun e => decide (e.2.2 > low_watermark))

/-- `GraphNode::add_outgoing_neighbour`: returns `true` unless an entry for
the neighbour already exists with expiry `≥` the new interval's end; pushes
the `(start, end)` data only in the growing / absent cases. -/
def add_outgoing_neighbour (n : GraphNode) (label : Label) (neighbour : Vertex)
    (interval : HalfOpenTimeInterval) : Bool × GraphNode :=
  let edges := (assocFind n.outgoing_edges label).getD MinPQIndex.default
  let step : Bool × MinPQIndex Vertex Nat :=
    match edges.get neighbour with
    | some (_, expiry) =>
      if expiry ≥ interval.get_end then (false, edges)
      else (true, edges.push neighbour interval.start interval.stop)
    | none => (true, edges.push neighbour interval.start interval.stop)
  (step.1, { n with outgoing_edges := assocUpdate n.outgoing_edges label step.2 })

/-- `GraphNode::add_incoming_neighbour` (same shape on the incoming table). -/
def add_incoming_neighbour (n : GraphNode) (label : Label) (neighbour : Vertex)
    (interval : HalfOpenTimeInterval) : Bool × GraphNode :=
  let edges := (assocFind n.incoming_edges label).getD MinPQIndex.default
  let step : Bool × MinPQIndex Vertex Nat :=
    match edges.get neighbour with
    | some (_, expiry) =>
      if expiry ≥ interval.get_end then (false, edges)
      else (true, edges.push neighbour interval.start interval.stop)
    | none => (true, edges.push neighbour interval.start interval.stop)
  (step.1, { n with incoming_edges := assocUpdate n.incoming_edges label step.2 })

/-- `GraphNode::remove_expired_inedges`: per label pop all entries with
expiry `≤ low_watermark`, drop labels that became empty, and return the
minimum remaining expiry (`u64::MAX` when none). -/
def remove_expired_inedges (n : GraphNode) (low_watermark : Nat) : Nat × GraphNode :=
  let inc := (n.incoming_edges.map (fun e => (e.1, e.2.popLe low_watermark))).filter
    (fun e => !e.2.is_empty)
  let m := (inc.map (fun e =>
    match e.2.peek with
    | some x => x.2.2
    | none => U64MAX)).foldr min U64MAX
  (m, { n with incoming_edges := inc })

/-- `GraphNode::remove_expired_outedges`. -/
def remove_expired_outedges (n : GraphNode) (low_watermark : Nat) : Nat × GraphNode :=
  let out := (n.outgoing_edges.map (fun e => (e.1, e.2.popLe low_watermark))).filter
    (fun e => !e.2.is_empty)
  let m := (out.map (fun e =>
    match e.2.peek with
    | some x => x.2.2
    | none => U64MAX)).foldr min U64MAX
  (m, { n with outgoing_edges := out })

/-- `GraphNode::is_isolated`. -/
def is_isolated (n : GraphNode) : Bool :=
  n.incoming_edges.isEmpty && n.outgoing_edges.isEmpty

end GraphNode

/-- `graph::Graph`: the product-graph index — a `MinPQIndex` over vertices
(prioritised by minimum incident expiry) plus the immutable query DFA. -/
structure Graph where
  node_index : MinPQIndex Vertex GraphNode
  query_automata : DFA
deriving DecidableEq, Repr

namespace Graph

/-- `Graph::new`. -/
def new (query_automata : DFA) : Graph :=
  ⟨MinPQIndex.default, query_automata⟩

/-- `Graph::get_node`. -/
def get_node (g : Graph) (vertex : Vertex) : Option GraphNode :=
  (g.node_index.get vertex).map (fun e => e.1)

/-- `Graph::get_outgoing_edges`: pairs `((target_vertex, target_state),
interval)` driven by the DFA's outgoing transitions of `state`. -/
def get_outgoing_edges (g : Graph) (vertex : Vertex) (state : State) :
    List (VSPair × HalfOpenTimeInterval) :=
  (g.query_automata.get_outgoing_transitions state).flatMap (fun lt =>
    match g.get_node vertex with
    | some graph_node =>
      (graph_node.get_outgoing_edges lt.1).map (fun e =>
        ((e.1, lt.2), HalfOpenTimeInterval.mk e.2.1 e.2.2))
    | none => [])

/-- `Graph::get_outgoing_edges_larger_than`. -/
def get_outgoing_edges_larger_than (g : Graph) (vertex : Vertex) (state : State)
    (low_watermark : Nat) : List (VSPair × HalfOpenTimeInterval) :=
  (g.query_automata.get_outgoing_transitions state).flatMap (fun lt =>
    match g.get_node vertex with
    | some graph_node =>
      (graph_node.get_outgoing_edges_larger_than lt.1 low_watermark).map (fun e =>
        ((e.1, lt.2), HalfOpenTimeInterval.mk e.2.1 e.2.2))
    | none => [])

/-- `Graph::get_incoming_edges`: driven by the DFA's *incoming* transitions
of `state` over the backward adjacency. -/
def get_incoming_edges (g : Graph) (vertex : Vertex) (state : State) :
    List (VSPair × HalfOpenTimeInterval) :=
  (g.query_automata.get_incoming_transitions state).flatMap (fun lt =>
    match g.get_node vertex with
    | some graph_node =>
      (graph_node.get_incoming_edges lt.1).map (fun e =>
        ((e.1, lt.2), HalfOpenTimeInterval.mk e.2.1 e.2.2))
    | none => [])

/-- `Graph::insert_edge`, step for step: upsert the forward side (the
returned flag comes from there — it stays `true` when the source node is
created), `try_decrease_priority` on the source, then the same on the
backward side for the target. -/
def insert_edge (g : Graph) (source : Vertex) (label : Label) (target : Vertex)
    (interval : HalfOpenTimeInterval) : Bool × Graph :=
  let new_expiry_ts := interval.get_end
  let step1 : Bool × MinPQIndex Vertex GraphNode :=
    match g.node_index.get source with
    | some (entry, _) =>
      let r := entry.add_outgoing_neighbour label target interval
      (r.1, g.node_index.modifyValue source (fun _ => r.2))
    | none =>
      let source_node := ((GraphNode.new source).add_outgoing_neighbour
        label target interval).2
      (true, g.node_index.push source source_node interval.get_end)
  let ni := step1.2.try_decrease_priority source new_expiry_ts
  let ni :=
    match ni.get target with
    | some (entry, _) =>
      ni.modifyValue target (fun _ => (entry.add_incoming_neighbour label source interval).2)
    | none =>
      let target_node := ((GraphNode.new target).add_incoming_neighbour
        label source interval).2
      ni.push target target_node interval.get_end
  let ni := ni.try_decrease_priority target new_expiry_ts
  (step1.1, { g with node_index := ni })

/-- `Graph::remove_edges`: pop every vertex whose queue priority is
`≤ low_watermark`, prune its expired edges on both sides, and push it back
with the new minimum expiry unless it became isolated. -/
def remove_edges (g : Graph) (low_watermark : Nat) : Graph :=
  let popped := g.node_index.popAllLe low_watermark
  let ni := popped.1.foldl (fun ni e =>
    let r_in := e.2.1.remove_expired_inedges low_watermark
    let r_out := r_in.2.remove_expired_outedges low_watermark
    if !r_out.2.is_isolated then
      ni.push e.1 r_out.2 (min r_out.1 r_in.1)
    else ni) popped.2
  { g with node_index := ni }

end Graph

/-! ### `operator::tree_node::TreeNode` -/

/-- `TreeNode`: a spanning-tree node with its validity interval, the interval
of its single incoming edge, its parent pointer and its set of children
(insertion-ordered deduplicated list). -/
structure TreeNode where
  node : VSPair
  timestamp : HalfOpenTimeInterval
  incoming_edge_ts : HalfOpenTimeInterval
  parent : Option VSPair
  children : List VSPair
deriving DecidableEq, Repr

namespace TreeNode

/-- `TreeNode::new`. -/
def new (vertex : Vertex) (state : State) (timestamp incoming_edge_ts : HalfOpenTimeInterval)
    (parent : Option VSPair) : TreeNode :=
  ⟨(vertex, state), timestamp, incoming_edge_ts, parent, []⟩

/-- `TreeNode::add_child` (`HashSet::insert`). -/
def add_child (n : TreeNode) (child : VSPair) : TreeNode :=
  { n with children := if n.children.contains child then n.children
                       else n.children ++ [child] }

/-- `TreeNode::remove_child`. -/
def remove_child (n : TreeNode) (child : VSPair) : TreeNode :=
  { n with children := n.children.filter (fun c => decide (c ≠ child)) }

/-- `TreeNode::get_interval`. -/
def get_interval (n : TreeNode) : HalfOpenTimeInterval := n.timestamp

/-- `TreeNode::set_interval`. -/
def set_interval (n : TreeNode) (new_timestamp : HalfOpenTimeInterval) : TreeNode :=
  { n with timestamp := new_timestamp }

/-- `TreeNode::get_expiry_timestamp`. -/
def get_expiry_timestamp (n : TreeNode) : Nat := n.timestamp.stop

/-- `TreeNode::set_parent`: update parent pointer and incoming-edge interval. -/
def set_parent (n : TreeNode) (parent : VSPair) (edge_ts : HalfOpenTimeInterval) : TreeNode :=
  { n with parent := some parent, incoming_edge_ts := edge_ts }

end TreeNode

/-- A junk node used as the (unreachable) default of `unwrap`s on lookups the
source guarantees to succeed. -/
def junkTreeNode : TreeNode := TreeNode.new 0 0 HalfOpenTimeInterval.ZERO
  HalfOpenTimeInterval.ZERO none

/-! ### `operator::spanning_tree::SpanningTree` -/

/-- `SpanningTree`: the specially stored root node plus a `MinPQIndex` over
`(vertex, state)` pairs prioritised by each node's interval end. -/
structure SpanningTree where
  root_vertex : VSPair
  root_node : TreeNode
  node_queue : MinPQIndex VSPair TreeNode
deriving DecidableEq, Repr

namespace SpanningTree

/-- `SpanningTree::new`. -/
def new (root : Vertex) : SpanningTree :=
  ⟨(root, 0), TreeNode.new root 0 HalfOpenTimeInterval.ZERO HalfOpenTimeInterval.ZERO none,
    MinPQIndex.default⟩

/-- `SpanningTree::get_vertex`. -/
def get_vertex (t : SpanningTree) (pair : VSPair) : Option TreeNode :=
  (t.node_queue.get pair).map (fun e => e.1)

/-- `SpanningTree::get_root_vertex`. -/
def get_root_vertex (t : SpanningTree) : Vertex := t.root_vertex.1

/-- `SpanningTree::contains`. -/
def contains (t : SpanningTree) (node : VSPair) : Bool :=
  (t.node_queue.get node).isSome

/-- `SpanningTree::is_empty`. -/
def is_empty (t : SpanningTree) : Bool := t.node_queue.is_empty

/-- `SpanningTree::add_chilren` (sic): enroll `child` with its parent. -/
def add_chilren (t : SpanningTree) (parent child : VSPair) : SpanningTree :=
  if parent = t.root_vertex then
    { t with root_node := t.root_node.add_child child }
  else
    { t with node_queue := t.node_queue.modifyValue parent (fun n => n.add_child child) }

/-- `SpanningTree::add_vertex`: interval of the new node is the edge interval
when the parent is the root, else the intersection with the parent's
interval; the node is pushed with priority `node_timestamp.end` and the
parent gains a child.  Returns the tree and the created node. -/
def add_vertex (t : SpanningTree) (vertex : Vertex) (state : State)
    (timestamp : HalfOpenTimeInterval) (parent : VSPair) : SpanningTree × TreeNode :=
  let node_timestamp :=
    if t.root_vertex = parent then timestamp
    else HalfOpenTimeInterval.intersect timestamp
      ((t.get_vertex parent).getD junkTreeNode).get_interval
  let new_vertex := TreeNode.new vertex state node_timestamp timestamp (some parent)
  let t := { t with node_queue :=
    (t.node_queue.push (vertex, state) new_vertex node_timestamp.stop) }
  let t := t.add_chilren parent (vertex, state)
  (t, ((t.node_queue.get (vertex, state)).map (fun e => e.1)).getD junkTreeNode)

/-- `SpanningTree::update_parent`: detach the node from its old parent's
children, attach it to the new parent, and record the new parent and
incoming-edge interval on the node. -/
def update_parent (t : SpanningTree) (node new_parent : VSPair)
    (edge_ts : HalfOpenTimeInterval) : SpanningTree :=
  let old_parent_node := (((t.node_queue.get node).map (fun e => e.1)).getD
    junkTreeNode).parent.getD t.root_vertex
  let t :=
    if old_parent_node = t.root_vertex then
      { t with root_node := t.root_node.remove_child node }
    else
      { t with node_queue :=
          (t.node_queue.modifyValue old_parent_node (fun n => n.remove_child node)) }
  let t :=
    if new_parent = t.root_vertex then
      { t with root_node := t.root_node.add_child node }
    else
      { t with node_queue :=
          (t.node_queue.modifyValue new_parent (fun n => n.add_child node)) }
  { t with node_queue :=
      (t.node_queue.modifyValue node (fun n => n.set_parent new_parent edge_ts)) }

/-- `SpanningTree::update_node_expiry`. -/
def update_node_expiry (t : SpanningTree) (node : VSPair) (new_timestamp : Nat) :
    SpanningTree :=
  { t with node_queue := t.node_queue.change_priority node new_timestamp }

/-- `SpanningTree::get_min_timestamp`. -/
def get_min_timestamp (t : SpanningTree) : Nat :=
  match t.node_queue.peek with
  | some e => e.2.2
  | none => U64MAX

/-- Functional counterpart of `get_vertex_mut` followed by a mutation. -/
def modifyVertex (t : SpanningTree) (pair : VSPair) (f : TreeNode → TreeNode) :
    SpanningTree :=
  { t with node_queue := t.node_queue.modifyValue pair f }

/-- One iteration step of `SpanningTree::expiry`'s loop, operating on the
tree together with the `expiry_candidates` side map. -/
def expiryStep (w : Nat) (t : SpanningTree)
    (cands : List (VSPair × TreeNode)) :
    Option (SpanningTree × List (VSPair × TreeNode)) :=
  match t.node_queue.peek with
  | none => none
  | some e =>
    if e.2.2 > w then none
    else
      let tree_node := e.2.1
      let node : VSPair := tree_node.node
      let parent_pair := tree_node.parent.getD t.root_vertex
      let t :=
        if parent_pair = t.root_vertex then
          { t with root_node := t.root_node.remove_child node }
        else
          match assocFind cands parent_pair with
          | some _ => t
          | none => { t with node_queue :=
              (t.node_queue.modifyValue parent_pair (fun n => n.remove_child node)) }
      let cands :=
        match assocFind cands parent_pair with
        | some p => if parent_pair = t.root_vertex then cands
                    else assocUpdate cands parent_pair (p.remove_child node)
        | none => cands
      match t.node_queue.pop with
      | some (popped, rest) =>
        some ({ t with node_queue := rest },
          assocUpdate cands popped.2.1.node popped.2.1)
      | none => some (t, cands)

/-- Fuelled loop of `SpanningTree::expiry` (each iteration pops one node, so
fuel `= |node_queue|` is never exhausted). -/
def expiryGo (w : Nat) : Nat → SpanningTree → List (VSPair × TreeNode) →
    SpanningTree × List (VSPair × TreeNode)
  | 0, t, cands => (t, cands)
  | fuel + 1, t, cands =>
    match expiryStep w t cands with
    | none => (t, cands)
    | some (t2, cands2) => expiryGo w fuel t2 cands2

/-- `SpanningTree::expiry`: remove every node with expiry `≤ low_watermark`
(consulting the in-flight `expiry_candidates` when an expired parent precedes
its expired children) and return the removed `(pair, interval)` list. -/
def expiry (t : SpanningTree) (low_watermark : Nat) :
    SpanningTree × List (VSPair × HalfOpenTimeInterval) :=
  let r := expiryGo low_watermark t.node_queue.entries.length t []
  (r.1, r.2.map (fun e => (e.1, e.2.get_interval)))

end SpanningTree

/-! ### `operator::delta::Delta` -/

/-- The delta indices the driver owns: the inverted node index
`HashMap<VertexStatePair, HashSet<u64>>` and the tree queue
`MinPQIndex<VertexType, SpanningTree>`. -/
abbrev DeltaNodeIndex := List (VSPair × List Vertex)
abbrev DeltaTreeQueue := MinPQIndex Vertex SpanningTree

namespace Delta

/-- `Delta::contains`. -/
def containsTree (tree_queue : DeltaTreeQueue) (vertex : Vertex) : Bool :=
  (tree_queue.get vertex).isSome

/-- `Delta::insert_into_node_index`. -/
def insert_into_node_index (node_index : DeltaNodeIndex) (vertex : Vertex)
    (state : State) (tree_root : Vertex) : DeltaNodeIndex :=
  let containing := (assocFind node_index (vertex, state)).getD []
  let containing := if containing.contains tree_root then containing
                    else containing ++ [tree_root]
  assocUpdate node_index (vertex, state) containing

/-- `Delta::remove_from_node_index` (drops the key when its set empties). -/
def remove_from_node_index (node_index : DeltaNodeIndex) (vertex : Vertex)
    (state : State) (tree_root : Vertex) : DeltaNodeIndex :=
  let containing := (assocFind node_index (vertex, state)).getD []
  let containing := containing.filter (fun r => decide (r ≠ tree_root))
  if containing.isEmpty then assocErase node_index (vertex, state)
  else assocUpdate node_index (vertex, state) containing

/-- `Delta::add_spanning_tree`: a fresh tree with priority `u64::MAX`, and
`(root, 0)` recorded in the node index. -/
def add_spanning_tree (node_index : DeltaNodeIndex) (tree_queue : DeltaTreeQueue)
    (vertex : Vertex) : DeltaNodeIndex × DeltaTreeQueue :=
  (insert_into_node_index node_index vertex 0 vertex,
   tree_queue.push vertex (SpanningTree.new vertex) U64MAX)

/-- `Delta::remove_spanning_tree` (the non-empty case panics in the source;
the driver only calls it on empty trees). -/
def remove_spanning_tree (node_index : DeltaNodeIndex) (tree : SpanningTree) :
    DeltaNodeIndex :=
  remove_from_node_index node_index tree.get_root_vertex 0 tree.get_root_vertex

/-- `Delta::get_updatable_trees` = `get_containing_trees`. -/
def get_updatable_trees (node_index : DeltaNodeIndex) (source_vertex : Vertex)
    (source_state : State) : List Vertex :=
  (assocFind node_index (source_vertex, source_state)).getD []

/-- `Delta::update_tree_expiry`. -/
def update_tree_expiry (tree_queue : DeltaTreeQueue) (vertex : Vertex)
    (min_timestamp : Nat) : DeltaTreeQueue :=
  tree_queue.change_priority vertex min_timestamp

/-- `Delta::get_expired_trees`: pop all trees with priority `≤ low_watermark`. -/
def get_expired_trees (tree_queue : DeltaTreeQueue) (low_watermark : Nat) :
    List SpanningTree × DeltaTreeQueue :=
  let r := tree_queue.popAllLe low_watermark
  (r.1.map (fun e => e.2.1), r.2)

end Delta

/-! ### `operator::rpq.rs`: `tree_expand` and the driver body -/

/-- `input::tuple::StreamingGraphTuple`. -/
structure StreamingGraphTuple where
  source : Vertex
  target : Vertex
  label : Label
  interval : HalfOpenTimeInterval
  append : Bool
deriving DecidableEq, Repr

/-- The state of `tree_expand`'s work-queue loop: the tree being grown, the
pending queue of `(parent, child, interval)` triples, and the accumulated
reachability results. -/
structure ExpandCfg where
  tree : SpanningTree
  queue : List (VSPair × VSPair × HalfOpenTimeInterval)
  results : List (VSPair × HalfOpenTimeInterval)
deriving Repr

/-- The body of one iteration of `tree_expand`'s `while` loop, applied to the
dequeued `(node, child, child_ts)` triple. -/
def treeExpandStep (graph : Graph) (item : VSPair × VSPair × HalfOpenTimeInterval)
    (tree : SpanningTree) (results : List (VSPair × HalfOpenTimeInterval)) :
    SpanningTree × List (VSPair × VSPair × HalfOpenTimeInterval) ×
      List (VSPair × HalfOpenTimeInterval) :=
  let node := item.1
  let child := item.2.1
  let child_ts := item.2.2
  if ((tree.get_root_vertex, 0) = node) ∨
      (((tree.get_vertex node).map
        (fun v => v.get_interval.overlaps child_ts)).getD false = true) then
    if !tree.contains child then
      let r := tree.add_vertex child.1 child.2 child_ts node
      let child_node := r.2
      let neighbours := (graph.get_outgoing_edges child.1 child.2).filter
        (fun e => child_node.get_interval.overlaps e.2)
      (r.1, neighbours.map (fun e => (child, e.1, e.2)),
       results ++ [(child, child_node.get_interval)])
    else
      let new_interval :=
        if (tree.get_root_vertex, 0) = node then child_ts
        else HalfOpenTimeInterval.intersect child_ts
          ((tree.get_vertex node).getD junkTreeNode).get_interval
      let child_node := (tree.get_vertex child).getD junkTreeNode
      if child_node.get_expiry_timestamp < new_interval.stop then
        let old_expiry_timestamp := child_node.get_expiry_timestamp
        let tree := tree.update_parent child node child_ts
        let tree := tree.modifyVertex child (fun n => n.set_interval new_interval)
        let tree := tree.update_node_expiry child new_interval.stop
        let neighbours := graph.get_outgoing_edges_larger_than child.1 child.2
          old_expiry_timestamp
        (tree, neighbours.map (fun e => (child, e.1, e.2)),
         results ++ [(child, new_interval)])
      else (tree, [], results)
  else (tree, [], results)

/-- Fuelled work-queue loop of `tree_expand`.  Newly produced triples are
appended behind the remaining queue (`VecDeque::push_back`). -/
def treeExpandGo (graph : Graph) : Nat → ExpandCfg → ExpandCfg
  | 0, cfg => cfg
  | fuel + 1, cfg =>
    match cfg.queue with
    | [] => cfg
    | item :: rest =>
      let r := treeExpandStep graph item cfg.tree cfg.results
      treeExpandGo graph fuel ⟨r.1, rest ++ r.2.1, r.2.2⟩

/-! The fuel supplied to `treeExpandGo` is a potential function that strictly
decreases at every loop iteration, so the loop always drains its queue before
the fuel runs out (the termination theorem for claim C10 below). -/

/-- All interval ends stored in any forward adjacency entry of the graph —
every interval the loop can dequeue from `get_outgoing_edges` ends in this
list. -/
def Graph.allOutEnds (g : Graph) : List Nat :=
  g.node_index.entries.flatMap (fun n =>
    n.2.1.outgoing_edges.flatMap (fun lp => lp.2.entries.map (fun e => e.2.2)))

/-- All `(vertex, state)` pairs that can ever be enqueued as a child from the
graph: a forward-adjacency neighbour paired with a DFA forward target. -/
def Graph.allOutPairs (g : Graph) : List VSPair :=
  (g.query_automata.forward_transitions.flatMap (fun l => l.map (fun e => e.2))).flatMap
    (fun ts =>
      (g.node_index.entries.flatMap (fun n =>
        n.2.1.outgoing_edges.flatMap (fun lp => lp.2.entries.map (fun e => e.1)))).map
        (fun tv => (tv, ts)))

/-- A uniform bound on the length of any `get_outgoing_edges` /
`get_outgoing_edges_larger_than` enumeration. -/
def Graph.enqBound (g : Graph) : Nat :=
  (g.query_automata.forward_transitions.flatMap id).length *
    ((g.node_index.entries.flatMap (fun n =>
      n.2.1.outgoing_edges.map (fun lp => lp.2.entries.length))).foldr max 0)

/-- The interval ends of all nodes of a spanning tree. -/
def SpanningTree.allEnds (t : SpanningTree) : List Nat :=
  t.node_queue.entries.map (fun e => e.2.1.timestamp.stop)

/-- Remaining-work cost of one candidate pair: pairs not yet in the tree may
still be added (cost `|E| + 1`), pairs in the tree may still have their end
raised to a strictly larger element of `E`. -/
def costOf (E : List Nat) (t : SpanningTree) (p : VSPair) : Nat :=
  match t.get_vertex p with
  | some n => E.countP (fun e => decide (e > n.timestamp.stop))
  | none => E.length + 1

/-- The potential of a loop configuration. -/
def expandPotential (E : List Nat) (S : List VSPair) (W : Nat) (cfg : ExpandCfg) : Nat :=
  W * (S.dedup.map (costOf E cfg.tree)).sum + cfg.queue.length

/-- The interval a spanning tree currently stores for a pair (the view the
termination potential reads). -/
def SpanningTree.tsView (t : SpanningTree) (p : VSPair) :
    Option HalfOpenTimeInterval :=
  (t.get_vertex p).map (fun n => n.timestamp)

/-- The interval `SpanningTree.add_vertex` stores for the inserted node. -/
def addVertexInterval (t : SpanningTree) (ts : HalfOpenTimeInterval)
    (parent : VSPair) : HalfOpenTimeInterval :=
  if t.root_vertex = parent then ts
  else HalfOpenTimeInterval.intersect ts
    ((t.get_vertex parent).getD junkTreeNode).get_interval

/-- The `new_interval` computed in the already-contained branch of
`treeExpandStep`. -/
def expandNewInterval (tree : SpanningTree)
    (item : VSPair × VSPair × HalfOpenTimeInterval) : HalfOpenTimeInterval :=
  if (tree.get_root_vertex, 0) = item.1 then item.2.2
  else HalfOpenTimeInterval.intersect item.2.2
    ((tree.get_vertex item.1).getD junkTreeNode).get_interval

/-- End-candidates of a run: zero (the end of the junk node's interval), the
ends already in the tree, the ends of queued items, and every end stored in
the graph's forward adjacency. -/
def expandEnds (graph : Graph) (cfg : ExpandCfg) : List Nat :=
  0 :: (cfg.tree.allEnds ++ cfg.queue.map (fun i => i.2.2.stop) ++ graph.allOutEnds)

/-- Child-candidates of a run: the children of queued items and every
graph-derivable pair. -/
def expandPairs (graph : Graph) (cfg : ExpandCfg) : List VSPair :=
  cfg.queue.map (fun i => i.2.1) ++ graph.allOutPairs

/-- The fuel `tree_expand` runs `treeExpandGo` with: the initial potential. -/
def expandFuel (graph : Graph) (cfg : ExpandCfg) : Nat :=
  expandPotential (expandEnds graph cfg) (expandPairs graph cfg)
    (graph.enqBound + 1) cfg

/-- `rpq::tree_expand`: seed the work queue with the single new evidence
triple and drain it; returns the reachability results and the grown tree
(the graph is only read). -/
def tree_expand (tree : SpanningTree) (graph : Graph) (source_vertex : Vertex)
    (source_state : State) (target_vertex : Vertex) (target_state : State)
    (edge_ts : HalfOpenTimeInterval) :
    List (VSPair × HalfOpenTimeInterval) × SpanningTree :=
  let cfg0 : ExpandCfg :=
    ⟨tree, [((source_vertex, source_state), (target_vertex, target_state), edge_ts)], []⟩
  let r := treeExpandGo graph (expandFuel graph cfg0) cfg0
  (r.results, r.tree)

/-! ### The driver state and the notificator body of `regular_path_query` -/

/-- The mutable state owned by the `regular_path_query` operator closure:
the product graph, the inverted delta node index and the tree queue. -/
structure RPQState where
  graph : Graph
  delta_node_index : DeltaNodeIndex
  delta_tree_queue : DeltaTreeQueue
deriving DecidableEq, Repr

/-- A fresh driver state for a compiled DFA (empty graph, empty delta). -/
def RPQState.init (dfa : DFA) : RPQState :=
  ⟨Graph.new dfa, [], MinPQIndex.default⟩

/-- The expansion block of the driver (rpq.rs lines 145-182) for one tuple
that increased an expiry: for every DFA transition of the label, lazily
create a tree rooted at the source, expand every tree containing
`(source, source_state)`, emit results whose endpoint state is final, and
refresh indices. -/
def expandTuple (st : RPQState) (output_label : Label) (source target : Vertex)
    (label : Label) (interval : HalfOpenTimeInterval) :
    RPQState × List StreamingGraphTuple :=
  let transitions := st.graph.query_automata.get_transitions label
  transitions.foldl (fun acc t =>
    let source_state := t.1
    let target_state := t.2
    let st1 := acc.1
    let st2 :=
      if source_state = 0 ∧ ¬ Delta.containsTree st1.delta_tree_queue source then
        let a := Delta.add_spanning_tree st1.delta_node_index st1.delta_tree_queue source
        { st1 with delta_node_index := a.1, delta_tree_queue := a.2 }
      else st1
    let updateable := Delta.get_updatable_trees st2.delta_node_index source source_state
    updateable.foldl (fun acc2 tree_root =>
      let st3 := acc2.1
      match st3.delta_tree_queue.get tree_root with
      | none => acc2
      | some (tree, _) =>
        let er := tree_expand tree st3.graph source source_state target target_state
          interval
        let tq := st3.delta_tree_queue.modifyValue tree_root (fun _ => er.2)
        let emits := (er.1.filter (fun ru =>
          st3.graph.query_automata.is_final_state ru.1.2)).map (fun ru =>
            StreamingGraphTuple.mk tree_root ru.1.1 output_label ru.2 true)
        let ni := er.1.foldl (fun ni2 ru =>
          Delta.insert_into_node_index ni2 ru.1.1 ru.1.2 tree_root) st3.delta_node_index
        let tq := Delta.update_tree_expiry tq tree_root er.2.get_min_timestamp
        (⟨st3.graph, ni, tq⟩, acc2.2 ++ emits)) (st2, acc.2)) (st, [])

/-- What the driver does with a single (deduplicated) stashed tuple at a
closed timestamp: insert it into the product graph, and run the expansion
block only when the insert reported an increased expiry. -/
def processTuple (st : RPQState) (output_label : Label) (source target : Vertex)
    (label : Label) (interval : HalfOpenTimeInterval) :
    RPQState × List StreamingGraphTuple :=
  let r := st.graph.insert_edge source label target interval
  let st1 := { st with graph := r.2 }
  if r.1 then expandTuple st1 output_label source target label interval
  else (st1, [])

/-- The notificator body of `regular_path_query` for one closed timestamp
`low_watermark`: (1) evict expired product-graph edges; (2) pop expired
trees, expire their nodes, clean the node index, drop empty trees, push the
rest back; (3) insert the stashed tuples, remembering which grew an expiry;
(4) expand exactly those. -/
def processClosedTime (st : RPQState) (output_label : Label) (low_watermark : Nat)
    (stash : List ((Vertex × Vertex × Label) × HalfOpenTimeInterval)) :
    RPQState × List StreamingGraphTuple :=
  let st := { st with graph := st.graph.remove_edges low_watermark }
  let ex := Delta.get_expired_trees st.delta_tree_queue low_watermark
  let st := ex.1.foldl (fun acc tree =>
      let tree_root := tree.get_root_vertex
      let er := tree.expiry low_watermark
      let ni := er.2.foldl (fun ni2 rn =>
        Delta.remove_from_node_index ni2 rn.1.1 rn.1.2 tree_root) acc.delta_node_index
      if er.1.is_empty then
        { acc with delta_node_index := Delta.remove_spanning_tree ni er.1 }
      else
        { acc with
            delta_node_index := ni
            delta_tree_queue :=
              (acc.delta_tree_queue.push tree_root er.1 er.1.get_min_timestamp) })
    { st with delta_tree_queue := ex.2 }
  let ins := stash.foldl (fun acc kv =>
      let r := acc.1.insert_edge kv.1.1 kv.1.2.2 kv.1.2.1 kv.2
      (r.2, if r.1 then acc.2 ++ [kv] else acc.2)) (st.graph, [])
  let st := { st with graph := ins.1 }
  ins.2.foldl (fun acc kv =>
      let r := expandTuple acc.1 output_label kv.1.1 kv.1.2.1 kv.1.2.2 kv.2
      (r.1, acc.2 ++ r.2)) (st, [])

/-! ### Views and well-formedness predicates used by the theorems -/

/-- Does a key occur at most once / how often? -/
def MinPQIndex.keysNodup {K V : Type} (pq : MinPQIndex K V) : Prop :=
  (pq.entries.map Prod.fst).Nodup

/-- Number of entries carrying the key. -/
def MinPQIndex.countKey {K V : Type} [DecidableEq K] (pq : MinPQIndex K V) (k : K) : Nat :=
  pq.entries.countP (fun e => decide (e.1 = k))

instance {K V : Type} [DecidableEq K] (pq : MinPQIndex K V) :
    Decidable pq.keysNodup :=
  inferInstanceAs (Decidable (pq.entries.map Prod.fst).Nodup)

/-- The value stored at a key, without its priority. -/
def MinPQIndex.getValue {K V : Type} [DecidableEq K] (pq : MinPQIndex K V) (k : K) :
    Option V :=
  (pq.get k).map Prod.fst

/-- The `(start, end)` data a node stores for neighbour `v` under label `l`
in its outgoing table. -/
def GraphNode.outEntryN (n : GraphNode) (l : Label) (v : Vertex) : Option (Nat × Nat) :=
  ((assocFind n.outgoing_edges l).getD MinPQIndex.default).get v

/-- The `(start, end)` data a node stores for `u` under label `l` in its
incoming table. -/
def GraphNode.inEntryN (n : GraphNode) (l : Label) (u : Vertex) : Option (Nat × Nat) :=
  ((assocFind n.incoming_edges l).getD MinPQIndex.default).get u

/-- The `(start, end)` data stored for the forward edge `(u, l, v)`:
the entry for neighbour `v` under label `l` in `u`'s outgoing table. -/
def Graph.outEntry (g : Graph) (u : Vertex) (l : Label) (v : Vertex) :
    Option (Nat × Nat) :=
  match g.get_node u with
  | some n => n.outEntryN l v
  | none => none

/-- The `(start, end)` data stored for the backward edge `(u, l, v)`:
the entry for `u` under label `l` in `v`'s incoming table. -/
def Graph.inEntry (g : Graph) (v : Vertex) (l : Label) (u : Vertex) :
    Option (Nat × Nat) :=
  match g.get_node v with
  | some n => n.inEntryN l u
  | none => none

/-- The node stored at `source` after the forward phase of `insert_edge`. -/
def Graph.insertNodeA (g : Graph) (source : Vertex) (label : Label) (target : Vertex)
    (i : HalfOpenTimeInterval) : GraphNode :=
  (((g.get_node source).getD (GraphNode.new source)).add_outgoing_neighbour
    label target i).2

/-- The node stored at `target` after both phases of `insert_edge`. -/
def Graph.insertNodeB (g : Graph) (source : Vertex) (label : Label) (target : Vertex)
    (i : HalfOpenTimeInterval) : GraphNode :=
  let vAt1 := if target = source then some (g.insertNodeA source label target i)
    else g.get_node target
  ((vAt1.getD (GraphNode.new target)).add_incoming_neighbour label source i).2

/-- The node index right after the forward phase of `insert_edge`
(including the `try_decrease_priority` on the source). -/
def Graph.insertMid (g : Graph) (source : Vertex) (label : Label) (target : Vertex)
    (i : HalfOpenTimeInterval) : MinPQIndex Vertex GraphNode :=
  (match g.node_index.get source with
    | some (entry, _) =>
      g.node_index.modifyValue source
        (fun _ => (entry.add_outgoing_neighbour label target i).2)
    | none =>
      g.node_index.push source
        (((GraphNode.new source).add_outgoing_neighbour label target i).2)
        i.get_end).try_decrease_priority source i.get_end

/-- The node index after both phases of `insert_edge` (before the final
`try_decrease_priority` on the target). -/
def Graph.insertMid2 (g : Graph) (source : Vertex) (label : Label) (target : Vertex)
    (i : HalfOpenTimeInterval) : MinPQIndex Vertex GraphNode :=
  match (g.insertMid source label target i).get target with
  | some (entry, _) =>
    (g.insertMid source label target i).modifyValue target
      (fun _ => (entry.add_incoming_neighbour label source i).2)
  | none =>
    (g.insertMid source label target i).push target
      (((GraphNode.new target).add_incoming_neighbour label source i).2)
      i.get_end

/-- The queue priority of `source` right after `insert_edge`'s forward
phase: the old priority lowered to the new expiry if that is smaller. -/
def Graph.insertPrioA (g : Graph) (source : Vertex) (i : HalfOpenTimeInterval) : Nat :=
  match g.node_index.get source with
  | some w => min w.2 i.get_end
  | none => i.get_end

/-- The queue priority of `target` after the backward-phase upsert but
before the final `try_decrease_priority`. -/
def Graph.insertPrioMid (g : Graph) (source target : Vertex)
    (i : HalfOpenTimeInterval) : Nat :=
  if target = source then g.insertPrioA source i
  else match g.node_index.get target with
    | some w => w.2
    | none => i.get_end

/-- The queue priority of `target` after `insert_edge`. -/
def Graph.insertPrioB (g : Graph) (source target : Vertex)
    (i : HalfOpenTimeInterval) : Nat :=
  min (g.insertPrioMid source target i) i.get_end

/-- The node `remove_edges` computes for a popped entry: expired incoming
then expired outgoing edges pruned. -/
def Graph.pruneR (w : Nat) (e : Vertex × GraphNode × Nat) : GraphNode :=
  ((e.2.1.remove_expired_inedges w).2.remove_expired_outedges w).2

/-- The priority `remove_edges` pushes a pruned node back with: the minimum
of the two per-side minimum remaining expiries. -/
def Graph.prioR (w : Nat) (e : Vertex × GraphNode × Nat) : Nat :=
  min ((e.2.1.remove_expired_inedges w).2.remove_expired_outedges w).1
    (e.2.1.remove_expired_inedges w).1

/-- Is the pruned node pushed back (i.e. not isolated)? -/
def Graph.keepR (w : Nat) (e : Vertex × GraphNode × Nat) : Bool :=
  !(Graph.pruneR w e).is_isolated

/-- Structural well-formedness of one adjacency node: label keys and, per
label, neighbour keys occur at most once. -/
def GraphNode.wfKeys (n : GraphNode) : Prop :=
  (n.outgoing_edges.map Prod.fst).Nodup ∧ (n.incoming_edges.map Prod.fst).Nodup ∧
  (∀ lp ∈ n.outgoing_edges, lp.2.keysNodup) ∧
  (∀ lp ∈ n.incoming_edges, lp.2.keysNodup)

/-- `q` is a lower bound on the expiry of every edge stored in the node, on
both sides. -/
def GraphNode.endsLB (n : GraphNode) (q : Nat) : Prop :=
  (∀ lp ∈ n.outgoing_edges, ∀ t ∈ lp.2.entries, q ≤ t.2.2) ∧
  (∀ lp ∈ n.incoming_edges, ∀ t ∈ lp.2.entries, q ≤ t.2.2)

/-- Invariant G2 in bounded (decidable) form: every forward entry has the
matching backward entry and vice versa. -/
def Graph.mirrorBounded (g : Graph) : Prop :=
  (∀ e ∈ g.node_index.entries, ∀ lp ∈ e.2.1.outgoing_edges, ∀ t ∈ lp.2.entries,
    g.inEntry t.1 lp.1 e.1 = some t.2) ∧
  (∀ e ∈ g.node_index.entries, ∀ lp ∈ e.2.1.incoming_edges, ∀ t ∈ lp.2.entries,
    g.outEntry e.1 lp.1 t.1 = some t.2)

/-- Invariant G2 in unbounded form: the two lookup views agree everywhere. -/
def Graph.mirror (g : Graph) : Prop :=
  ∀ u l v, g.outEntry u l v = g.inEntry v l u

/-- The node-index priority of a vertex is a lower bound on the expiry of
every edge incident to it (what `try_decrease_priority` maintains; invariant
G3 interpreted as the eviction code relies on it). -/
def Graph.prioLB (g : Graph) : Prop :=
  ∀ e ∈ g.node_index.entries,
    (∀ lp ∈ e.2.1.outgoing_edges, ∀ t ∈ lp.2.entries, e.2.2 ≤ t.2.2) ∧
    (∀ lp ∈ e.2.1.incoming_edges, ∀ t ∈ lp.2.entries, e.2.2 ≤ t.2.2)

/-- The full product-graph invariant the theorems use. -/
def Graph.wf (g : Graph) : Prop :=
  g.node_index.keysNodup ∧ (∀ e ∈ g.node_index.entries, e.2.1.wfKeys) ∧
  g.mirrorBounded ∧ g.prioLB

/-- The invariant maintained by the two mutating operations: unique keys
everywhere, priorities bounding incident expiries (G3 as the eviction code
relies on it), and unbounded mutual consistency (G2). -/
def Graph.inv (g : Graph) : Prop :=
  g.node_index.keysNodup ∧ (∀ e ∈ g.node_index.entries, e.2.1.wfKeys) ∧
  g.prioLB ∧ g.mirror

/-- Product-graph states reachable from an empty graph by the two mutating
operations. -/
inductive Graph.Reachable : Graph → Prop where
  | empty (dfa : DFA) : Graph.Reachable (Graph.new dfa)
  | insert {g : Graph} (h : Graph.Reachable g) (source : Vertex) (label : Label)
      (target : Vertex) (interval : HalfOpenTimeInterval) :
      Graph.Reachable (g.insert_edge source label target interval).2
  | evict {g : Graph} (h : Graph.Reachable g) (w : Nat) :
      Graph.Reachable (g.remove_edges w)

/-- Every backward transition entry of the DFA has a matching forward entry —
this is what incoming/outgoing symmetry needs from the automaton, and it can
fail for the tables `DFA::add_transition` actually builds (claim C7). -/
def DFA.backwardSoundness (d : DFA) : Prop :=
  ∀ s, ∀ ls ∈ d.get_incoming_transitions s,
    (ls.1, s) ∈ d.get_outgoing_transitions ls.2

/-- The grammar-accepted query `a*/b*/a*` (claim C6's failing input). -/
def reABA : RE :=
  RE.cat (RE.cat (RE.star (RE.pred "a")) (RE.star (RE.pred "b"))) (RE.star (RE.pred "a"))

/-- The DFA the compilation pipeline produces for `a*/b*/a*`. -/
def dfaABA : DFA := minimize (determinize (thompsonOf reABA))

/-! ### Concrete instances used by counterexamples and witnesses -/

/-- The DFA compiled from the query `a+` (state 1 is final and carries the
`a` self-loop, so two transitions with label `a` enter state 1). -/
def dfaAPlus : DFA := minimize (determinize (thompsonOf (RE.plus (RE.pred "a"))))

/-- A product graph over `dfaAPlus` holding the single window edge
`10 —a→ 20` with interval `[1, 9)`. -/
def gAPlus : Graph := ((Graph.new dfaAPlus).insert_edge 10 "a" 20 ⟨1, 9⟩).2

/-- The DFA compiled from the query `a` (`0 —a→ 1`, state 1 final). -/
def dfaA1 : DFA := minimize (determinize (thompsonOf (RE.pred "a")))

/-- Driver state after inserting `(1, a, 2, [1, 10))` into a fresh driver. -/
def c8st1 : RPQState := (processTuple (RPQState.init dfaA1) "res" 1 2 "a" ⟨1, 10⟩).1

/-- A two-step DFA `0 —a→ 1 —b→ 2` (final 2), as used in claim C4's scenario. -/
def dfaAB : DFA := ((DFA.new 3 [2]).add_transition 0 1 "a").add_transition 1 2 "b"

/-- Product graph holding `1 —a→ 2 [1,5)` and `2 —b→ 3 [1,5)`. -/
def gC4a : Graph :=
  (((Graph.new dfaAB).insert_edge 1 "a" 2 ⟨1, 5⟩).2.insert_edge 2 "b" 3 ⟨1, 5⟩).2

/-- The spanning tree rooted at 1 grown from the edge `1 —a→ 2 [1,5)`:
it contains `(2,1)` with interval `[1,5)` and its child `(3,2)` with
interval `[1,5)`. -/
def tC4a : SpanningTree := (tree_expand (SpanningTree.new 1) gC4a 1 0 2 1 ⟨1, 5⟩).2

/-- The same graph after the edge `1 —a→ 2` grows to `[3, 8)`. -/
def gC4b : Graph := (gC4a.insert_edge 1 "a" 2 ⟨3, 8⟩).2

/-- The tree after re-expanding with the grown edge: `(2,1)` is updated to
`[3,8)` but its child `(3,2)` keeps the stale interval `[1,5)`. -/
def tC4b : SpanningTree := (tree_expand tC4a gC4b 1 0 2 1 ⟨3, 8⟩).2

/-!
# Theorems

First a toolbox of lemmas about the container models, then one theorem per
claim (with witnesses and counterexamples where required).
-/

namespace MinPQIndex

variable {K V : Type} [DecidableEq K]

omit [DecidableEq K] in
theorem entries_eta (pq : MinPQIndex K V) : (⟨pq.entries⟩ : MinPQIndex K V) = pq := rfl

theorem get_nil (k : K) : (⟨[]⟩ : MinPQIndex K V).get k = none := rfl

theorem get_cons (e : K × V × Nat) (es : List (K × V × Nat)) (k : K) :
    (⟨e :: es⟩ : MinPQIndex K V).get k =
      if e.1 = k then some e.2 else (⟨es⟩ : MinPQIndex K V).get k := by
  by_cases h : e.1 = k
  · simp [get, List.find?_cons_of_pos, h]
  · simp [get, List.find?_cons_of_neg, h]

theorem hasKey_cons (e : K × V × Nat) (es : List (K × V × Nat)) (k : K) :
    (⟨e :: es⟩ : MinPQIndex K V).hasKey k =
      (decide (e.1 = k) || (⟨es⟩ : MinPQIndex K V).hasKey k) := by
  simp [hasKey]

theorem hasKey_iff (pq : MinPQIndex K V) (k : K) :
    pq.hasKey k = true ↔ (pq.get k).isSome = true := by
  rcases pq with ⟨l⟩
  induction l with
  | nil => simp [hasKey, get]
  | cons e es ih =>
    rw [hasKey_cons, get_cons]
    by_cases h : e.1 = k <;> simp [h, ih]

theorem get_none_of_hasKey_false {pq : MinPQIndex K V} {k : K}
    (h : pq.hasKey k = false) : pq.get k = none := by
  cases hgk : pq.get k with
  | none => rfl
  | some w =>
    have : pq.hasKey k = true := (hasKey_iff pq k).mpr (by simp [hgk])
    rw [h] at this; cases this

theorem get_append (l l' : List (K × V × Nat)) (k : K) :
    (⟨l ++ l'⟩ : MinPQIndex K V).get k =
      match (⟨l⟩ : MinPQIndex K V).get k with
      | some w => some w
      | none => (⟨l'⟩ : MinPQIndex K V).get k := by
  induction l with
  | nil => simp [get_nil]
  | cons e es ih =>
    rw [List.cons_append, get_cons, get_cons]
    by_cases he : e.1 = k <;> simp [he, ih]

theorem get_updPrio_self (l : List (K × V × Nat)) (k : K) (p : Nat) :
    (⟨l.map (fun e => if e.1 = k then (e.1, e.2.1, p) else e)⟩ : MinPQIndex K V).get k =
      ((⟨l⟩ : MinPQIndex K V).get k).map (fun w => (w.1, p)) := by
  induction l with
  | nil => simp [get_nil]
  | cons e es ih =>
    by_cases he : e.1 = k
    · simp only [List.map_cons, if_pos he]
      rw [get_cons, get_cons, if_pos he]
      simp [he]
    · simp only [List.map_cons, if_neg he]
      rw [get_cons, get_cons, if_neg he, if_neg he]
      exact ih

theorem get_updPrio_ne (l : List (K × V × Nat)) {k k' : K} (p : Nat)
    (h : k' ≠ k) :
    (⟨l.map (fun e => if e.1 = k then (e.1, e.2.1, p) else e)⟩ : MinPQIndex K V).get k' =
      (⟨l⟩ : MinPQIndex K V).get k' := by
  induction l with
  | nil => simp [get_nil]
  | cons e es ih =>
    by_cases he : e.1 = k
    · simp only [List.map_cons, if_pos he]
      rw [get_cons, get_cons]
      have h1 : ¬ ((e.1, e.2.1, p).1 = k') := by
        simp only []
        rw [he]; exact fun hh => h hh.symm
      have h2 : ¬ (e.1 = k') := by rw [he]; exact fun hh => h hh.symm
      rw [if_neg h1, if_neg h2]
      exact ih
    · simp only [List.map_cons, if_neg he]
      rw [get_cons, get_cons]
      by_cases he' : e.1 = k' <;> simp [he', ih]

theorem get_push_self (pq : MinPQIndex K V) (k : K) (v : V) (p : Nat) :
    (pq.push k v p).get k = some (((pq.get k).map Prod.fst).getD v, p) := by
  rcases pq with ⟨l⟩
  unfold push
  by_cases h : MinPQIndex.hasKey ⟨l⟩ k
  · simp only [h, if_true]
    rcases Option.isSome_iff_exists.mp ((hasKey_iff _ k).mp h) with ⟨w, hw⟩
    rw [get_updPrio_self, hw]
    simp [hw]
  · simp only [h, if_false, Bool.false_eq_true]
    have hn := get_none_of_hasKey_false (by simpa using h)
    rw [get_append, hn]
    simp [hn, get_cons]

theorem get_push_ne (pq : MinPQIndex K V) {k k' : K} (v : V) (p : Nat)
    (h : k' ≠ k) : (pq.push k v p).get k' = pq.get k' := by
  rcases pq with ⟨l⟩
  unfold push
  by_cases hk : MinPQIndex.hasKey ⟨l⟩ k
  · simp only [hk, if_true]
    exact get_updPrio_ne l p h
  · simp only [hk, if_false, Bool.false_eq_true]
    rw [get_append]
    cases hg : MinPQIndex.get ⟨l⟩ k' <;> simp [get_cons, get_nil, h.symm, hg]

theorem keysNodup_push {pq : MinPQIndex K V} (k : K) (v : V) (p : Nat)
    (h : pq.keysNodup) : (pq.push k v p).keysNodup := by
  unfold push
  by_cases hk : pq.hasKey k
  · simp only [hk, if_true]
    unfold keysNodup at h ⊢
    have : (pq.entries.map (fun e => if e.1 = k then (e.1, e.2.1, p) else e)).map
        Prod.fst = pq.entries.map Prod.fst := by
      rw [List.map_map]
      apply List.map_congr_left
      intro e _
      by_cases he : e.1 = k <;> simp [he]
    rwa [this]
  · simp only [hk, if_false, Bool.false_eq_true]
    unfold keysNodup at h ⊢
    rw [List.map_append, List.nodup_append]
    refine ⟨h, List.nodup_singleton k, ?_⟩
    intro a ha hb
    simp at hb
    subst hb
    unfold hasKey at hk
    rw [List.any_eq_true] at hk
    rcases List.mem_map.mp ha with ⟨e, he, hke⟩
    exact hk ⟨e, he, by simp [hke]⟩

theorem countKey_le_one {pq : MinPQIndex K V} (k : K)
    (h : pq.keysNodup) : pq.countKey k ≤ 1 := by
  rcases pq with ⟨l⟩
  unfold countKey keysNodup at *
  induction l with
  | nil => simp
  | cons e es ih =>
    simp only [List.map_cons, List.nodup_cons] at h
    rw [List.countP_cons]
    by_cases he : e.1 = k
    · have h0 : es.countP (fun e => decide (e.1 = k)) = 0 := by
        rw [List.countP_eq_zero]
        intro a ha hka
        exact h.1 (List.mem_map.mpr ⟨a, ha, by simpa using (by
          rw [he]; simpa using hka.symm : a.1 = e.1)⟩)
      simp [he, h0]
    · simpa [he] using ih h.2

theorem countKey_pos_of_hasKey {pq : MinPQIndex K V} {k : K}
    (h : pq.hasKey k = true) : 1 ≤ pq.countKey k := by
  unfold hasKey at h
  unfold countKey
  rw [List.any_eq_true] at h
  rcases h with ⟨e, he, hke⟩
  exact List.countP_pos_iff.mpr ⟨e, he, hke⟩

theorem countKey_push_self {pq : MinPQIndex K V} (k : K) (v : V) (p : Nat)
    (h : pq.keysNodup) : (pq.push k v p).countKey k = 1 := by
  have hnd : (pq.push k v p).keysNodup := keysNodup_push k v p h
  have hk : (pq.push k v p).hasKey k = true := by
    rw [hasKey_iff, get_push_self]; rfl
  have h1 : (pq.push k v p).countKey k ≤ 1 := countKey_le_one k hnd
  have h2 := countKey_pos_of_hasKey hk
  omega

theorem get_mapKeyPres (l : List (K × V × Nat)) (k : K)
    (g : K × V × Nat → K × V × Nat) (hg : ∀ e, (g e).1 = e.1) (k' : K) :
    (⟨l.map (fun e => if e.1 = k then g e else e)⟩ : MinPQIndex K V).get k' =
      (if k' = k then ((⟨l⟩ : MinPQIndex K V).get k').map (fun w => (g (k', w)).2)
       else (⟨l⟩ : MinPQIndex K V).get k') := by
  by_cases hk : k' = k
  · subst hk
    simp only [if_true]
    induction l with
    | nil => simp [get_nil]
    | cons e es ih =>
      by_cases he : e.1 = k'
      · simp only [List.map_cons, if_pos he]
        rw [get_cons, get_cons]
        rw [hg e, he]
        have he2 : (k', e.2) = e := by
          rcases e with ⟨e1, e2⟩; simp at he ⊢; exact he.symm
        simp [he2]
      · simp only [List.map_cons, if_neg he]
        rw [get_cons, get_cons, if_neg he, if_neg he]
        exact ih
  · simp only [if_neg hk]
    induction l with
    | nil => simp [get_nil]
    | cons e es ih =>
      by_cases he : e.1 = k
      · simp only [List.map_cons, if_pos he]
        rw [get_cons, get_cons]
        rw [hg e]
        have : ¬ (e.1 = k') := by rw [he]; exact fun hh => hk hh.symm
        rw [if_neg this, if_neg this]
        exact ih
      · simp only [List.map_cons, if_neg he]
        rw [get_cons, get_cons]
        by_cases he' : e.1 = k' <;> simp [he', ih]

theorem get_modifyValue (pq : MinPQIndex K V) (k : K) (f : V → V) (k' : K) :
    (pq.modifyValue k f).get k' =
      (if k' = k then (pq.get k').map (fun w => (f w.1, w.2)) else pq.get k') := by
  rcases pq with ⟨l⟩
  exact get_mapKeyPres l k (fun e => (e.1, f e.2.1, e.2.2)) (fun e => rfl) k'

theorem get_change_priority (pq : MinPQIndex K V) (k : K) (p : Nat) (k' : K) :
    (pq.change_priority k p).get k' =
      (if k' = k then (pq.get k').map (fun w => (w.1, p)) else pq.get k') := by
  rcases pq with ⟨l⟩
  exact get_mapKeyPres l k (fun e => (e.1, e.2.1, p)) (fun e => rfl) k'

theorem get_try_decrease (pq : MinPQIndex K V) (k : K) (p : Nat) (k' : K) :
    (pq.try_decrease_priority k p).get k' =
      (if k' = k then (pq.get k').map (fun w => (w.1, min w.2 p)) else pq.get k') := by
  unfold try_decrease_priority
  cases hg : pq.get k with
  | none =>
    by_cases hk : k' = k
    · subst hk; simp [hg]
    · simp [hk]
  | some w =>
    by_cases hc : w.2 > p
    · simp only [hc, if_true]
      rw [get_change_priority]
      by_cases hk : k' = k
      · subst hk
        rw [hg]
        simp [Nat.min_eq_right (Nat.le_of_lt hc)]
      · simp [hk]
    · simp only [hc, if_false]
      by_cases hk : k' = k
      · subst hk
        rw [hg]
        simp only [if_pos rfl]
        have : min w.2 p = w.2 := Nat.min_eq_left (Nat.le_of_not_lt hc)
        simp [this]
      · simp [hk]

theorem keysNodup_of_map_keyPres {pq : MinPQIndex K V}
    (g : K × V × Nat → K × V × Nat) (hg : ∀ e, (g e).1 = e.1)
    (h : pq.keysNodup) (k : K) :
    (⟨pq.entries.map (fun e => if e.1 = k then g e else e)⟩ : MinPQIndex K V).keysNodup := by
  unfold keysNodup at h ⊢
  have : (pq.entries.map (fun e => if e.1 = k then g e else e)).map Prod.fst =
      pq.entries.map Prod.fst := by
    rw [List.map_map]
    apply List.map_congr_left
    intro e _
    by_cases hc : e.1 = k <;> simp [hc, hg e]
  rwa [this]

theorem keysNodup_modifyValue {pq : MinPQIndex K V} (k : K) (f : V → V)
    (h : pq.keysNodup) : (pq.modifyValue k f).keysNodup := by
  unfold modifyValue
  exact keysNodup_of_map_keyPres (fun e => (e.1, f e.2.1, e.2.2)) (fun e => rfl) h k

theorem keysNodup_change_priority {pq : MinPQIndex K V} (k : K) (p : Nat)
    (h : pq.keysNodup) : (pq.change_priority k p).keysNodup := by
  unfold change_priority
  exact keysNodup_of_map_keyPres (fun e => (e.1, e.2.1, p)) (fun e => rfl) h k

theorem keysNodup_try_decrease {pq : MinPQIndex K V} (k : K) (p : Nat)
    (h : pq.keysNodup) : (pq.try_decrease_priority k p).keysNodup := by
  unfold try_decrease_priority
  cases pq.get k with
  | none => exact h
  | some w =>
    by_cases hc : w.2 > p
    · simpa [hc] using keysNodup_change_priority k p h
    · simpa [hc] using h

theorem mem_of_get_eq_some {pq : MinPQIndex K V} {k : K} {w : V × Nat}
    (h : pq.get k = some w) : (k, w) ∈ pq.entries := by
  rcases pq with ⟨l⟩
  induction l with
  | nil => cases h
  | cons e es ih =>
    rw [get_cons] at h
    by_cases he : e.1 = k
    · rw [if_pos he] at h
      have : e = (k, w) := by
        rcases e with ⟨e1, e2⟩
        simp at he h
        simp [he, h]
      simp [this]
    · rw [if_neg he] at h
      exact List.mem_cons_of_mem _ (ih h)

theorem get_eq_some_of_mem {pq : MinPQIndex K V} {k : K} {w : V × Nat}
    (hnd : pq.keysNodup) (h : (k, w) ∈ pq.entries) : pq.get k = some w := by
  rcases pq with ⟨l⟩
  unfold keysNodup at hnd
  induction l with
  | nil => cases h
  | cons e es ih =>
    simp only [List.map_cons, List.nodup_cons] at hnd
    rw [get_cons]
    rcases List.mem_cons.mp h with he | he
    · rw [← he]; simp
    · by_cases hek : e.1 = k
      · exfalso
        exact hnd.1 (List.mem_map.mpr ⟨(k, w), he, by simp [hek]⟩)
      · rw [if_neg hek]
        exact ih hnd.2 he

/-! Peek/pop loop specifications. -/

omit [DecidableEq K] in
theorem peekList_eq_none_iff (l : List (K × V × Nat)) :
    peekList (K := K) (V := V) l = none ↔ l = [] := by
  cases l with
  | nil => simp [peekList]
  | cons e es =>
    simp only [peekList]
    cases peekList es with
    | none => simp
    | some m =>
      by_cases h : e.2.2 ≤ m.2.2 <;> simp [h]

omit [DecidableEq K] in
theorem peekList_cons_none {es : List (K × V × Nat)} (e : K × V × Nat)
    (hp : peekList (K := K) (V := V) es = none) : peekList (e :: es) = some e := by
  simp [peekList, hp]

omit [DecidableEq K] in
theorem peekList_cons_some {es : List (K × V × Nat)} (e : K × V × Nat)
    {m' : K × V × Nat} (hp : peekList (K := K) (V := V) es = some m') :
    peekList (e :: es) = if e.2.2 ≤ m'.2.2 then some e else some m' := by
  simp [peekList, hp]

omit [DecidableEq K] in
theorem popMinList_cons_none {es : List (K × V × Nat)} (e : K × V × Nat)
    (hp : peekList (K := K) (V := V) es = none) : popMinList (e :: es) = es := by
  rw [peekList_eq_none_iff] at hp
  subst hp
  simp [popMinList, peekList]

omit [DecidableEq K] in
theorem popMinList_cons_some {es : List (K × V × Nat)} (e : K × V × Nat)
    {m' : K × V × Nat} (hp : peekList (K := K) (V := V) es = some m') :
    popMinList (e :: es) =
      if e.2.2 ≤ m'.2.2 then es else e :: popMinList es := by
  simp [popMinList, hp]

omit [DecidableEq K] in
theorem peekList_mem {l : List (K × V × Nat)} {m : K × V × Nat}
    (h : peekList l = some m) : m ∈ l := by
  induction l generalizing m with
  | nil => cases h
  | cons e es ih =>
    cases hp : peekList es with
    | none =>
      rw [peekList_cons_none e hp] at h
      cases h
      simp
    | some m' =>
      rw [peekList_cons_some e hp] at h
      by_cases hle : e.2.2 ≤ m'.2.2
      · rw [if_pos hle] at h; cases h; simp
      · rw [if_neg hle] at h
        cases h
        exact List.mem_cons_of_mem _ (ih hp)

omit [DecidableEq K] in
theorem peekList_min {l : List (K × V × Nat)} {m : K × V × Nat}
    (h : peekList l = some m) : ∀ e ∈ l, m.2.2 ≤ e.2.2 := by
  induction l generalizing m with
  | nil => cases h
  | cons e es ih =>
    intro x hx
    cases hp : peekList es with
    | none =>
      rw [peekList_cons_none e hp] at h
      cases h
      rcases List.mem_cons.mp hx with hx | hx
      · rw [hx]
      · rw [peekList_eq_none_iff] at hp
        subst hp
        cases hx
    | some m' =>
      rw [peekList_cons_some e hp] at h
      by_cases hle : e.2.2 ≤ m'.2.2
      · rw [if_pos hle] at h
        cases h
        rcases List.mem_cons.mp hx with hx | hx
        · rw [hx]
        · exact Nat.le_trans hle (ih hp x hx)
      · rw [if_neg hle] at h
        cases h
        rcases List.mem_cons.mp hx with hx | hx
        · rw [hx]; exact Nat.le_of_lt (Nat.lt_of_not_le hle)
        · exact ih hp x hx

omit [DecidableEq K] in
theorem popMinList_length {l : List (K × V × Nat)} {m : K × V × Nat}
    (h : peekList l = some m) :
    (popMinList (K := K) (V := V) l).length + 1 = l.length := by
  induction l generalizing m with
  | nil => cases h
  | cons e es ih =>
    cases hp : peekList es with
    | none =>
      rw [popMinList_cons_none e hp]
      rw [peekList_eq_none_iff] at hp
      subst hp
      simp
    | some m' =>
      rw [popMinList_cons_some e hp]
      by_cases hle : e.2.2 ≤ m'.2.2
      · simp [hle]
      · simp only [if_neg hle, List.length_cons]
        rw [ih hp]

omit [DecidableEq K] in
theorem popMinList_perm {l : List (K × V × Nat)} {m : K × V × Nat}
    (h : peekList l = some m) :
    l.Perm (m :: popMinList (K := K) (V := V) l) := by
  induction l generalizing m with
  | nil => cases h
  | cons e es ih =>
    cases hp : peekList es with
    | none =>
      rw [peekList_cons_none e hp] at h
      cases h
      rw [popMinList_cons_none e hp]
    | some m' =>
      rw [peekList_cons_some e hp] at h
      rw [popMinList_cons_some e hp]
      by_cases hle : e.2.2 ≤ m'.2.2
      · rw [if_pos hle] at h
        cases h
        simp [hle]
      · rw [if_neg hle] at h
        cases h
        rw [if_neg hle]
        exact ((ih hp).cons e).trans (List.Perm.swap _ _ _)

omit [DecidableEq K] in
theorem popMinList_filter_gt {l : List (K × V × Nat)} {m : K × V × Nat}
    (h : peekList l = some m) (w : Nat) (hm : ¬ m.2.2 > w) :
    (popMinList (K := K) (V := V) l).filter (fun e => decide (e.2.2 > w)) =
      l.filter (fun e => decide (e.2.2 > w)) := by
  induction l generalizing m with
  | nil => cases h
  | cons e es ih =>
    cases hp : peekList es with
    | none =>
      rw [peekList_cons_none e hp] at h
      cases h
      rw [popMinList_cons_none e hp]
      rw [peekList_eq_none_iff] at hp
      subst hp
      simp [hm]
    | some m' =>
      rw [peekList_cons_some e hp] at h
      rw [popMinList_cons_some e hp]
      by_cases hle : e.2.2 ≤ m'.2.2
      · rw [if_pos hle] at h
        cases h
        rw [if_pos hle]
        simp [hm]
      · rw [if_neg hle] at h
        cases h
        rw [if_neg hle]
        rw [List.filter_cons, List.filter_cons, ih hp hm]

omit [DecidableEq K] in
theorem popLeGo_succ_some (w fuel : Nat) {l : List (K × V × Nat)} {m : K × V × Nat}
    (hp : peekList l = some m) :
    popLeGo (K := K) (V := V) w (fuel + 1) l =
      if m.2.2 ≤ w then popLeGo w fuel (popMinList l) else l := by
  simp [popLeGo, hp]

omit [DecidableEq K] in
theorem popLeGo_succ_none (w fuel : Nat) {l : List (K × V × Nat)}
    (hp : peekList (K := K) (V := V) l = none) :
    popLeGo (K := K) (V := V) w (fuel + 1) l = l := by
  simp [popLeGo, hp]

omit [DecidableEq K] in
theorem popAllLeGo_succ_some (w fuel : Nat) {l : List (K × V × Nat)} {m : K × V × Nat}
    (hp : peekList l = some m) :
    popAllLeGo (K := K) (V := V) w (fuel + 1) l =
      if m.2.2 ≤ w then
        (m :: (popAllLeGo w fuel (popMinList l)).1, (popAllLeGo w fuel (popMinList l)).2)
      else ([], l) := by
  by_cases hle : m.2.2 ≤ w <;> simp [popAllLeGo, hp, hle]

omit [DecidableEq K] in
theorem popAllLeGo_succ_none (w fuel : Nat) {l : List (K × V × Nat)}
    (hp : peekList (K := K) (V := V) l = none) :
    popAllLeGo (K := K) (V := V) w (fuel + 1) l = ([], l) := by
  simp [popAllLeGo, hp]

omit [DecidableEq K] in
theorem popLeGo_spec (w : Nat) :
    ∀ (fuel : Nat) (l : List (K × V × Nat)), l.length ≤ fuel →
      popLeGo (K := K) (V := V) w fuel l = l.filter (fun e => decide (e.2.2 > w)) := by
  intro fuel
  induction fuel with
  | zero =>
    intro l hl
    have : l = [] := List.length_eq_zero.mp (Nat.le_zero.mp hl)
    subst this
    rfl
  | succ fuel ih =>
    intro l hl
    cases hp : peekList (K := K) (V := V) l with
    | none =>
      rw [peekList_eq_none_iff] at hp
      subst hp
      rfl
    | some m =>
      rw [popLeGo_succ_some w fuel hp]
      by_cases hle : m.2.2 ≤ w
      · rw [if_pos hle]
        have hlen : (popMinList (K := K) (V := V) l).length ≤ fuel := by
          have := popMinList_length hp
          omega
        rw [ih _ hlen]
        exact popMinList_filter_gt hp w (by omega)
      · rw [if_neg hle]
        symm
        apply List.filter_eq_self.mpr
        intro a ha
        have := peekList_min hp a ha
        simp only [decide_eq_true_eq]
        omega

omit [DecidableEq K] in
theorem popLe_spec (pq : MinPQIndex K V) (w : Nat) :
    pq.popLe w = ⟨pq.entries.filter (fun e => decide (e.2.2 > w))⟩ := by
  unfold popLe
  rw [popLeGo_spec w pq.entries.length pq.entries (Nat.le_refl _)]

omit [DecidableEq K] in
theorem popAllLeGo_snd_spec (w : Nat) :
    ∀ (fuel : Nat) (l : List (K × V × Nat)), l.length ≤ fuel →
      (popAllLeGo (K := K) (V := V) w fuel l).2 =
        l.filter (fun e => decide (e.2.2 > w)) := by
  intro fuel
  induction fuel with
  | zero =>
    intro l hl
    have : l = [] := List.length_eq_zero.mp (Nat.le_zero.mp hl)
    subst this
    rfl
  | succ fuel ih =>
    intro l hl
    cases hp : peekList (K := K) (V := V) l with
    | none =>
      rw [peekList_eq_none_iff] at hp
      subst hp
      rfl
    | some m =>
      rw [popAllLeGo_succ_some w fuel hp]
      by_cases hle : m.2.2 ≤ w
      · rw [if_pos hle]
        have hlen : (popMinList (K := K) (V := V) l).length ≤ fuel := by
          have := popMinList_length hp
          omega
        show (popAllLeGo w fuel (popMinList l)).2 = _
        rw [ih _ hlen]
        exact popMinList_filter_gt hp w (by omega)
      · rw [if_neg hle]
        show l = _
        symm
        apply List.filter_eq_self.mpr
        intro a ha
        have := peekList_min hp a ha
        simp only [decide_eq_true_eq]
        omega

omit [DecidableEq K] in
theorem popAllLeGo_fst_le (w : Nat) :
    ∀ (fuel : Nat) (l : List (K × V × Nat)),
      ∀ e ∈ (popAllLeGo (K := K) (V := V) w fuel l).1, e.2.2 ≤ w := by
  intro fuel
  induction fuel with
  | zero => intro l e he; cases he
  | succ fuel ih =>
    intro l e he
    rcases hp : peekList (K := K) (V := V) l with _ | m
    · rw [popAllLeGo_succ_none w fuel hp] at he
      cases he
    · rw [popAllLeGo_succ_some w fuel hp] at he
      by_cases hle : m.2.2 ≤ w
      · rw [if_pos hle] at he
        rcases List.mem_cons.mp he with he | he
        · rw [he]; exact hle
        · exact ih _ e he
      · rw [if_neg hle] at he
        cases he

omit [DecidableEq K] in
theorem popAllLeGo_append_perm (w : Nat) :
    ∀ (fuel : Nat) (l : List (K × V × Nat)), l.length ≤ fuel →
      ((popAllLeGo (K := K) (V := V) w fuel l).1 ++
        (popAllLeGo w fuel l).2).Perm l := by
  intro fuel
  induction fuel with
  | zero =>
    intro l hl
    have : l = [] := List.length_eq_zero.mp (Nat.le_zero.mp hl)
    subst this
    simp [popAllLeGo]
  | succ fuel ih =>
    intro l hl
    cases hp : peekList (K := K) (V := V) l with
    | none =>
      rw [popAllLeGo_succ_none w fuel hp]
      simp
    | some m =>
      rw [popAllLeGo_succ_some w fuel hp]
      by_cases hle : m.2.2 ≤ w
      · rw [if_pos hle]
        have hlen : (popMinList (K := K) (V := V) l).length ≤ fuel := by
          have := popMinList_length hp
          omega
        show (m :: ((popAllLeGo w fuel (popMinList l)).1 ++
          (popAllLeGo w fuel (popMinList l)).2)).Perm l
        exact ((ih _ hlen).cons m).trans (popMinList_perm hp).symm
      · rw [if_neg hle]
        simp

omit [DecidableEq K] in
theorem popAllLe_snd (pq : MinPQIndex K V) (w : Nat) :
    (pq.popAllLe w).2 = ⟨pq.entries.filter (fun e => decide (e.2.2 > w))⟩ := by
  unfold popAllLe
  simp only []
  rw [popAllLeGo_snd_spec w pq.entries.length pq.entries (Nat.le_refl _)]

omit [DecidableEq K] in
theorem popAllLe_fst_perm (pq : MinPQIndex K V) (w : Nat) :
    (pq.popAllLe w).1.Perm (pq.entries.filter (fun e => decide (e.2.2 ≤ w))) := by
  have hperm := popAllLeGo_append_perm (K := K) (V := V) w pq.entries.length
    pq.entries (Nat.le_refl _)
  have hsnd := popAllLeGo_snd_spec (K := K) (V := V) w pq.entries.length
    pq.entries (Nat.le_refl _)
  have hle := popAllLeGo_fst_le (K := K) (V := V) w pq.entries.length pq.entries
  have h1 : (pq.entries.filter (fun e => decide (e.2.2 ≤ w))).Perm
      ((((popAllLeGo (K := K) (V := V) w pq.entries.length pq.entries).1 ++
        (popAllLeGo w pq.entries.length pq.entries).2)).filter
          (fun e => decide (e.2.2 ≤ w))) :=
    (hperm.filter _).symm
  rw [List.filter_append] at h1
  have h2 : ((popAllLeGo (K := K) (V := V) w pq.entries.length pq.entries).1).filter
      (fun e => decide (e.2.2 ≤ w)) =
      (popAllLeGo w pq.entries.length pq.entries).1 := by
    apply List.filter_eq_self.mpr
    intro a ha
    simpa using hle a ha
  have h3 : ((popAllLeGo (K := K) (V := V) w pq.entries.length pq.entries).2).filter
      (fun e => decide (e.2.2 ≤ w)) = [] := by
    rw [hsnd]
    rw [List.filter_filter]
    apply List.filter_eq_nil_iff.mpr
    intro a _
    simp only [decide_eq_true_eq, Bool.and_eq_true]
    omega
  rw [h2, h3, List.append_nil] at h1
  exact h1.symm

end MinPQIndex

/-! Association-list lemmas (`assocFind` / `assocUpdate`). -/

theorem assocFind_cons {α β : Type} [DecidableEq α] (e : α × β) (l : List (α × β))
    (k : α) :
    assocFind (e :: l) k = if e.1 = k then some e.2 else assocFind l k := by
  by_cases h : e.1 = k
  · simp [assocFind, List.find?_cons_of_pos, h]
  · simp [assocFind, List.find?_cons_of_neg, h]

theorem assocFind_append {α β : Type} [DecidableEq α] (l l' : List (α × β)) (k : α) :
    assocFind (l ++ l') k =
      match assocFind l k with
      | some v => some v
      | none => assocFind l' k := by
  induction l with
  | nil => simp [assocFind]
  | cons e es ih =>
    rw [List.cons_append, assocFind_cons, assocFind_cons]
    by_cases he : e.1 = k <;> simp [he, ih]

theorem assocFind_map_upd_self {α β : Type} [DecidableEq α] (l : List (α × β))
    (k : α) (v : β) :
    assocFind (l.map (fun e => if e.1 = k then (k, v) else e)) k =
      (assocFind l k).map (fun _ => v) := by
  induction l with
  | nil => simp [assocFind]
  | cons e es ih =>
    by_cases he : e.1 = k
    · simp only [List.map_cons, if_pos he]
      rw [assocFind_cons, assocFind_cons, if_pos he]
      simp
    · simp only [List.map_cons, if_neg he]
      rw [assocFind_cons, assocFind_cons, if_neg he, if_neg he]
      exact ih

theorem assocFind_map_upd_ne {α β : Type} [DecidableEq α] (l : List (α × β))
    {k k' : α} (v : β) (h : k' ≠ k) :
    assocFind (l.map (fun e => if e.1 = k then (k, v) else e)) k' = assocFind l k' := by
  induction l with
  | nil => simp [assocFind]
  | cons e es ih =>
    by_cases he : e.1 = k
    · simp only [List.map_cons, if_pos he]
      rw [assocFind_cons, assocFind_cons]
      have h1 : ¬ ((k, v).1 = k') := fun hh => h hh.symm
      have h2 : ¬ (e.1 = k') := by rw [he]; exact fun hh => h hh.symm
      rw [if_neg h1, if_neg h2]
      exact ih
    · simp only [List.map_cons, if_neg he]
      rw [assocFind_cons, assocFind_cons]
      by_cases he' : e.1 = k' <;> simp [he', ih]

theorem assocHasKey_iff {α β : Type} [DecidableEq α] (l : List (α × β)) (k : α) :
    l.any (fun e => decide (e.1 = k)) = true ↔ (assocFind l k).isSome = true := by
  induction l with
  | nil => simp [assocFind]
  | cons e es ih =>
    rw [assocFind_cons]
    by_cases he : e.1 = k <;> simp [he, ih]

theorem assocFind_none_of_hasKey_false {α β : Type} [DecidableEq α]
    {l : List (α × β)} {k : α} (h : l.any (fun e => decide (e.1 = k)) = false) :
    assocFind l k = none := by
  cases hf : assocFind l k with
  | none => rfl
  | some v =>
    have : l.any (fun e => decide (e.1 = k)) = true :=
      (assocHasKey_iff l k).mpr (by simp [hf])
    rw [h] at this; cases this

theorem assocFind_update_self {α β : Type} [DecidableEq α] (l : List (α × β))
    (k : α) (v : β) : assocFind (assocUpdate l k v) k = some v := by
  unfold assocUpdate
  by_cases h : l.any (fun e => decide (e.1 = k))
  · simp only [h, if_true]
    rw [assocFind_map_upd_self]
    rcases Option.isSome_iff_exists.mp ((assocHasKey_iff l k).mp h) with ⟨w, hw⟩
    simp [hw]
  · simp only [h, if_false, Bool.false_eq_true]
    rw [assocFind_append, assocFind_none_of_hasKey_false (Bool.eq_false_iff.mpr h)]
    simp [assocFind_cons]

theorem assocFind_update_ne {α β : Type} [DecidableEq α] (l : List (α × β))
    {k k' : α} (v : β) (h : k' ≠ k) :
    assocFind (assocUpdate l k v) k' = assocFind l k' := by
  unfold assocUpdate
  by_cases hk : l.any (fun e => decide (e.1 = k))
  · simp only [hk, if_true]
    exact assocFind_map_upd_ne l v h
  · simp only [hk, if_false, Bool.false_eq_true]
    rw [assocFind_append]
    cases hf : assocFind l k' <;> simp [assocFind_cons, h.symm, hf, assocFind]

theorem assocKeys_nodup_update {α β : Type} [DecidableEq α] {l : List (α × β)}
    (k : α) (v : β) (h : (l.map Prod.fst).Nodup) :
    ((assocUpdate l k v).map Prod.fst).Nodup := by
  unfold assocUpdate
  by_cases hk : l.any (fun e => decide (e.1 = k))
  · simp only [hk, if_true]
    have : (l.map (fun e => if e.1 = k then (k, v) else e)).map Prod.fst =
        l.map Prod.fst := by
      rw [List.map_map]
      apply List.map_congr_left
      intro e _
      by_cases he : e.1 = k <;> simp [he]
    rwa [this]
  · simp only [hk, if_false, Bool.false_eq_true]
    rw [List.map_append, List.nodup_append]
    refine ⟨h, List.nodup_singleton k, ?_⟩
    intro a ha hb
    simp at hb
    subst hb
    rcases List.mem_map.mp ha with ⟨e, he, hke⟩
    exact absurd (List.any_eq_true.mpr ⟨e, he, by simp [hke]⟩) hk

theorem assoc_entry_unique {α β : Type} [DecidableEq α] {l : List (α × β)} {k : α}
    {v : β} (hnd : (l.map Prod.fst).Nodup) (h : assocFind l k = some v) :
    ∀ e ∈ l, e.1 = k → e = (k, v) := by
  induction l with
  | nil => intro e he; cases he
  | cons e0 es ih =>
    simp only [List.map_cons, List.nodup_cons] at hnd
    rw [assocFind_cons] at h
    intro e he hk
    rcases List.mem_cons.mp he with he | he
    · subst he
      rw [if_pos hk] at h
      cases h
      rcases e with ⟨e1, e2⟩
      simp only at hk
      rw [hk]
    · by_cases h0 : e0.1 = k
      · exfalso
        apply hnd.1
        exact List.mem_map.mpr ⟨e, he, by rw [hk, h0]⟩
      · rw [if_neg h0] at h
        exact ih hnd.2 h e he hk

theorem assocUpdate_same {α β : Type} [DecidableEq α] {l : List (α × β)} {k : α}
    {v : β} (hnd : (l.map Prod.fst).Nodup) (h : assocFind l k = some v) :
    assocUpdate l k v = l := by
  unfold assocUpdate
  have hk : l.any (fun e => decide (e.1 = k)) = true :=
    (assocHasKey_iff l k).mpr (by simp [h])
  simp only [hk, if_true]
  have hpt : ∀ e ∈ l, (if e.1 = k then (k, v) else e) = e := by
    intro e he
    by_cases hek : e.1 = k
    · rw [if_pos hek, assoc_entry_unique hnd h e he hek]
    · rw [if_neg hek]
  calc l.map (fun e => if e.1 = k then (k, v) else e) = l.map id :=
        List.map_congr_left hpt
    _ = l := List.map_id l

namespace MinPQIndex

variable {K V : Type} [DecidableEq K]

theorem entry_unique {pq : MinPQIndex K V} {k : K} {w : V × Nat}
    (hnd : pq.keysNodup) (h : pq.get k = some w) :
    ∀ e ∈ pq.entries, e.1 = k → e = (k, w) := by
  rcases pq with ⟨l⟩
  unfold keysNodup at hnd
  induction l with
  | nil => intro e he; cases he
  | cons e0 es ih =>
    simp only [List.map_cons, List.nodup_cons] at hnd
    rw [get_cons] at h
    intro e he hk
    rcases List.mem_cons.mp he with he' | he'
    · subst he'
      rw [if_pos hk] at h
      cases h
      rcases e with ⟨e1, e2⟩
      simp only at hk
      rw [hk]
    · by_cases h0 : e0.1 = k
      · exfalso
        apply hnd.1
        exact List.mem_map.mpr ⟨e, he', by rw [hk, h0]⟩
      · rw [if_neg h0] at h
        exact ih hnd.2 h e he' hk

theorem modifyValue_same {pq : MinPQIndex K V} {k : K} {w : V × Nat}
    (hnd : pq.keysNodup) (h : pq.get k = some w) :
    pq.modifyValue k (fun _ => w.1) = pq := by
  unfold modifyValue
  have hpt : ∀ e ∈ pq.entries, (if e.1 = k then (e.1, w.1, e.2.2) else e) = e := by
    intro e he
    by_cases hek : e.1 = k
    · rw [if_pos hek]
      have := entry_unique hnd h e he hek
      rw [this]
    · rw [if_neg hek]
  rcases pq with ⟨l⟩
  congr 1
  calc l.map (fun e => if e.1 = k then (e.1, w.1, e.2.2) else e) = l.map id :=
        List.map_congr_left hpt
    _ = l := List.map_id l

theorem get_filter_of_keys_absent {l : List (K × V × Nat)} {k : K}
    (h : ∀ e ∈ l, e.1 ≠ k) : (⟨l⟩ : MinPQIndex K V).get k = none := by
  apply get_none_of_hasKey_false
  unfold hasKey
  rw [List.any_eq_false]
  intro e he
  simp [h e he]

theorem get_filter_prio (pq : MinPQIndex K V) (hnd : pq.keysNodup)
    (pr : Nat → Bool) (v : K) :
    (⟨pq.entries.filter (fun e => pr e.2.2)⟩ : MinPQIndex K V).get v =
      match pq.get v with
      | some s => if pr s.2 then some s else none
      | none => none := by
  rcases pq with ⟨l⟩
  unfold keysNodup at hnd
  induction l with
  | nil => simp [get_nil]
  | cons e es ih =>
    simp only [List.map_cons, List.nodup_cons] at hnd
    rw [get_cons, List.filter_cons]
    by_cases he : e.1 = v
    · rw [if_pos he]
      by_cases hp : pr e.2.2
      · simp only [hp, if_true]
        rw [get_cons, if_pos he]
      · simp only [hp, if_false, Bool.false_eq_true]
        apply get_filter_of_keys_absent
        intro x hx hk
        rcases List.mem_filter.mp hx with ⟨hx', _⟩
        apply hnd.1
        exact List.mem_map.mpr ⟨x, hx', by rw [hk, he]⟩
    · rw [if_neg he]
      by_cases hp : pr e.2.2
      · simp only [hp, if_true]
        rw [get_cons, if_neg he]
        exact ih hnd.2
      · simp only [hp, if_false, Bool.false_eq_true]
        exact ih hnd.2

omit [DecidableEq K] in
theorem keysNodup_filter {pq : MinPQIndex K V} (pr : K × V × Nat → Bool)
    (hnd : pq.keysNodup) :
    (⟨pq.entries.filter pr⟩ : MinPQIndex K V).keysNodup := by
  unfold keysNodup at hnd ⊢
  exact hnd.sublist ((List.filter_sublist _).map Prod.fst)

omit [DecidableEq K] in
theorem peek_min_le {pq : MinPQIndex K V} {m : K × V × Nat}
    (h : pq.peek = some m) : ∀ e ∈ pq.entries, m.2.2 ≤ e.2.2 :=
  peekList_min h

omit [DecidableEq K] in
theorem is_empty_iff_peek_none (pq : MinPQIndex K V) :
    pq.is_empty = true ↔ pq.peek = none := by
  unfold is_empty peek
  rw [peekList_eq_none_iff, List.isEmpty_iff]

end MinPQIndex

theorem foldr_min_le_of_mem {xs : List Nat} {x : Nat} (h : x ∈ xs) (init : Nat) :
    xs.foldr min init ≤ x := by
  induction xs with
  | nil => cases h
  | cons y ys ih =>
    rcases List.mem_cons.mp h with h | h
    · subst h
      exact Nat.min_le_left _ _
    · exact Nat.le_trans (Nat.min_le_right _ _) (ih h)

/-! `GraphNode` operation characterizations. -/

namespace GraphNode

theorem add_outgoing_flag (n : GraphNode) (l : Label) (v : Vertex)
    (i : HalfOpenTimeInterval) :
    (n.add_outgoing_neighbour l v i).1 =
      match n.outEntryN l v with
      | some w => decide (w.2 < i.stop)
      | none => true := by
  unfold add_outgoing_neighbour outEntryN
  cases hg : ((assocFind n.outgoing_edges l).getD MinPQIndex.default).get v with
  | none => simp [hg]
  | some w =>
    simp only [hg]
    by_cases hc : w.2 ≥ i.stop
    · have : decide (w.2 < i.stop) = false := by simp; omega
      simp [HalfOpenTimeInterval.get_end, hc, this]
    · have : decide (w.2 < i.stop) = true := by simp; omega
      simp [HalfOpenTimeInterval.get_end, hc, this]

theorem add_outgoing_self (n : GraphNode) (l : Label) (v : Vertex)
    (i : HalfOpenTimeInterval) :
    (n.add_outgoing_neighbour l v i).2.outEntryN l v =
      match n.outEntryN l v with
      | some w => if i.stop ≤ w.2 then some w else some (w.1, i.stop)
      | none => some (i.start, i.stop) := by
  unfold add_outgoing_neighbour outEntryN
  simp only [assocFind_update_self, Option.getD_some]
  cases hg : ((assocFind n.outgoing_edges l).getD MinPQIndex.default).get v with
  | none =>
    simp only [hg]
    rw [MinPQIndex.get_push_self, hg]
    rfl
  | some w =>
    simp only [hg, HalfOpenTimeInterval.get_end]
    by_cases hc : w.2 ≥ i.stop
    · simp only [if_pos hc]
      exact hg
    · simp only [if_neg hc]
      rw [MinPQIndex.get_push_self, hg]
      rfl

theorem add_outgoing_ne (n : GraphNode) (l : Label) (v : Vertex)
    (i : HalfOpenTimeInterval) (l' : Label) (v' : Vertex)
    (h : ¬ (l' = l ∧ v' = v)) :
    (n.add_outgoing_neighbour l v i).2.outEntryN l' v' = n.outEntryN l' v' := by
  unfold add_outgoing_neighbour outEntryN
  by_cases hl : l' = l
  · subst hl
    have hv : v' ≠ v := fun hh => h ⟨rfl, hh⟩
    simp only [assocFind_update_self, Option.getD_some]
    cases hg : ((assocFind n.outgoing_edges l').getD MinPQIndex.default).get v with
    | none =>
      simp only [hg]
      rw [MinPQIndex.get_push_ne _ _ _ hv]
    | some w =>
      simp only [hg]
      by_cases hc : w.2 ≥ i.stop
      · simp [HalfOpenTimeInterval.get_end, hc]
      · simp only [HalfOpenTimeInterval.get_end, hc, if_false]
        rw [MinPQIndex.get_push_ne _ _ _ hv]
  · rw [assocFind_update_ne _ _ hl]

theorem add_outgoing_incoming (n : GraphNode) (l : Label) (v : Vertex)
    (i : HalfOpenTimeInterval) :
    (n.add_outgoing_neighbour l v i).2.incoming_edges = n.incoming_edges := rfl

theorem add_outgoing_node (n : GraphNode) (l : Label) (v : Vertex)
    (i : HalfOpenTimeInterval) :
    (n.add_outgoing_neighbour l v i).2.node = n.node := rfl

theorem add_incoming_self (n : GraphNode) (l : Label) (u : Vertex)
    (i : HalfOpenTimeInterval) :
    (n.add_incoming_neighbour l u i).2.inEntryN l u =
      match n.inEntryN l u with
      | some w => if i.stop ≤ w.2 then some w else some (w.1, i.stop)
      | none => some (i.start, i.stop) := by
  unfold add_incoming_neighbour inEntryN
  simp only [assocFind_update_self, Option.getD_some]
  cases hg : ((assocFind n.incoming_edges l).getD MinPQIndex.default).get u with
  | none =>
    simp only [hg]
    rw [MinPQIndex.get_push_self, hg]
    rfl
  | some w =>
    simp only [hg, HalfOpenTimeInterval.get_end]
    by_cases hc : w.2 ≥ i.stop
    · simp only [if_pos hc]
      exact hg
    · simp only [if_neg hc]
      rw [MinPQIndex.get_push_self, hg]
      rfl

theorem add_incoming_ne (n : GraphNode) (l : Label) (u : Vertex)
    (i : HalfOpenTimeInterval) (l' : Label) (u' : Vertex)
    (h : ¬ (l' = l ∧ u' = u)) :
    (n.add_incoming_neighbour l u i).2.inEntryN l' u' = n.inEntryN l' u' := by
  unfold add_incoming_neighbour inEntryN
  by_cases hl : l' = l
  · subst hl
    have hv : u' ≠ u := fun hh => h ⟨rfl, hh⟩
    simp only [assocFind_update_self, Option.getD_some]
    cases hg : ((assocFind n.incoming_edges l').getD MinPQIndex.default).get u with
    | none =>
      simp only [hg]
      rw [MinPQIndex.get_push_ne _ _ _ hv]
    | some w =>
      simp only [hg]
      by_cases hc : w.2 ≥ i.stop
      · simp [HalfOpenTimeInterval.get_end, hc]
      · simp only [HalfOpenTimeInterval.get_end, hc, if_false]
        rw [MinPQIndex.get_push_ne _ _ _ hv]
  · rw [assocFind_update_ne _ _ hl]

theorem add_incoming_outgoing (n : GraphNode) (l : Label) (u : Vertex)
    (i : HalfOpenTimeInterval) :
    (n.add_incoming_neighbour l u i).2.outgoing_edges = n.outgoing_edges := rfl

theorem add_incoming_node (n : GraphNode) (l : Label) (u : Vertex)
    (i : HalfOpenTimeInterval) :
    (n.add_incoming_neighbour l u i).2.node = n.node := rfl

theorem add_outgoing_noop (n : GraphNode) (l : Label) (v : Vertex)
    (i : HalfOpenTimeInterval) {w : Nat × Nat}
    (hnd : (n.outgoing_edges.map Prod.fst).Nodup)
    (hw : n.outEntryN l v = some w) (hle : i.stop ≤ w.2) :
    (n.add_outgoing_neighbour l v i).2 = n := by
  unfold add_outgoing_neighbour
  unfold outEntryN at hw
  have hfind : assocFind n.outgoing_edges l ≠ none := by
    intro hc
    rw [hc] at hw
    cases hw
  cases hfind2 : assocFind n.outgoing_edges l with
  | none => exact absurd hfind2 hfind
  | some pq =>
    rw [hfind2] at hw
    simp only [Option.getD_some] at hw
    simp only [hfind2, Option.getD_some]
    rw [hw]
    have hge : w.2 ≥ i.stop := hle
    simp only [HalfOpenTimeInterval.get_end, if_pos hge]
    rw [assocUpdate_same hnd hfind2]

theorem add_incoming_noop (n : GraphNode) (l : Label) (u : Vertex)
    (i : HalfOpenTimeInterval) {w : Nat × Nat}
    (hnd : (n.incoming_edges.map Prod.fst).Nodup)
    (hw : n.inEntryN l u = some w) (hle : i.stop ≤ w.2) :
    (n.add_incoming_neighbour l u i).2 = n := by
  unfold add_incoming_neighbour
  unfold inEntryN at hw
  have hfind : assocFind n.incoming_edges l ≠ none := by
    intro hc
    rw [hc] at hw
    cases hw
  cases hfind2 : assocFind n.incoming_edges l with
  | none => exact absurd hfind2 hfind
  | some pq =>
    rw [hfind2] at hw
    simp only [Option.getD_some] at hw
    simp only [hfind2, Option.getD_some]
    rw [hw]
    have hge : w.2 ≥ i.stop := hle
    simp only [HalfOpenTimeInterval.get_end, if_pos hge]
    rw [assocUpdate_same hnd hfind2]

end GraphNode

namespace MinPQIndex

variable {K V : Type} [DecidableEq K]

theorem getValue_try_decrease (pq : MinPQIndex K V) (k : K) (p : Nat) (u : K) :
    (pq.try_decrease_priority k p).getValue u = pq.getValue u := by
  unfold getValue
  rw [get_try_decrease]
  by_cases h : u = k
  · subst h
    simp only [if_pos rfl]
    cases pq.get u <;> simp
  · simp [h]

theorem getValue_modifyValue (pq : MinPQIndex K V) (k : K) (f : V → V) (u : K) :
    (pq.modifyValue k f).getValue u =
      if u = k then (pq.getValue u).map f else pq.getValue u := by
  unfold getValue
  rw [get_modifyValue]
  by_cases h : u = k
  · subst h
    simp only [if_pos rfl]
    cases pq.get u <;> simp
  · simp [h]

theorem getValue_push (pq : MinPQIndex K V) (k : K) (v : V) (p : Nat) (u : K) :
    (pq.push k v p).getValue u =
      if u = k then some ((pq.getValue k).getD v) else pq.getValue u := by
  unfold getValue
  by_cases h : u = k
  · subst h
    rw [get_push_self]
    simp
  · rw [get_push_ne _ _ _ h]
    simp [h]

end MinPQIndex

/-! Order-independence, entry bounds and fold lemmas for the queue model. -/

namespace MinPQIndex

variable {K V : Type} [DecidableEq K]

theorem get_perm {l l' : List (K × V × Nat)} (hp : l.Perm l')
    (hnd : (l'.map Prod.fst).Nodup) (k : K) :
    (⟨l⟩ : MinPQIndex K V).get k = (⟨l'⟩ : MinPQIndex K V).get k := by
  cases h : (⟨l⟩ : MinPQIndex K V).get k with
  | some w =>
    have hm : (k, w) ∈ l := mem_of_get_eq_some h
    exact (get_eq_some_of_mem hnd (hp.mem_iff.mp hm)).symm
  | none =>
    cases h' : (⟨l'⟩ : MinPQIndex K V).get k with
    | none => rfl
    | some w =>
      have hm : (k, w) ∈ l := hp.mem_iff.mpr (mem_of_get_eq_some h')
      have hndl : (l.map Prod.fst).Nodup := ((hp.map Prod.fst).nodup_iff).mpr hnd
      rw [get_eq_some_of_mem hndl hm] at h
      cases h

theorem push_entries_bound {pq : MinPQIndex K V} {q : Nat} (k : K) (v : V) {p : Nat}
    (hb : ∀ e ∈ pq.entries, q ≤ e.2.2) (hqp : q ≤ p) :
    ∀ e ∈ (pq.push k v p).entries, q ≤ e.2.2 := by
  intro e he
  unfold push at he
  by_cases hk : pq.hasKey k = true
  · rw [if_pos hk] at he
    rcases List.mem_map.mp he with ⟨e0, he0, heq⟩
    by_cases h0 : e0.1 = k
    · rw [if_pos h0] at heq
      rw [← heq]
      exact hqp
    · rw [if_neg h0] at heq
      rw [← heq]
      exact hb e0 he0
  · rw [if_neg hk] at he
    rcases List.mem_append.mp he with h | h
    · exact hb e h
    · have : e = (k, v, p) := by simpa using h
      rw [this]
      exact hqp

theorem foldl_push_get (f : K × V × Nat → V) (fp : K × V × Nat → Nat)
    (keep : K × V × Nat → Bool) :
    ∀ (L : List (K × V × Nat)) (pq : MinPQIndex K V) (u : K),
      (L.map Prod.fst).Nodup → (∀ e ∈ L, pq.get e.1 = none) →
      (L.foldl (fun ni e => if keep e then ni.push e.1 (f e) (fp e) else ni)
          pq).get u =
        (match (⟨L⟩ : MinPQIndex K V).get u with
        | some v => if keep (u, v) then some (f (u, v), fp (u, v)) else pq.get u
        | none => pq.get u) := by
  intro L
  induction L with
  | nil => intro pq u _ _; rfl
  | cons e es ih =>
    intro pq u hnd habs
    simp only [List.foldl_cons]
    simp only [List.map_cons, List.nodup_cons] at hnd
    have habs' : ∀ e' ∈ es,
        (if keep e then pq.push e.1 (f e) (fp e) else pq).get e'.1 = none := by
      intro e' he'
      have hne : e'.1 ≠ e.1 :=
        fun hh => hnd.1 (hh ▸ List.mem_map_of_mem Prod.fst he')
      by_cases hk : keep e
      · rw [if_pos hk, get_push_ne _ _ _ hne]
        exact habs e' (List.mem_cons_of_mem _ he')
      · rw [if_neg hk]
        exact habs e' (List.mem_cons_of_mem _ he')
    rw [ih _ u hnd.2 habs']
    by_cases hu : u = e.1
    · have hes : (⟨es⟩ : MinPQIndex K V).get e.1 = none := by
        apply get_filter_of_keys_absent
        intro e' he' hh
        exact hnd.1 (hh ▸ List.mem_map_of_mem Prod.fst he')
      rw [hu, hes, get_cons, if_pos rfl]
      dsimp only
      by_cases hk : keep e
      · have hk' : keep (e.1, e.2) = true := hk
        rw [if_pos hk, if_pos hk', get_push_self, habs e (List.mem_cons_self e es)]
        rfl
      · have hk' : ¬ keep (e.1, e.2) = true := hk
        rw [if_neg hk, if_neg hk']
    · have he1 : ¬ (e.1 = u) := fun hh => hu hh.symm
      rw [get_cons, if_neg he1]
      have hpq' : (if keep e then pq.push e.1 (f e) (fp e) else pq).get u =
          pq.get u := by
        by_cases hk : keep e
        · rw [if_pos hk, get_push_ne _ _ _ hu]
        · rw [if_neg hk]
      rw [hpq']

theorem foldl_push_keysNodup (f : K × V × Nat → V) (fp : K × V × Nat → Nat)
    (keep : K × V × Nat → Bool) :
    ∀ (L : List (K × V × Nat)) (pq : MinPQIndex K V), pq.keysNodup →
      (L.foldl (fun ni e => if keep e then ni.push e.1 (f e) (fp e) else ni)
        pq).keysNodup := by
  intro L
  induction L with
  | nil => intro pq h; exact h
  | cons e es ih =>
    intro pq h
    simp only [List.foldl_cons]
    apply ih
    by_cases hk : keep e
    · rw [if_pos hk]
      exact keysNodup_push _ _ _ h
    · rw [if_neg hk]
      exact h

end MinPQIndex

/-! More association-list lemmas: membership and map-then-filter pruning. -/

theorem assocFind_mem {α β : Type} [DecidableEq α] {l : List (α × β)} {a : α}
    {v : β} (h : assocFind l a = some v) : (a, v) ∈ l := by
  induction l with
  | nil => cases h
  | cons e es ih =>
    rw [assocFind_cons] at h
    by_cases he : e.1 = a
    · rw [if_pos he] at h
      have hv : e.2 = v := by cases h; rfl
      have : e = (a, v) := by
        rcases e with ⟨e1, e2⟩
        simp only at he hv
        rw [he, hv]
      rw [← this]
      exact List.mem_cons_self e es
    · rw [if_neg he] at h
      exact List.mem_cons_of_mem _ (ih h)

theorem assocUpdate_mem {α β : Type} [DecidableEq α] {l : List (α × β)} {a : α}
    {v : β} : ∀ e ∈ assocUpdate l a v, e = (a, v) ∨ e ∈ l := by
  intro e he
  unfold assocUpdate at he
  by_cases hk : l.any (fun e => decide (e.1 = a)) = true
  · rw [if_pos hk] at he
    rcases List.mem_map.mp he with ⟨e0, he0, heq⟩
    by_cases h0 : e0.1 = a
    · rw [if_pos h0] at heq
      left
      exact heq.symm
    · rw [if_neg h0] at heq
      right
      rwa [← heq]
  · rw [if_neg hk] at he
    rcases List.mem_append.mp he with h | h
    · right
      exact h
    · left
      simpa using h

theorem assocFind_keys_absent {α β : Type} [DecidableEq α] {l : List (α × β)}
    {a : α} (h : ∀ e ∈ l, e.1 ≠ a) : assocFind l a = none := by
  induction l with
  | nil => rfl
  | cons e es ih =>
    rw [assocFind_cons, if_neg (h e (List.mem_cons_self e es))]
    exact ih (fun e' he' => h e' (List.mem_cons_of_mem _ he'))

theorem assocKeys_nodup_prune {α β β' : Type} {l : List (α × β)}
    (hnd : (l.map Prod.fst).Nodup) (f : β → β') (pr : α × β' → Bool) :
    (((l.map (fun e => (e.1, f e.2))).filter pr).map Prod.fst).Nodup := by
  have h1 : (l.map (fun e => (e.1, f e.2))).map Prod.fst = l.map Prod.fst := by
    rw [List.map_map]
    rfl
  have h2 : ((l.map (fun e => (e.1, f e.2))).map Prod.fst).Nodup := by
    rw [h1]
    exact hnd
  exact h2.sublist ((List.filter_sublist _).map Prod.fst)

theorem assocFind_prune {α β β' : Type} [DecidableEq α] (f : β → β')
    (pr : β' → Bool) (a : α) :
    ∀ l : List (α × β), (l.map Prod.fst).Nodup →
      assocFind ((l.map (fun e => (e.1, f e.2))).filter (fun e => pr e.2)) a =
        (match assocFind l a with
        | some v => if pr (f v) then some (f v) else none
        | none => none) := by
  intro l
  induction l with
  | nil => intro _; rfl
  | cons e es ih =>
    intro hnd
    simp only [List.map_cons, List.nodup_cons] at hnd
    rw [List.map_cons, List.filter_cons, assocFind_cons]
    by_cases hea : e.1 = a
    · rw [if_pos hea]
      by_cases hp : pr (f e.2) = true
      · simp only [hp, if_true]
        rw [assocFind_cons]
        simp only []
        rw [if_pos hea]
      · simp only [hp, Bool.false_eq_true, if_false]
        apply assocFind_keys_absent
        intro e' he' hh
        apply hnd.1
        rcases List.mem_filter.mp he' with ⟨he'', _⟩
        rcases List.mem_map.mp he'' with ⟨e0, he0, heq⟩
        have : e0.1 = a := by
          rw [← heq] at hh
          exact hh
        exact List.mem_map.mpr ⟨e0, he0, by rw [this, hea]⟩
    · rw [if_neg hea]
      by_cases hp : pr (f e.2) = true
      · simp only [hp, if_true]
        rw [assocFind_cons]
        simp only []
        rw [if_neg hea]
        exact ih hnd.2
      · simp only [hp, Bool.false_eq_true, if_false]
        exact ih hnd.2

/-! `GraphNode` well-formedness, expiry bounds and eviction pruning. -/

namespace GraphNode

theorem new_wfKeys (v : Vertex) : (new v).wfKeys :=
  ⟨List.nodup_nil, List.nodup_nil, fun _ h => absurd h (List.not_mem_nil _),
    fun _ h => absurd h (List.not_mem_nil _)⟩

theorem new_endsLB (v : Vertex) (q : Nat) : (new v).endsLB q :=
  ⟨fun _ h => absurd h (List.not_mem_nil _), fun _ h => absurd h (List.not_mem_nil _)⟩

theorem endsLB_mono {n : GraphNode} {q q' : Nat} (hle : q' ≤ q)
    (h : n.endsLB q) : n.endsLB q' :=
  ⟨fun lp hlp t ht => Nat.le_trans hle (h.1 lp hlp t ht),
    fun lp hlp t ht => Nat.le_trans hle (h.2 lp hlp t ht)⟩

theorem add_outgoing_cases (n : GraphNode) (l : Label) (v : Vertex)
    (i : HalfOpenTimeInterval) :
    (n.add_outgoing_neighbour l v i).2 =
      { n with outgoing_edges := (assocUpdate n.outgoing_edges l
          (match ((assocFind n.outgoing_edges l).getD MinPQIndex.default).get v with
           | some x =>
             if x.2 ≥ i.get_end then
               ((assocFind n.outgoing_edges l).getD MinPQIndex.default)
             else
               ((assocFind n.outgoing_edges l).getD MinPQIndex.default).push
                 v i.start i.stop
           | none =>
             ((assocFind n.outgoing_edges l).getD MinPQIndex.default).push
               v i.start i.stop)) } := by
  unfold add_outgoing_neighbour
  dsimp only
  cases hg : ((assocFind n.outgoing_edges l).getD MinPQIndex.default).get v with
  | none => rfl
  | some x =>
    rcases x with ⟨s, e⟩
    by_cases hc : e ≥ i.get_end
    · simp only [if_pos hc]
    · simp only [if_neg hc]

theorem add_incoming_cases (n : GraphNode) (l : Label) (u : Vertex)
    (i : HalfOpenTimeInterval) :
    (n.add_incoming_neighbour l u i).2 =
      { n with incoming_edges := (assocUpdate n.incoming_edges l
          (match ((assocFind n.incoming_edges l).getD MinPQIndex.default).get u with
           | some x =>
             if x.2 ≥ i.get_end then
               ((assocFind n.incoming_edges l).getD MinPQIndex.default)
             else
               ((assocFind n.incoming_edges l).getD MinPQIndex.default).push
                 u i.start i.stop
           | none =>
             ((assocFind n.incoming_edges l).getD MinPQIndex.default).push
               u i.start i.stop)) } := by
  unfold add_incoming_neighbour
  dsimp only
  cases hg : ((assocFind n.incoming_edges l).getD MinPQIndex.default).get u with
  | none => rfl
  | some x =>
    rcases x with ⟨s, e⟩
    by_cases hc : e ≥ i.get_end
    · simp only [if_pos hc]
    · simp only [if_neg hc]

theorem wfKeys_add_outgoing {n : GraphNode} (l : Label) (v : Vertex)
    (i : HalfOpenTimeInterval) (h : n.wfKeys) :
    (n.add_outgoing_neighbour l v i).2.wfKeys := by
  obtain ⟨ho, hi, hop, hip⟩ := h
  rw [add_outgoing_cases]
  have hpqnd : ((assocFind n.outgoing_edges l).getD
      (MinPQIndex.default : MinPQIndex Vertex Nat)).keysNodup := by
    cases hf : assocFind n.outgoing_edges l with
    | none => exact List.nodup_nil
    | some pq => exact hop (l, pq) (assocFind_mem hf)
  refine ⟨assocKeys_nodup_update _ _ ho, hi, ?_, hip⟩
  intro lp hlp
  rcases assocUpdate_mem lp hlp with heq | hmem
  · rw [heq]
    show MinPQIndex.keysNodup _
    cases hg : ((assocFind n.outgoing_edges l).getD MinPQIndex.default).get v with
    | none => exact MinPQIndex.keysNodup_push _ _ _ hpqnd
    | some x =>
      by_cases hc : x.2 ≥ i.get_end
      · simp only [if_pos hc]
        exact hpqnd
      · simp only [if_neg hc]
        exact MinPQIndex.keysNodup_push _ _ _ hpqnd
  · exact hop lp hmem

theorem wfKeys_add_incoming {n : GraphNode} (l : Label) (u : Vertex)
    (i : HalfOpenTimeInterval) (h : n.wfKeys) :
    (n.add_incoming_neighbour l u i).2.wfKeys := by
  obtain ⟨ho, hi, hop, hip⟩ := h
  rw [add_incoming_cases]
  have hpqnd : ((assocFind n.incoming_edges l).getD
      (MinPQIndex.default : MinPQIndex Vertex Nat)).keysNodup := by
    cases hf : assocFind n.incoming_edges l with
    | none => exact List.nodup_nil
    | some pq => exact hip (l, pq) (assocFind_mem hf)
  refine ⟨ho, assocKeys_nodup_update _ _ hi, hop, ?_⟩
  intro lp hlp
  rcases assocUpdate_mem lp hlp with heq | hmem
  · rw [heq]
    show MinPQIndex.keysNodup _
    cases hg : ((assocFind n.incoming_edges l).getD MinPQIndex.default).get u with
    | none => exact MinPQIndex.keysNodup_push _ _ _ hpqnd
    | some x =>
      by_cases hc : x.2 ≥ i.get_end
      · simp only [if_pos hc]
        exact hpqnd
      · simp only [if_neg hc]
        exact MinPQIndex.keysNodup_push _ _ _ hpqnd
  · exact hip lp hmem

theorem endsLB_add_outgoing {n : GraphNode} {q : Nat} (l : Label) (v : Vertex)
    (i : HalfOpenTimeInterval) (h : n.endsLB q) (hqi : q ≤ i.stop) :
    (n.add_outgoing_neighbour l v i).2.endsLB q := by
  obtain ⟨ho, hi⟩ := h
  rw [add_outgoing_cases]
  have hbase : ∀ t' ∈ ((assocFind n.outgoing_edges l).getD
      (MinPQIndex.default : MinPQIndex Vertex Nat)).entries, q ≤ t'.2.2 := by
    cases hf : assocFind n.outgoing_edges l with
    | none => intro t' ht'; exact absurd ht' (List.not_mem_nil _)
    | some pq => intro t' ht'; exact ho (l, pq) (assocFind_mem hf) t' ht'
  constructor
  · intro lp hlp t ht
    rcases assocUpdate_mem lp hlp with heq | hmem
    · rw [heq] at ht
      revert ht
      show t ∈ MinPQIndex.entries _ → q ≤ t.2.2
      cases hg : ((assocFind n.outgoing_edges l).getD MinPQIndex.default).get v with
      | none =>
        intro ht
        exact MinPQIndex.push_entries_bound v i.start hbase hqi t ht
      | some x =>
        by_cases hc : x.2 ≥ i.get_end
        · simp only [if_pos hc]
          intro ht
          exact hbase t ht
        · simp only [if_neg hc]
          intro ht
          exact MinPQIndex.push_entries_bound v i.start hbase hqi t ht
    · exact ho lp hmem t ht
  · intro lp hlp t ht
    exact hi lp hlp t ht

theorem endsLB_add_incoming {n : GraphNode} {q : Nat} (l : Label) (u : Vertex)
    (i : HalfOpenTimeInterval) (h : n.endsLB q) (hqi : q ≤ i.stop) :
    (n.add_incoming_neighbour l u i).2.endsLB q := by
  obtain ⟨ho, hi⟩ := h
  rw [add_incoming_cases]
  have hbase : ∀ t' ∈ ((assocFind n.incoming_edges l).getD
      (MinPQIndex.default : MinPQIndex Vertex Nat)).entries, q ≤ t'.2.2 := by
    cases hf : assocFind n.incoming_edges l with
    | none => intro t' ht'; exact absurd ht' (List.not_mem_nil _)
    | some pq => intro t' ht'; exact hi (l, pq) (assocFind_mem hf) t' ht'
  constructor
  · intro lp hlp t ht
    exact ho lp hlp t ht
  · intro lp hlp t ht
    rcases assocUpdate_mem lp hlp with heq | hmem
    · rw [heq] at ht
      revert ht
      show t ∈ MinPQIndex.entries _ → q ≤ t.2.2
      cases hg : ((assocFind n.incoming_edges l).getD MinPQIndex.default).get u with
      | none =>
        intro ht
        exact MinPQIndex.push_entries_bound u i.start hbase hqi t ht
      | some x =>
        by_cases hc : x.2 ≥ i.get_end
        · simp only [if_pos hc]
          intro ht
          exact hbase t ht
        · simp only [if_neg hc]
          intro ht
          exact MinPQIndex.push_entries_bound u i.start hbase hqi t ht
    · exact hi lp hmem t ht
theorem remove_out_incoming (n : GraphNode) (w : Nat) :
    (n.remove_expired_outedges w).2.incoming_edges = n.incoming_edges := rfl

theorem remove_in_outgoing (n : GraphNode) (w : Nat) :
    (n.remove_expired_inedges w).2.outgoing_edges = n.outgoing_edges := rfl

theorem remove_out_outEntryN (n : GraphNode) (w : Nat)
    (hndl : (n.outgoing_edges.map Prod.fst).Nodup)
    (hpq : ∀ lp ∈ n.outgoing_edges, lp.2.keysNodup)
    (l : Label) (v : Vertex) :
    (n.remove_expired_outedges w).2.outEntryN l v =
      match n.outEntryN l v with
      | some p => if w < p.2 then some p else none
      | none => none := by
  unfold remove_expired_outedges outEntryN
  simp only []
  rw [assocFind_prune (fun pq => pq.popLe w) (fun pq => !pq.is_empty) l
    n.outgoing_edges hndl]
  cases hf : assocFind n.outgoing_edges l with
  | none => rfl
  | some pq =>
    have hknd : pq.keysNodup := hpq (l, pq) (assocFind_mem hf)
    by_cases hemp : (pq.popLe w).is_empty = true
    · have hcond : (!(pq.popLe w).is_empty) = false := by rw [hemp]; rfl
      simp only [hcond, Bool.false_eq_true, if_false, Option.getD_some]
      have hall : ∀ t ∈ pq.entries, ¬ (t.2.2 > w) := by
        have h0 := hemp
        rw [MinPQIndex.popLe_spec] at h0
        unfold MinPQIndex.is_empty at h0
        have hnil : pq.entries.filter (fun e => decide (e.2.2 > w)) = [] :=
          List.isEmpty_iff.mp h0
        intro t ht htg
        have hmm : t ∈ pq.entries.filter (fun e => decide (e.2.2 > w)) :=
          List.mem_filter.mpr ⟨ht, by simpa using htg⟩
        rw [hnil] at hmm
        exact absurd hmm (List.not_mem_nil _)
      cases hg : pq.get v with
      | none => rfl
      | some p =>
        have hple : ¬ (w < p.2) := by
          have := hall (v, p) (MinPQIndex.mem_of_get_eq_some hg)
          simpa using this
        simp only [Option.getD_some, if_neg hple]
        rfl
    · have hcond : (!(pq.popLe w).is_empty) = true := by
        cases hb : (pq.popLe w).is_empty
        · rfl
        · exact absurd hb hemp
      simp only [hcond, if_true, Option.getD_some]
      rw [MinPQIndex.popLe_spec]
      refine Eq.trans
        (MinPQIndex.get_filter_prio pq hknd (fun p => decide (p > w)) v) ?_
      cases hg : pq.get v with
      | none => rfl
      | some p =>
        by_cases hple : w < p.2
        · simp [hple]
        · simp [hple]

theorem remove_in_inEntryN (n : GraphNode) (w : Nat)
    (hndl : (n.incoming_edges.map Prod.fst).Nodup)
    (hpq : ∀ lp ∈ n.incoming_edges, lp.2.keysNodup)
    (l : Label) (u : Vertex) :
    (n.remove_expired_inedges w).2.inEntryN l u =
      match n.inEntryN l u with
      | some p => if w < p.2 then some p else none
      | none => none := by
  unfold remove_expired_inedges inEntryN
  simp only []
  rw [assocFind_prune (fun pq => pq.popLe w) (fun pq => !pq.is_empty) l
    n.incoming_edges hndl]
  cases hf : assocFind n.incoming_edges l with
  | none => rfl
  | some pq =>
    have hknd : pq.keysNodup := hpq (l, pq) (assocFind_mem hf)
    by_cases hemp : (pq.popLe w).is_empty = true
    · have hcond : (!(pq.popLe w).is_empty) = false := by rw [hemp]; rfl
      simp only [hcond, Bool.false_eq_true, if_false, Option.getD_some]
      have hall : ∀ t ∈ pq.entries, ¬ (t.2.2 > w) := by
        have h0 := hemp
        rw [MinPQIndex.popLe_spec] at h0
        unfold MinPQIndex.is_empty at h0
        have hnil : pq.entries.filter (fun e => decide (e.2.2 > w)) = [] :=
          List.isEmpty_iff.mp h0
        intro t ht htg
        have hmm : t ∈ pq.entries.filter (fun e => decide (e.2.2 > w)) :=
          List.mem_filter.mpr ⟨ht, by simpa using htg⟩
        rw [hnil] at hmm
        exact absurd hmm (List.not_mem_nil _)
      cases hg : pq.get u with
      | none => rfl
      | some p =>
        have hple : ¬ (w < p.2) := by
          have := hall (u, p) (MinPQIndex.mem_of_get_eq_some hg)
          simpa using this
        simp only [Option.getD_some, if_neg hple]
        rfl
    · have hcond : (!(pq.popLe w).is_empty) = true := by
        cases hb : (pq.popLe w).is_empty
        · rfl
        · exact absurd hb hemp
      simp only [hcond, if_true, Option.getD_some]
      rw [MinPQIndex.popLe_spec]
      refine Eq.trans
        (MinPQIndex.get_filter_prio pq hknd (fun p => decide (p > w)) u) ?_
      cases hg : pq.get u with
      | none => rfl
      | some p =>
        by_cases hple : w < p.2
        · simp [hple]
        · simp [hple]

theorem remove_out_min_le (n : GraphNode) (w : Nat) :
    ∀ lp ∈ (n.remove_expired_outedges w).2.outgoing_edges, ∀ t ∈ lp.2.entries,
      (n.remove_expired_outedges w).1 ≤ t.2.2 := by
  intro lp hlp t ht
  have hmem : (match lp.2.peek with
      | some x => x.2.2
      | none => U64MAX) ∈
      (((n.outgoing_edges.map (fun e => (e.1, e.2.popLe w))).filter
        (fun e => !e.2.is_empty)).map (fun e =>
          match e.2.peek with
          | some x => x.2.2
          | none => U64MAX)) :=
    List.mem_map_of_mem _ hlp
  have h1 := foldr_min_le_of_mem hmem U64MAX
  cases hpk : lp.2.peek with
  | none =>
    exfalso
    have : lp.2.entries = [] := by
      have := hpk
      unfold MinPQIndex.peek at this
      exact (MinPQIndex.peekList_eq_none_iff _).mp this
    rw [this] at ht
    exact absurd ht (List.not_mem_nil _)
  | some x =>
    have h2 : x.2.2 ≤ t.2.2 := MinPQIndex.peek_min_le hpk t ht
    rw [hpk] at h1
    exact Nat.le_trans h1 h2

theorem remove_in_min_le (n : GraphNode) (w : Nat) :
    ∀ lp ∈ (n.remove_expired_inedges w).2.incoming_edges, ∀ t ∈ lp.2.entries,
      (n.remove_expired_inedges w).1 ≤ t.2.2 := by
  intro lp hlp t ht
  have hmem : (match lp.2.peek with
      | some x => x.2.2
      | none => U64MAX) ∈
      (((n.incoming_edges.map (fun e => (e.1, e.2.popLe w))).filter
        (fun e => !e.2.is_empty)).map (fun e =>
          match e.2.peek with
          | some x => x.2.2
          | none => U64MAX)) :=
    List.mem_map_of_mem _ hlp
  have h1 := foldr_min_le_of_mem hmem U64MAX
  cases hpk : lp.2.peek with
  | none =>
    exfalso
    have : lp.2.entries = [] := by
      have := hpk
      unfold MinPQIndex.peek at this
      exact (MinPQIndex.peekList_eq_none_iff _).mp this
    rw [this] at ht
    exact absurd ht (List.not_mem_nil _)
  | some x =>
    have h2 : x.2.2 ≤ t.2.2 := MinPQIndex.peek_min_le hpk t ht
    rw [hpk] at h1
    exact Nat.le_trans h1 h2

theorem wfKeys_remove_out {n : GraphNode} (w : Nat) (h : n.wfKeys) :
    (n.remove_expired_outedges w).2.wfKeys := by
  obtain ⟨ho, hi, hop, hip⟩ := h
  unfold remove_expired_outedges
  dsimp only
  refine ⟨assocKeys_nodup_prune ho (fun pq => pq.popLe w) (fun e => !e.2.is_empty), hi, ?_, hip⟩
  intro lp hlp
  rcases List.mem_filter.mp hlp with ⟨hmem, _⟩
  rcases List.mem_map.mp hmem with ⟨e0, he0, heq⟩
  rw [← heq]
  simp only []
  rw [MinPQIndex.popLe_spec]
  exact MinPQIndex.keysNodup_filter _ (hop e0 he0)

theorem wfKeys_remove_in {n : GraphNode} (w : Nat) (h : n.wfKeys) :
    (n.remove_expired_inedges w).2.wfKeys := by
  obtain ⟨ho, hi, hop, hip⟩ := h
  unfold remove_expired_inedges
  dsimp only
  refine ⟨ho, assocKeys_nodup_prune hi (fun pq => pq.popLe w) (fun e => !e.2.is_empty), hop, ?_⟩
  intro lp hlp
  rcases List.mem_filter.mp hlp with ⟨hmem, _⟩
  rcases List.mem_map.mp hmem with ⟨e0, he0, heq⟩
  rw [← heq]
  simp only []
  rw [MinPQIndex.popLe_spec]
  exact MinPQIndex.keysNodup_filter _ (hip e0 he0)

end GraphNode

/-! `Graph::insert_edge` characterization. -/

namespace Graph

theorem get_node_eq_getValue (g : Graph) (u : Vertex) :
    g.get_node u = g.node_index.getValue u := rfl

theorem insert_edge_split (g : Graph) (source : Vertex) (label : Label)
    (target : Vertex) (i : HalfOpenTimeInterval) :
    (g.insert_edge source label target i).2 =
      { g with node_index :=
          ((insertMid2 g source label target i).try_decrease_priority target
            i.get_end) } := by
  unfold insert_edge insertMid2 insertMid
  cases h1 : g.node_index.get source with
  | some e => rcases e with ⟨entry, p⟩; rfl
  | none => rfl

theorem insertMid_getValue (g : Graph) (source : Vertex) (label : Label)
    (target : Vertex) (i : HalfOpenTimeInterval) (u : Vertex) :
    (insertMid g source label target i).getValue u =
      if u = source then some (insertNodeA g source label target i)
      else g.node_index.getValue u := by
  unfold insertMid
  rw [MinPQIndex.getValue_try_decrease]
  cases h1 : g.node_index.get source with
  | some e =>
    rcases e with ⟨entry, p⟩
    rw [MinPQIndex.getValue_modifyValue]
    by_cases hu : u = source
    · subst hu
      simp only [if_pos rfl]
      unfold insertNodeA
      rw [get_node_eq_getValue]
      unfold MinPQIndex.getValue
      rw [h1]
      simp
    · simp [hu]
  | none =>
    rw [MinPQIndex.getValue_push]
    by_cases hu : u = source
    · subst hu
      simp only [if_pos rfl]
      unfold insertNodeA
      rw [get_node_eq_getValue]
      unfold MinPQIndex.getValue
      rw [h1]
      simp
    · simp [hu]

theorem insertMid2_getValue (g : Graph) (source : Vertex) (label : Label)
    (target : Vertex) (i : HalfOpenTimeInterval) (u : Vertex) :
    (insertMid2 g source label target i).getValue u =
      if u = target then some (insertNodeB g source label target i)
      else if u = source then some (insertNodeA g source label target i)
      else g.node_index.getValue u := by
  have hmid := insertMid_getValue g source label target i
  have hB : insertNodeB g source label target i =
      ((((insertMid g source label target i).getValue target).getD
        (GraphNode.new target)).add_incoming_neighbour label source i).2 := by
    unfold insertNodeB
    rw [hmid target]
    by_cases ht : target = source
    · simp [ht]
    · simp only [if_neg ht]
      rw [get_node_eq_getValue]
  unfold insertMid2
  cases h2 : (insertMid g source label target i).get target with
  | some e =>
    rcases e with ⟨entry, p⟩
    rw [MinPQIndex.getValue_modifyValue]
    by_cases hu : u = target
    · have hval : (insertMid g source label target i).getValue target = some entry := by
        unfold MinPQIndex.getValue
        rw [h2]
        rfl
      simp only [if_pos hu]
      rw [hu, hB, hval]
      simp
    · simp only [if_neg hu]
      rw [hmid u]
  | none =>
    rw [MinPQIndex.getValue_push]
    by_cases hu : u = target
    · have hval : (insertMid g source label target i).getValue target = none := by
        unfold MinPQIndex.getValue
        rw [h2]
        rfl
      simp only [if_pos hu]
      rw [hB, hval]
      simp
    · simp only [if_neg hu]
      rw [hmid u]

theorem insert_edge_get_node (g : Graph) (source : Vertex) (label : Label)
    (target : Vertex) (i : HalfOpenTimeInterval) (u : Vertex) :
    (g.insert_edge source label target i).2.get_node u =
      if u = target then some (insertNodeB g source label target i)
      else if u = source then some (insertNodeA g source label target i)
      else g.get_node u := by
  rw [insert_edge_split, get_node_eq_getValue]
  dsimp only
  rw [MinPQIndex.getValue_try_decrease, insertMid2_getValue]
  rfl

theorem outEntry_eq_base (g : Graph) (u : Vertex) (l : Label) (v : Vertex) :
    g.outEntry u l v = ((g.get_node u).getD (GraphNode.new u)).outEntryN l v := by
  unfold outEntry
  cases h : g.get_node u with
  | some n => rfl
  | none => rfl

theorem inEntry_eq_base (g : Graph) (v : Vertex) (l : Label) (u : Vertex) :
    g.inEntry v l u = ((g.get_node v).getD (GraphNode.new v)).inEntryN l u := by
  unfold inEntry
  cases h : g.get_node v with
  | some n => rfl
  | none => rfl

theorem insertNodeA_outEntryN (g : Graph) (source : Vertex) (label : Label)
    (target : Vertex) (i : HalfOpenTimeInterval) (l' : Label) (v' : Vertex) :
    (g.insertNodeA source label target i).outEntryN l' v' =
      if l' = label ∧ v' = target then
        match g.outEntry source label target with
        | some w => if i.stop ≤ w.2 then some w else some (w.1, i.stop)
        | none => some (i.start, i.stop)
      else g.outEntry source l' v' := by
  unfold insertNodeA
  by_cases hc : l' = label ∧ v' = target
  · obtain ⟨h1, h2⟩ := hc
    rw [h1, h2, if_pos ⟨rfl, rfl⟩]
    rw [GraphNode.add_outgoing_self, ← outEntry_eq_base]
  · rw [if_neg hc, GraphNode.add_outgoing_ne _ _ _ _ _ _ hc, ← outEntry_eq_base]

theorem insertNodeA_inEntryN (g : Graph) (source : Vertex) (label : Label)
    (target : Vertex) (i : HalfOpenTimeInterval) (l' : Label) (u' : Vertex) :
    (g.insertNodeA source label target i).inEntryN l' u' = g.inEntry source l' u' :=
  (inEntry_eq_base g source l' u').symm

theorem insertNodeB_outEntryN (g : Graph) (source : Vertex) (label : Label)
    (target : Vertex) (i : HalfOpenTimeInterval) (l' : Label) (v' : Vertex) :
    (g.insertNodeB source label target i).outEntryN l' v' =
      if target = source then (g.insertNodeA source label target i).outEntryN l' v'
      else g.outEntry target l' v' := by
  have hdef : g.insertNodeB source label target i =
      (((if target = source then some (g.insertNodeA source label target i)
          else g.get_node target).getD
        (GraphNode.new target)).add_incoming_neighbour label source i).2 := rfl
  rw [hdef]
  by_cases hts : target = source
  · simp only [if_pos hts, Option.getD_some]
    rfl
  · simp only [if_neg hts]
    exact (outEntry_eq_base g target l' v').symm

theorem insertNodeB_inEntryN (g : Graph) (source : Vertex) (label : Label)
    (target : Vertex) (i : HalfOpenTimeInterval) (l' : Label) (u' : Vertex) :
    (g.insertNodeB source label target i).inEntryN l' u' =
      if l' = label ∧ u' = source then
        match g.inEntry target label source with
        | some w => if i.stop ≤ w.2 then some w else some (w.1, i.stop)
        | none => some (i.start, i.stop)
      else g.inEntry target l' u' := by
  have hdef : g.insertNodeB source label target i =
      (((if target = source then some (g.insertNodeA source label target i)
          else g.get_node target).getD
        (GraphNode.new target)).add_incoming_neighbour label source i).2 := rfl
  have hbase : ∀ l u,
      ((if target = source then some (g.insertNodeA source label target i)
        else g.get_node target).getD (GraphNode.new target)).inEntryN l u =
      g.inEntry target l u := by
    intro l u
    by_cases hts : target = source
    · simp only [if_pos hts, Option.getD_some]
      rw [insertNodeA_inEntryN, hts]
    · simp only [if_neg hts]
      exact (inEntry_eq_base g target l u).symm
  rw [hdef]
  by_cases hc : l' = label ∧ u' = source
  · obtain ⟨h1, h2⟩ := hc
    rw [h1, h2]
    rw [GraphNode.add_incoming_self, hbase]
    rw [if_pos ⟨rfl, rfl⟩]
  · rw [GraphNode.add_incoming_ne _ _ _ _ _ _ hc, hbase, if_neg hc]

theorem insert_edge_outEntry (g : Graph) (source : Vertex) (label : Label)
    (target : Vertex) (i : HalfOpenTimeInterval) (u' : Vertex) (l' : Label)
    (v' : Vertex) :
    (g.insert_edge source label target i).2.outEntry u' l' v' =
      if u' = source ∧ l' = label ∧ v' = target then
        match g.outEntry source label target with
        | some w => if i.stop ≤ w.2 then some w else some (w.1, i.stop)
        | none => some (i.start, i.stop)
      else g.outEntry u' l' v' := by
  rw [outEntry_eq_base, insert_edge_get_node]
  by_cases ht : u' = target
  · simp only [if_pos ht, Option.getD_some]
    rw [insertNodeB_outEntryN]
    by_cases hts : target = source
    · simp only [if_pos hts]
      rw [insertNodeA_outEntryN, ht, hts]
      simp
    · simp only [if_neg hts]
      have hne : ¬(u' = source ∧ l' = label ∧ v' = target) :=
        fun hcc => hts (ht.symm.trans hcc.1)
      rw [if_neg hne, ht]
  · simp only [if_neg ht]
    by_cases hs : u' = source
    · simp only [if_pos hs, Option.getD_some]
      rw [insertNodeA_outEntryN, hs]
      by_cases hc : l' = label ∧ v' = target
      · rw [if_pos hc, if_pos ⟨rfl, hc.1, hc.2⟩]
      · rw [if_neg hc, if_neg (fun hcc => hc ⟨hcc.2.1, hcc.2.2⟩)]
    · simp only [if_neg hs]
      rw [← outEntry_eq_base]
      have hne : ¬(u' = source ∧ l' = label ∧ v' = target) := fun hcc => hs hcc.1
      rw [if_neg hne]

theorem insert_edge_inEntry (g : Graph) (source : Vertex) (label : Label)
    (target : Vertex) (i : HalfOpenTimeInterval) (v' : Vertex) (l' : Label)
    (u' : Vertex) :
    (g.insert_edge source label target i).2.inEntry v' l' u' =
      if v' = target ∧ l' = label ∧ u' = source then
        match g.inEntry target label source with
        | some w => if i.stop ≤ w.2 then some w else some (w.1, i.stop)
        | none => some (i.start, i.stop)
      else g.inEntry v' l' u' := by
  rw [inEntry_eq_base, insert_edge_get_node]
  by_cases ht : v' = target
  · simp only [if_pos ht, Option.getD_some]
    rw [insertNodeB_inEntryN, ht]
    by_cases hc : l' = label ∧ u' = source
    · rw [if_pos hc, if_pos ⟨rfl, hc.1, hc.2⟩]
    · rw [if_neg hc, if_neg (fun hcc => hc ⟨hcc.2.1, hcc.2.2⟩)]
  · simp only [if_neg ht]
    have hne : ¬(v' = target ∧ l' = label ∧ u' = source) := fun hcc => ht hcc.1
    rw [if_neg hne]
    by_cases hs : v' = source
    · simp only [if_pos hs, Option.getD_some]
      rw [insertNodeA_inEntryN, hs]
    · simp only [if_neg hs]
      rw [← inEntry_eq_base]

theorem insert_edge_flag (g : Graph) (source : Vertex) (label : Label)
    (target : Vertex) (i : HalfOpenTimeInterval) :
    (g.insert_edge source label target i).1 =
      match g.outEntry source label target with
      | some w => decide (w.2 < i.stop)
      | none => true := by
  unfold insert_edge
  cases h1 : g.node_index.get source with
  | some e =>
    rcases e with ⟨entry, p⟩
    dsimp only
    rw [GraphNode.add_outgoing_flag]
    have hoe : g.outEntry source label target = entry.outEntryN label target := by
      unfold outEntry get_node
      rw [h1]
      rfl
    rw [hoe]
  | none =>
    dsimp only
    have hoe : g.outEntry source label target = none := by
      unfold outEntry get_node
      rw [h1]
      rfl
    rw [hoe]

theorem insertMid_get (g : Graph) (source : Vertex) (label : Label)
    (target : Vertex) (i : HalfOpenTimeInterval) (u : Vertex) :
    (g.insertMid source label target i).get u =
      if u = source then
        some (g.insertNodeA source label target i, g.insertPrioA source i)
      else g.node_index.get u := by
  unfold insertMid insertPrioA
  rw [MinPQIndex.get_try_decrease]
  cases h1 : g.node_index.get source with
  | some e =>
    rcases e with ⟨n, p⟩
    rw [MinPQIndex.get_modifyValue]
    by_cases hu : u = source
    · simp only [if_pos hu]
      rw [hu, h1]
      have hA : g.insertNodeA source label target i =
          (n.add_outgoing_neighbour label target i).2 := by
        unfold insertNodeA
        rw [get_node_eq_getValue]
        unfold MinPQIndex.getValue
        rw [h1]
        rfl
      rw [hA]
      rfl
    · simp only [if_neg hu]
  | none =>
    by_cases hu : u = source
    · simp only [if_pos hu]
      rw [hu, MinPQIndex.get_push_self, h1]
      have hA : g.insertNodeA source label target i =
          ((GraphNode.new source).add_outgoing_neighbour label target i).2 := by
        unfold insertNodeA
        rw [get_node_eq_getValue]
        unfold MinPQIndex.getValue
        rw [h1]
        rfl
      rw [hA]
      simp [Nat.min_self]
    · simp only [if_neg hu]
      rw [MinPQIndex.get_push_ne _ _ _ hu]

theorem insertMid2_get (g : Graph) (source : Vertex) (label : Label)
    (target : Vertex) (i : HalfOpenTimeInterval) (u : Vertex) :
    (g.insertMid2 source label target i).get u =
      if u = target then
        some (g.insertNodeB source label target i,
          g.insertPrioMid source target i)
      else (g.insertMid source label target i).get u := by
  have hmid := insertMid_get g source label target i
  unfold insertMid2
  cases h2 : (g.insertMid source label target i).get target with
  | some e =>
    rcases e with ⟨n2, p2⟩
    have h3 := (hmid target).symm.trans h2
    rw [MinPQIndex.get_modifyValue]
    by_cases hu : u = target
    · simp only [if_pos hu]
      rw [hu, h2]
      have hBv : g.insertNodeB source label target i =
          (n2.add_incoming_neighbour label source i).2 := by
        unfold insertNodeB
        by_cases hts : target = source
        · rw [if_pos hts] at h3
          have h4 : (g.insertNodeA source label target i,
              g.insertPrioA source i) = (n2, p2) := Option.some.inj h3
          have h5 : g.insertNodeA source label target i = n2 :=
            congrArg Prod.fst h4
          rw [if_pos hts, ← h5]
          rfl
        · rw [if_neg hts] at h3
          rw [if_neg hts, get_node_eq_getValue]
          unfold MinPQIndex.getValue
          rw [h3]
          rfl
      have hPv : g.insertPrioMid source target i = p2 := by
        unfold insertPrioMid
        by_cases hts : target = source
        · rw [if_pos hts] at h3
          have h4 : (g.insertNodeA source label target i,
              g.insertPrioA source i) = (n2, p2) := Option.some.inj h3
          rw [if_pos hts]
          exact congrArg Prod.snd h4
        · rw [if_neg hts] at h3
          rw [if_neg hts, h3]
      rw [hBv, hPv]
      rfl
    · simp only [if_neg hu]
  | none =>
    have h3 := (hmid target).symm.trans h2
    by_cases hu : u = target
    · simp only [if_pos hu]
      rw [hu, MinPQIndex.get_push_self, h2]
      by_cases hts : target = source
      · rw [if_pos hts] at h3
        cases h3
      · rw [if_neg hts] at h3
        have hBv : g.insertNodeB source label target i =
            ((GraphNode.new target).add_incoming_neighbour label source i).2 := by
          unfold insertNodeB
          rw [if_neg hts, get_node_eq_getValue]
          unfold MinPQIndex.getValue
          rw [h3]
          rfl
        have hPv : g.insertPrioMid source target i = i.get_end := by
          unfold insertPrioMid
          rw [if_neg hts, h3]
        rw [hBv, hPv]
        rfl
    · simp only [if_neg hu]
      rw [MinPQIndex.get_push_ne _ _ _ hu]

theorem insert_edge_get (g : Graph) (source : Vertex) (label : Label)
    (target : Vertex) (i : HalfOpenTimeInterval) (u : Vertex) :
    (g.insert_edge source label target i).2.node_index.get u =
      if u = target then
        some (g.insertNodeB source label target i,
          g.insertPrioB source target i)
      else if u = source then
        some (g.insertNodeA source label target i, g.insertPrioA source i)
      else g.node_index.get u := by
  rw [insert_edge_split]
  dsimp only
  rw [MinPQIndex.get_try_decrease]
  by_cases hu : u = target
  · simp only [if_pos hu]
    rw [insertMid2_get, if_pos hu]
    rfl
  · simp only [if_neg hu]
    rw [insertMid2_get, if_neg hu, insertMid_get]

theorem insertPrioA_le (g : Graph) (source : Vertex) (i : HalfOpenTimeInterval) :
    g.insertPrioA source i ≤ i.get_end := by
  unfold insertPrioA
  cases g.node_index.get source with
  | some w => exact Nat.min_le_right _ _
  | none => exact Nat.le_refl _

theorem insertPrioB_le (g : Graph) (source target : Vertex)
    (i : HalfOpenTimeInterval) :
    g.insertPrioB source target i ≤ i.get_end :=
  Nat.min_le_right _ _

theorem remove_edges_eq (g : Graph) (w : Nat) :
    g.remove_edges w =
      { g with node_index :=
          ((g.node_index.popAllLe w).1.foldl (fun ni e =>
            if keepR w e then ni.push e.1 (pruneR w e) (prioR w e) else ni)
            (g.node_index.popAllLe w).2) } := rfl

theorem remove_edges_get (g : Graph) (w : Nat) (hnd : g.node_index.keysNodup)
    (u : Vertex) :
    (g.remove_edges w).node_index.get u =
      match g.node_index.get u with
      | some s =>
        if s.2 ≤ w then
          (if keepR w (u, s) then some (pruneR w (u, s), prioR w (u, s))
           else none)
        else some s
      | none => none := by
  have hperm := MinPQIndex.popAllLe_fst_perm g.node_index w
  have hsnd := MinPQIndex.popAllLe_snd g.node_index w
  have hfilterNodup : ((g.node_index.entries.filter
      (fun e => decide (e.2.2 ≤ w))).map Prod.fst).Nodup :=
    hnd.sublist ((List.filter_sublist _).map Prod.fst)
  have hndL : (((g.node_index.popAllLe w).1).map Prod.fst).Nodup :=
    ((hperm.map Prod.fst).nodup_iff).mpr hfilterNodup
  have habs : ∀ e ∈ (g.node_index.popAllLe w).1,
      (g.node_index.popAllLe w).2.get e.1 = none := by
    intro e he
    have hef : e ∈ g.node_index.entries.filter (fun e => decide (e.2.2 ≤ w)) :=
      hperm.mem_iff.mp he
    rcases List.mem_filter.mp hef with ⟨hee, hle⟩
    rw [hsnd]
    refine Eq.trans
      (MinPQIndex.get_filter_prio g.node_index hnd (fun p => decide (p > w)) e.1) ?_
    have hge : g.node_index.get e.1 = some e.2 :=
      MinPQIndex.get_eq_some_of_mem hnd hee
    rw [hge]
    have hng : ¬ (e.2.2 > w) := by simpa using hle
    simp [hng]
  have hfold := MinPQIndex.foldl_push_get (fun e => pruneR w e)
    (fun e => prioR w e) (fun e => keepR w e) (g.node_index.popAllLe w).1
    (g.node_index.popAllLe w).2 u hndL habs
  rw [remove_edges_eq]
  refine Eq.trans hfold ?_
  rw [MinPQIndex.get_perm hperm hfilterNodup u]
  cases hgu : g.node_index.get u with
  | none =>
    have hL : (⟨g.node_index.entries.filter (fun e => decide (e.2.2 ≤ w))⟩ :
        MinPQIndex Vertex GraphNode).get u = none := by
      refine Eq.trans
        (MinPQIndex.get_filter_prio g.node_index hnd (fun p => decide (p ≤ w)) u) ?_
      rw [hgu]
    have hP : (g.node_index.popAllLe w).2.get u = none := by
      rw [hsnd]
      refine Eq.trans
        (MinPQIndex.get_filter_prio g.node_index hnd (fun p => decide (p > w)) u) ?_
      rw [hgu]
    rw [hL, hP]
  | some s =>
    have hL : (⟨g.node_index.entries.filter (fun e => decide (e.2.2 ≤ w))⟩ :
        MinPQIndex Vertex GraphNode).get u = if s.2 ≤ w then some s else none := by
      refine Eq.trans
        (MinPQIndex.get_filter_prio g.node_index hnd (fun p => decide (p ≤ w)) u) ?_
      rw [hgu]
      by_cases hc : s.2 ≤ w <;> simp [hc]
    have hP : (g.node_index.popAllLe w).2.get u =
        if s.2 ≤ w then none else some s := by
      rw [hsnd]
      refine Eq.trans
        (MinPQIndex.get_filter_prio g.node_index hnd (fun p => decide (p > w)) u) ?_
      rw [hgu]
      by_cases hc : s.2 ≤ w
      · have hng : ¬ (s.2 > w) := by omega
        simp [hc, hng]
      · have hg2 : s.2 > w := by omega
        simp [hc, hg2]
    rw [hL, hP]
    by_cases hc : s.2 ≤ w
    · simp only [if_pos hc]
    · simp only [if_neg hc]

theorem remove_edges_outEntry (g : Graph) (w : Nat)
    (hnd : g.node_index.keysNodup)
    (hwfn : ∀ e ∈ g.node_index.entries, e.2.1.wfKeys)
    (hpl : g.prioLB) (u : Vertex) (l : Label) (v : Vertex) :
    (g.remove_edges w).outEntry u l v =
      match g.outEntry u l v with
      | some p => if w < p.2 then some p else none
      | none => none := by
  have hrg := remove_edges_get g w hnd u
  cases hgu : g.node_index.get u with
  | none =>
    have hpre : g.outEntry u l v = none := by
      unfold outEntry get_node
      rw [hgu]
      rfl
    have hpost : (g.remove_edges w).outEntry u l v = none := by
      unfold outEntry get_node
      rw [hrg, hgu]
      rfl
    rw [hpre, hpost]
  | some s =>
    rcases s with ⟨n, p⟩
    have hpre : g.outEntry u l v = n.outEntryN l v := by
      unfold outEntry get_node
      rw [hgu]
      rfl
    have hmemu : (u, n, p) ∈ g.node_index.entries :=
      MinPQIndex.mem_of_get_eq_some hgu
    have hwfu : n.wfKeys := hwfn (u, n, p) hmemu
    have hwf_in := GraphNode.wfKeys_remove_in w hwfu
    have hchar : (Graph.pruneR w (u, n, p)).outEntryN l v =
        match n.outEntryN l v with
        | some q => if w < q.2 then some q else none
        | none => none :=
      GraphNode.remove_out_outEntryN (n.remove_expired_inedges w).2 w
        hwf_in.1 hwf_in.2.2.1 l v
    by_cases hc : p ≤ w
    · by_cases hk : keepR w (u, n, p) = true
      · have hpost : (g.remove_edges w).outEntry u l v =
            (Graph.pruneR w (u, n, p)).outEntryN l v := by
          unfold outEntry get_node
          rw [hrg, hgu]
          dsimp only
          rw [if_pos hc, if_pos hk]
          rfl
        rw [hpre, hpost]
        exact hchar
      · have hpost : (g.remove_edges w).outEntry u l v = none := by
          unfold outEntry get_node
          rw [hrg, hgu]
          dsimp only
          rw [if_pos hc, if_neg hk]
          rfl
        rw [hpre, hpost]
        have hiso : (Graph.pruneR w (u, n, p)).is_isolated = true := by
          unfold keepR at hk
          cases hb : (Graph.pruneR w (u, n, p)).is_isolated with
          | true => rfl
          | false =>
            exfalso
            apply hk
            rw [hb]
            rfl
        have hout_nil : (Graph.pruneR w (u, n, p)).outgoing_edges = [] := by
          unfold GraphNode.is_isolated at hiso
          exact List.isEmpty_iff.mp (Bool.and_eq_true_iff.mp hiso).2
        have hnone : (Graph.pruneR w (u, n, p)).outEntryN l v = none := by
          unfold GraphNode.outEntryN
          rw [hout_nil]
          rfl
        rw [← hchar, hnone]
    · have hpost : (g.remove_edges w).outEntry u l v = n.outEntryN l v := by
        unfold outEntry get_node
        rw [hrg, hgu]
        dsimp only
        rw [if_neg hc]
        rfl
      rw [hpre, hpost]
      cases hoe : n.outEntryN l v with
      | none => rfl
      | some q =>
        have hq : p ≤ q.2 := by
          have hoe2 := hoe
          unfold GraphNode.outEntryN at hoe2
          cases hf : assocFind n.outgoing_edges l with
          | none =>
            rw [hf] at hoe2
            cases hoe2
          | some pq =>
            rw [hf] at hoe2
            simp only [Option.getD_some] at hoe2
            have hmem := MinPQIndex.mem_of_get_eq_some hoe2
            exact (hpl (u, n, p) hmemu).1 (l, pq) (assocFind_mem hf) (v, q) hmem
        have hlt : w < q.2 := by omega
        simp [hlt]

theorem remove_edges_inEntry (g : Graph) (w : Nat)
    (hnd : g.node_index.keysNodup)
    (hwfn : ∀ e ∈ g.node_index.entries, e.2.1.wfKeys)
    (hpl : g.prioLB) (v : Vertex) (l : Label) (u : Vertex) :
    (g.remove_edges w).inEntry v l u =
      match g.inEntry v l u with
      | some p => if w < p.2 then some p else none
      | none => none := by
  have hrg := remove_edges_get g w hnd v
  cases hgu : g.node_index.get v with
  | none =>
    have hpre : g.inEntry v l u = none := by
      unfold inEntry get_node
      rw [hgu]
      rfl
    have hpost : (g.remove_edges w).inEntry v l u = none := by
      unfold inEntry get_node
      rw [hrg, hgu]
      rfl
    rw [hpre, hpost]
  | some s =>
    rcases s with ⟨n, p⟩
    have hpre : g.inEntry v l u = n.inEntryN l u := by
      unfold inEntry get_node
      rw [hgu]
      rfl
    have hmemu : (v, n, p) ∈ g.node_index.entries :=
      MinPQIndex.mem_of_get_eq_some hgu
    have hwfu : n.wfKeys := hwfn (v, n, p) hmemu
    have hchar : (Graph.pruneR w (v, n, p)).inEntryN l u =
        match n.inEntryN l u with
        | some q => if w < q.2 then some q else none
        | none => none :=
      GraphNode.remove_in_inEntryN n w hwfu.2.1 hwfu.2.2.2 l u
    by_cases hc : p ≤ w
    · by_cases hk : keepR w (v, n, p) = true
      · have hpost : (g.remove_edges w).inEntry v l u =
            (Graph.pruneR w (v, n, p)).inEntryN l u := by
          unfold inEntry get_node
          rw [hrg, hgu]
          dsimp only
          rw [if_pos hc, if_pos hk]
          rfl
        rw [hpre, hpost]
        exact hchar
      · have hpost : (g.remove_edges w).inEntry v l u = none := by
          unfold inEntry get_node
          rw [hrg, hgu]
          dsimp only
          rw [if_pos hc, if_neg hk]
          rfl
        rw [hpre, hpost]
        have hiso : (Graph.pruneR w (v, n, p)).is_isolated = true := by
          unfold keepR at hk
          cases hb : (Graph.pruneR w (v, n, p)).is_isolated with
          | true => rfl
          | false =>
            exfalso
            apply hk
            rw [hb]
            rfl
        have hin_nil : (Graph.pruneR w (v, n, p)).incoming_edges = [] := by
          unfold GraphNode.is_isolated at hiso
          exact List.isEmpty_iff.mp (Bool.and_eq_true_iff.mp hiso).1
        have hnone : (Graph.pruneR w (v, n, p)).inEntryN l u = none := by
          unfold GraphNode.inEntryN
          rw [hin_nil]
          rfl
        rw [← hchar, hnone]
    · have hpost : (g.remove_edges w).inEntry v l u = n.inEntryN l u := by
        unfold inEntry get_node
        rw [hrg, hgu]
        dsimp only
        rw [if_neg hc]
        rfl
      rw [hpre, hpost]
      cases hoe : n.inEntryN l u with
      | none => rfl
      | some q =>
        have hq : p ≤ q.2 := by
          have hoe2 := hoe
          unfold GraphNode.inEntryN at hoe2
          cases hf : assocFind n.incoming_edges l with
          | none =>
            rw [hf] at hoe2
            cases hoe2
          | some pq =>
            rw [hf] at hoe2
            simp only [Option.getD_some] at hoe2
            have hmem := MinPQIndex.mem_of_get_eq_some hoe2
            exact (hpl (v, n, p) hmemu).2 (l, pq) (assocFind_mem hf) (u, q) hmem
        have hlt : w < q.2 := by omega
        simp [hlt]

theorem wf_base_node (g : Graph)
    (hwfn : ∀ e ∈ g.node_index.entries, e.2.1.wfKeys) (u : Vertex) :
    ((g.get_node u).getD (GraphNode.new u)).wfKeys := by
  cases hgu : g.node_index.get u with
  | none =>
    have hn : g.get_node u = none := by
      unfold get_node
      rw [hgu]
      rfl
    rw [hn]
    exact GraphNode.new_wfKeys u
  | some s =>
    have hn : g.get_node u = some s.1 := by
      unfold get_node
      rw [hgu]
      rfl
    rw [hn]
    exact hwfn (u, s) (MinPQIndex.mem_of_get_eq_some hgu)

theorem endsLB_base_node (g : Graph) (hpl : g.prioLB) (u : Vertex) :
    ∀ q, ((g.node_index.get u).map (fun s => s.2)).getD U64MAX = q →
      ((g.get_node u).getD (GraphNode.new u)).endsLB q := by
  intro q hq
  cases hgu : g.node_index.get u with
  | none =>
    have hn : g.get_node u = none := by
      unfold get_node
      rw [hgu]
      rfl
    rw [hn]
    exact GraphNode.new_endsLB u q
  | some s =>
    rw [hgu] at hq
    have hn : g.get_node u = some s.1 := by
      unfold get_node
      rw [hgu]
      rfl
    rw [hn]
    have hb := hpl (u, s) (MinPQIndex.mem_of_get_eq_some hgu)
    have : s.2 = q := hq
    exact this ▸ ⟨hb.1, hb.2⟩

theorem insertNodeA_endsLB (g : Graph) (source : Vertex) (label : Label)
    (target : Vertex) (i : HalfOpenTimeInterval) (hpl : g.prioLB) :
    (g.insertNodeA source label target i).endsLB (g.insertPrioA source i) := by
  unfold insertNodeA
  apply GraphNode.endsLB_add_outgoing
  · cases hgu : g.node_index.get source with
    | none =>
      have hn : g.get_node source = none := by
        unfold get_node
        rw [hgu]
        rfl
      rw [hn]
      exact GraphNode.new_endsLB source _
    | some s =>
      have hn : g.get_node source = some s.1 := by
        unfold get_node
        rw [hgu]
        rfl
      rw [hn]
      have hb := hpl (source, s) (MinPQIndex.mem_of_get_eq_some hgu)
      have hle : g.insertPrioA source i ≤ s.2 := by
        unfold insertPrioA
        rw [hgu]
        exact Nat.min_le_left _ _
      exact GraphNode.endsLB_mono hle ⟨hb.1, hb.2⟩
  · exact insertPrioA_le g source i

theorem insertNodeB_endsLB (g : Graph) (source : Vertex) (label : Label)
    (target : Vertex) (i : HalfOpenTimeInterval) (hpl : g.prioLB) :
    (g.insertNodeB source label target i).endsLB
      (g.insertPrioB source target i) := by
  have hdef : g.insertNodeB source label target i =
      (((if target = source then some (g.insertNodeA source label target i)
          else g.get_node target).getD
        (GraphNode.new target)).add_incoming_neighbour label source i).2 := rfl
  rw [hdef]
  apply GraphNode.endsLB_add_incoming
  · by_cases hts : target = source
    · simp only [if_pos hts, Option.getD_some]
      have hle : g.insertPrioB source target i ≤ g.insertPrioA source i := by
        unfold insertPrioB insertPrioMid
        rw [if_pos hts]
        exact Nat.min_le_left _ _
      exact GraphNode.endsLB_mono hle
        (insertNodeA_endsLB g source label target i hpl)
    · simp only [if_neg hts]
      cases hgu : g.node_index.get target with
      | none =>
        have hn : g.get_node target = none := by
          unfold get_node
          rw [hgu]
          rfl
        rw [hn]
        exact GraphNode.new_endsLB target _
      | some s =>
        have hn : g.get_node target = some s.1 := by
          unfold get_node
          rw [hgu]
          rfl
        rw [hn]
        have hb := hpl (target, s) (MinPQIndex.mem_of_get_eq_some hgu)
        have hle : g.insertPrioB source target i ≤ s.2 := by
          unfold insertPrioB insertPrioMid
          rw [if_neg hts, hgu]
          exact Nat.min_le_left _ _
        exact GraphNode.endsLB_mono hle ⟨hb.1, hb.2⟩
  · exact insertPrioB_le g source target i

theorem inv_new (dfa : DFA) : (Graph.new dfa).inv := by
  refine ⟨List.nodup_nil, ?_, ?_, ?_⟩
  · intro e he
    cases he
  · intro e he
    cases he
  · intro u l v
    rfl

theorem inv_insert {g : Graph} (h : g.inv) (source : Vertex) (label : Label)
    (target : Vertex) (i : HalfOpenTimeInterval) :
    (g.insert_edge source label target i).2.inv := by
  obtain ⟨hnd, hwfn, hpl, hmir⟩ := h
  have hmidnd : (g.insertMid source label target i).keysNodup := by
    unfold insertMid
    apply MinPQIndex.keysNodup_try_decrease
    cases h1 : g.node_index.get source with
    | some e =>
      rcases e with ⟨n, p⟩
      exact MinPQIndex.keysNodup_modifyValue _ _ hnd
    | none => exact MinPQIndex.keysNodup_push _ _ _ hnd
  have hnd' : (g.insert_edge source label target i).2.node_index.keysNodup := by
    rw [insert_edge_split]
    apply MinPQIndex.keysNodup_try_decrease
    unfold insertMid2
    cases h2 : (g.insertMid source label target i).get target with
    | some e =>
      rcases e with ⟨n2, p2⟩
      exact MinPQIndex.keysNodup_modifyValue _ _ hmidnd
    | none => exact MinPQIndex.keysNodup_push _ _ _ hmidnd
  have hwfA : (g.insertNodeA source label target i).wfKeys :=
    GraphNode.wfKeys_add_outgoing _ _ _ (wf_base_node g hwfn source)
  have hwfB : (g.insertNodeB source label target i).wfKeys := by
    have hdef : g.insertNodeB source label target i =
        (((if target = source then some (g.insertNodeA source label target i)
            else g.get_node target).getD
          (GraphNode.new target)).add_incoming_neighbour label source i).2 := rfl
    rw [hdef]
    apply GraphNode.wfKeys_add_incoming
    by_cases hts : target = source
    · simp only [if_pos hts, Option.getD_some]
      exact hwfA
    · simp only [if_neg hts]
      exact wf_base_node g hwfn target
  refine ⟨hnd', ?_, ?_, ?_⟩
  · intro e he
    have hge := MinPQIndex.get_eq_some_of_mem hnd' he
    rw [insert_edge_get] at hge
    by_cases h1 : e.1 = target
    · rw [if_pos h1] at hge
      have heq := Option.some.inj hge
      rw [← heq]
      exact hwfB
    · rw [if_neg h1] at hge
      by_cases h2 : e.1 = source
      · rw [if_pos h2] at hge
        have heq := Option.some.inj hge
        rw [← heq]
        exact hwfA
      · rw [if_neg h2] at hge
        exact hwfn (e.1, e.2) (MinPQIndex.mem_of_get_eq_some hge)
  · intro e he
    have hge := MinPQIndex.get_eq_some_of_mem hnd' he
    rw [insert_edge_get] at hge
    by_cases h1 : e.1 = target
    · rw [if_pos h1] at hge
      have heq := Option.some.inj hge
      rw [← heq]
      exact insertNodeB_endsLB g source label target i hpl
    · rw [if_neg h1] at hge
      by_cases h2 : e.1 = source
      · rw [if_pos h2] at hge
        have heq := Option.some.inj hge
        rw [← heq]
        exact insertNodeA_endsLB g source label target i hpl
      · rw [if_neg h2] at hge
        exact hpl (e.1, e.2) (MinPQIndex.mem_of_get_eq_some hge)
  · intro u' l' v'
    rw [insert_edge_outEntry, insert_edge_inEntry]
    by_cases hcond : u' = source ∧ l' = label ∧ v' = target
    · rw [if_pos hcond, if_pos ⟨hcond.2.2, hcond.2.1, hcond.1⟩,
        hmir source label target]
    · rw [if_neg hcond, if_neg (fun hc => hcond ⟨hc.2.2, hc.2.1, hc.1⟩)]
      exact hmir u' l' v'

theorem inv_remove {g : Graph} (h : g.inv) (w : Nat) : (g.remove_edges w).inv := by
  obtain ⟨hnd, hwfn, hpl, hmir⟩ := h
  have hnd' : (g.remove_edges w).node_index.keysNodup := by
    rw [remove_edges_eq]
    apply MinPQIndex.foldl_push_keysNodup
    rw [MinPQIndex.popAllLe_snd]
    exact MinPQIndex.keysNodup_filter _ hnd
  refine ⟨hnd', ?_, ?_, ?_⟩
  · intro e he
    have hge := MinPQIndex.get_eq_some_of_mem hnd' he
    rw [remove_edges_get g w hnd] at hge
    cases hgu : g.node_index.get e.1 with
    | none =>
      rw [hgu] at hge
      cases hge
    | some s =>
      rw [hgu] at hge
      dsimp only at hge
      have hwfs : s.1.wfKeys := hwfn (e.1, s) (MinPQIndex.mem_of_get_eq_some hgu)
      by_cases hc : s.2 ≤ w
      · rw [if_pos hc] at hge
        by_cases hk : keepR w (e.1, s) = true
        · rw [if_pos hk] at hge
          have heq := Option.some.inj hge
          rw [← heq]
          exact GraphNode.wfKeys_remove_out w (GraphNode.wfKeys_remove_in w hwfs)
        · rw [if_neg hk] at hge
          cases hge
      · rw [if_neg hc] at hge
        have heq := Option.some.inj hge
        rw [← heq]
        exact hwfs
  · intro e he
    have hge := MinPQIndex.get_eq_some_of_mem hnd' he
    rw [remove_edges_get g w hnd] at hge
    cases hgu : g.node_index.get e.1 with
    | none =>
      rw [hgu] at hge
      cases hge
    | some s =>
      rw [hgu] at hge
      dsimp only at hge
      by_cases hc : s.2 ≤ w
      · rw [if_pos hc] at hge
        by_cases hk : keepR w (e.1, s) = true
        · rw [if_pos hk] at hge
          have heq := Option.some.inj hge
          rw [← heq]
          constructor
          · intro lp hlp t ht
            have h1 := GraphNode.remove_out_min_le
              (s.1.remove_expired_inedges w).2 w lp hlp t ht
            exact Nat.le_trans (Nat.min_le_left _ _) h1
          · intro lp hlp t ht
            have h1 := GraphNode.remove_in_min_le s.1 w lp hlp t ht
            exact Nat.le_trans (Nat.min_le_right _ _) h1
        · rw [if_neg hk] at hge
          cases hge
      · rw [if_neg hc] at hge
        have heq := Option.some.inj hge
        rw [← heq]
        exact hpl (e.1, s) (MinPQIndex.mem_of_get_eq_some hgu)
  · intro u l v
    rw [remove_edges_outEntry g w hnd hwfn hpl,
      remove_edges_inEntry g w hnd hwfn hpl, hmir u l v]

theorem Reachable.inv {g : Graph} (h : g.Reachable) : g.inv := by
  induction h with
  | empty dfa => exact inv_new dfa
  | insert h source label target i ih => exact inv_insert ih source label target i
  | evict h w ih => exact inv_remove ih w

theorem try_decrease_noop {K V : Type} [DecidableEq K] {pq : MinPQIndex K V}
    {k : K} {p : Nat} (h : ∀ w, pq.get k = some w → w.2 ≤ p) :
    pq.try_decrease_priority k p = pq := by
  unfold MinPQIndex.try_decrease_priority
  cases hg : pq.get k with
  | none => rfl
  | some w =>
    have hle : w.2 ≤ p := h w hg
    have hng : ¬ (w.2 > p) := by omega
    simp [hng]

theorem insert_edge_noop (g : Graph) (source : Vertex) (label : Label)
    (target : Vertex) (i : HalfOpenTimeInterval)
    (hnd : g.node_index.keysNodup)
    (hwfn : ∀ e ∈ g.node_index.entries, e.2.1.wfKeys)
    {w : Nat × Nat} (hout : g.outEntry source label target = some w)
    (hle : i.stop ≤ w.2)
    {w2 : Nat × Nat} (hin : g.inEntry target label source = some w2)
    (hle2 : i.stop ≤ w2.2)
    {ns : GraphNode} {pps : Nat}
    (hgs : g.node_index.get source = some (ns, pps)) (hps : pps ≤ i.get_end)
    {nt : GraphNode} {ppt : Nat}
    (hgt : g.node_index.get target = some (nt, ppt)) (hpt : ppt ≤ i.get_end) :
    g.insert_edge source label target i = (false, g) := by
  have hnsE : ns.outEntryN label target = some w := by
    have hx := hout
    unfold Graph.outEntry Graph.get_node at hx
    rw [hgs] at hx
    exact hx
  have hntE : nt.inEntryN label source = some w2 := by
    have hx := hin
    unfold Graph.inEntry Graph.get_node at hx
    rw [hgt] at hx
    exact hx
  have hwfs : ns.wfKeys := hwfn (source, ns, pps) (MinPQIndex.mem_of_get_eq_some hgs)
  have hwft : nt.wfKeys := hwfn (target, nt, ppt) (MinPQIndex.mem_of_get_eq_some hgt)
  have hnoA : (ns.add_outgoing_neighbour label target i).2 = ns :=
    GraphNode.add_outgoing_noop ns label target i hwfs.1 hnsE hle
  have hnoB : (nt.add_incoming_neighbour label source i).2 = nt :=
    GraphNode.add_incoming_noop nt label source i hwft.2.1 hntE hle2
  have hmid : g.insertMid source label target i = g.node_index := by
    have hstep : (match g.node_index.get source with
        | some (entry, _) =>
          g.node_index.modifyValue source
            (fun _ => (entry.add_outgoing_neighbour label target i).2)
        | none =>
          g.node_index.push source
            (((GraphNode.new source).add_outgoing_neighbour label target i).2)
            i.get_end) = g.node_index := by
      rw [hgs]
      show g.node_index.modifyValue source
        (fun _ => (ns.add_outgoing_neighbour label target i).2) = g.node_index
      rw [hnoA]
      exact MinPQIndex.modifyValue_same hnd hgs
    unfold Graph.insertMid
    rw [hstep]
    exact try_decrease_noop (fun w' hw' => by
      rw [hgs] at hw'
      have hw2 : w' = (ns, pps) := (Option.some.inj hw').symm
      rw [hw2]
      exact hps)
  have hmid2 : g.insertMid2 source label target i = g.node_index := by
    unfold Graph.insertMid2
    rw [hmid, hgt]
    show g.node_index.modifyValue target
      (fun _ => (nt.add_incoming_neighbour label source i).2) = g.node_index
    rw [hnoB]
    exact MinPQIndex.modifyValue_same hnd hgt
  have hflag : (g.insert_edge source label target i).1 = false := by
    rw [Graph.insert_edge_flag, hout]
    simp
    omega
  have hsnd : (g.insert_edge source label target i).2 = g := by
    rw [Graph.insert_edge_split, hmid2]
    have h2 : g.node_index.try_decrease_priority target i.get_end = g.node_index :=
      try_decrease_noop (fun w' hw' => by
        rw [hgt] at hw'
        have : w' = (nt, ppt) := (Option.some.inj hw').symm
        rw [this]
        exact hpt)
    rw [h2]
  rw [Prod.ext_iff]
  exact ⟨hflag, hsnd⟩

theorem foldl_rpq_graph {α : Type}
    (f : (RPQState × List StreamingGraphTuple) → α →
      (RPQState × List StreamingGraphTuple))
    (hf : ∀ acc a, ((f acc a).1).graph = acc.1.graph) :
    ∀ (L : List α) acc, ((L.foldl f acc).1).graph = acc.1.graph := by
  intro L
  induction L with
  | nil => intro acc; rfl
  | cons a as ih =>
    intro acc
    simp only [List.foldl_cons]
    rw [ih, hf]

theorem expandTuple_graph (st : RPQState) (o : Label) (source target : Vertex)
    (label : Label) (i : HalfOpenTimeInterval) :
    (expandTuple st o source target label i).1.graph = st.graph := by
  unfold expandTuple
  rw [foldl_rpq_graph]
  intro acc t
  dsimp only
  rw [foldl_rpq_graph]
  · by_cases hc : t.1 = 0 ∧ ¬ Delta.containsTree acc.1.delta_tree_queue source
    · rw [if_pos hc]
    · rw [if_neg hc]
  · intro acc2 tr
    dsimp only
    cases hg : acc2.1.delta_tree_queue.get tr with
    | none => rfl
    | some e =>
      rcases e with ⟨tree, pr⟩
      rfl

end Graph

/-! ## Claim C1 — `Graph::insert_edge` return value -/

/-- C1: `insert_edge(u, l, v, i)` returns `true` iff no edge `(u, l, v)` was
stored before the call or `i`'s end is strictly greater than the end
previously stored for the triple; when it returns `false` the stored edge is
unchanged, in the forward table and — given the mutual-consistency invariant
G2 at this triple, which holds on reachable states — in the backward table
too. -/
theorem c1_insert_edge_grew_expiry (g : Graph) (source : Vertex) (label : Label)
    (target : Vertex) (i : HalfOpenTimeInterval)
    (hmir : g.outEntry source label target = g.inEntry target label source) :
    ((g.insert_edge source label target i).1 = true ↔
      g.outEntry source label target = none ∨
      ∃ w, g.outEntry source label target = some w ∧ w.2 < i.stop) ∧
    ((g.insert_edge source label target i).1 = false →
      (g.insert_edge source label target i).2.outEntry source label target =
        g.outEntry source label target ∧
      (g.insert_edge source label target i).2.inEntry target label source =
        g.inEntry target label source) := by
  rw [Graph.insert_edge_flag]
  cases hE : g.outEntry source label target with
  | none =>
    constructor
    · simp
    · intro h
      exact absurd h (by simp)
  | some w =>
    constructor
    · simp
    · intro hfalse
      have hle : i.stop ≤ w.2 := by
        simp at hfalse
        omega
      constructor
      · rw [Graph.insert_edge_outEntry, if_pos ⟨rfl, rfl, rfl⟩, hE]
        simp [hle]
      · have hin : g.inEntry target label source = some w := hmir.symm.trans hE
        rw [Graph.insert_edge_inEntry, if_pos ⟨rfl, rfl, rfl⟩, hin]
        simp [hle]

/-- C1, witness: the insert of `(10, a, 20, [2, 5))` into `gAPlus`, which
already stores `(10, a, 20)` with end 9, returns `false` and changes
neither table. -/
theorem c1_witness :
    gAPlus.outEntry 10 "a" 20 = gAPlus.inEntry 20 "a" 10 ∧
    (((gAPlus.insert_edge 10 "a" 20 ⟨2, 5⟩).1 = true ↔
      gAPlus.outEntry 10 "a" 20 = none ∨
      ∃ w, gAPlus.outEntry 10 "a" 20 = some w ∧ w.2 < (5 : Nat)) ∧
    ((gAPlus.insert_edge 10 "a" 20 ⟨2, 5⟩).1 = false →
      (gAPlus.insert_edge 10 "a" 20 ⟨2, 5⟩).2.outEntry 10 "a" 20 =
        gAPlus.outEntry 10 "a" 20 ∧
      (gAPlus.insert_edge 10 "a" 20 ⟨2, 5⟩).2.inEntry 20 "a" 10 =
        gAPlus.inEntry 20 "a" 10)) :=
  ⟨rfl, c1_insert_edge_grew_expiry gAPlus 10 "a" 20 ⟨2, 5⟩ rfl⟩

/-! ## Claim C2 — `MinPQIndex::push` on a present key -/

/-- C2, counterexample: after `push(1, "x", 5); push(1, "y", 3)` the entry
for key 1 holds the *old* value `"x"` with the new priority 3, not the value
`"y"` the claim asserts — `push` reaches the occupied indexmap entry, which
replaces the priority but keeps the stored `PQEntry` (equality and hash use
the key only), hence the stored value. -/
theorem c2_counterexample :
    (((MinPQIndex.default : MinPQIndex Nat String).push 1 "x" 5).push 1 "y" 3).get 1
        = some ("x", 3) ∧ ("x" : String) ≠ "y" := by
  exact ⟨rfl, by decide⟩

/-- C2, amended: after `push(k, v1, p1); push(k, v2, p2)` the key `k` appears
exactly once, with priority `p2` but with the *previously stored* value (`v1`
if `k` was absent before, otherwise the value already stored): `push`
replaces only the priority of a present key. -/
theorem c2_push_updates_priority_not_value {K V : Type} [DecidableEq K]
    (pq : MinPQIndex K V) (k : K) (v1 v2 : V) (p1 p2 : Nat) (h : pq.keysNodup) :
    ((pq.push k v1 p1).push k v2 p2).get k =
      some ((((pq.get k).map Prod.fst).getD v1), p2) ∧
    ((pq.push k v1 p1).push k v2 p2).countKey k = 1 := by
  constructor
  · rw [MinPQIndex.get_push_self, MinPQIndex.get_push_self]
    cases hg : pq.get k <;> simp [hg]
  · exact MinPQIndex.countKey_push_self k v2 p2 (MinPQIndex.keysNodup_push k v1 p1 h)

/-- C2, witness: the amended statement evaluated on a concrete queue. -/
theorem c2_witness :
    (((MinPQIndex.default : MinPQIndex Nat Nat).push 7 100 5).push 7 200 3).get 7
        = some (100, 3) ∧
    (((MinPQIndex.default : MinPQIndex Nat Nat).push 7 100 5).push 7 200 3).countKey 7
        = 1 := by
  have h := c2_push_updates_priority_not_value
    (MinPQIndex.default : MinPQIndex Nat Nat) 7 100 200 5 3 (by decide)
  simpa using h

/-! ## Claim C3 — eviction correctness and invariant G2 -/

/-- C3: on every reachable product-graph state, after `remove_edges(w)`
every stored edge — forward or backward — has interval end strictly greater
than `w`, and the two adjacency views are mutually consistent: the edge
`(u, l, v)` is stored in `forward(u)` with some data iff it is stored in
`backward(v)` with the same data. -/
theorem c3_remove_edges_correct (g : Graph) (h : g.Reachable) (w : Nat) :
    (∀ u l v p, (g.remove_edges w).outEntry u l v = some p → w < p.2) ∧
    (∀ v l u p, (g.remove_edges w).inEntry v l u = some p → w < p.2) ∧
    (∀ u l v, (g.remove_edges w).outEntry u l v =
      (g.remove_edges w).inEntry v l u) := by
  obtain ⟨hnd, hwfn, hpl, hmir⟩ := h.inv
  refine ⟨?_, ?_, ?_⟩
  · intro u l v p hp
    rw [Graph.remove_edges_outEntry g w hnd hwfn hpl] at hp
    cases hoe : g.outEntry u l v with
    | none =>
      rw [hoe] at hp
      cases hp
    | some q =>
      rw [hoe] at hp
      by_cases hlt : w < q.2
      · simp only [if_pos hlt] at hp
        have heq := Option.some.inj hp
        rw [← heq]
        exact hlt
      · simp only [if_neg hlt] at hp
        cases hp
  · intro v l u p hp
    rw [Graph.remove_edges_inEntry g w hnd hwfn hpl] at hp
    cases hoe : g.inEntry v l u with
    | none =>
      rw [hoe] at hp
      cases hp
    | some q =>
      rw [hoe] at hp
      by_cases hlt : w < q.2
      · simp only [if_pos hlt] at hp
        have heq := Option.some.inj hp
        rw [← heq]
        exact hlt
      · simp only [if_neg hlt] at hp
        cases hp
  · intro u l v
    rw [Graph.remove_edges_outEntry g w hnd hwfn hpl,
      Graph.remove_edges_inEntry g w hnd hwfn hpl, hmir u l v]

/-- C3, witness: the graph holding `10 —a→ 20 [1, 9)` is reachable, and the
conclusions hold for it at watermark 3. -/
theorem c3_witness :
    Graph.Reachable gAPlus ∧
    ((∀ u l v p, (gAPlus.remove_edges 3).outEntry u l v = some p → 3 < p.2) ∧
     (∀ v l u p, (gAPlus.remove_edges 3).inEntry v l u = some p → 3 < p.2) ∧
     (∀ u l v, (gAPlus.remove_edges 3).outEntry u l v =
       (gAPlus.remove_edges 3).inEntry v l u)) :=
  ⟨Graph.Reachable.insert (Graph.Reachable.empty dfaAPlus) 10 "a" 20 ⟨1, 9⟩,
   c3_remove_edges_correct gAPlus
     (Graph.Reachable.insert (Graph.Reachable.empty dfaAPlus) 10 "a" 20 ⟨1, 9⟩) 3⟩

/-! ## Claim C5 — what `parse_rpq` gives the caller -/

/-- C5, counterexample: the bounded-repetition query `a{1,2}` is not in the
grammar, so the pest stage fails and `parse_rpq` hits
`.expect("RPQ Parser unsuccessfull")` — the program panics instead of
returning a `ParseError` value to the caller. -/
theorem c5_counterexample :
    parse_rpq "a\x7b1,2\x7d" = CompileOutcome.panicked "RPQ Parser unsuccessfull" := by
  rfl

/-- C5, amended: for every query accepted by the grammar, compilation returns
a value to the caller — `Ok` of the minimized DFA (the error type being
`String`; no `ParseError` enum exists) — while for every query the grammar
rejects (malformed input, bounded repetition, …) the parse stage panics via
`.expect` rather than reporting an error value. -/
theorem c5_compile_returns_or_panics (q : String) :
    (∀ ast, parse_pest q = some ast →
      parse_rpq q = CompileOutcome.ret (Except.ok (minimize (determinize (thompsonOf ast))))) ∧
    (parse_pest q = none →
      parse_rpq q = CompileOutcome.panicked "RPQ Parser unsuccessfull") := by
  constructor
  · intro ast h
    unfold parse_rpq
    rw [h]
  · intro h
    unfold parse_rpq
    rw [h]

/-- C5, witness: the grammar-accepted query `a|b` compiles to a returned
`Ok` DFA. -/
theorem c5_witness :
    parse_rpq "a|b" = CompileOutcome.ret (Except.ok (minimize (determinize
      (thompsonOf (RE.alt (RE.pred "a") (RE.pred "b")))))) :=
  (c5_compile_returns_or_panics "a|b").1 (RE.alt (RE.pred "a") (RE.pred "b")) (by rfl)

/-! ## Claim C6 — the compiled DFA against the source language -/

/-- C6: the pipeline `minimize ∘ determinize ∘ thompson` applied to the
grammar-accepted query `a*/b*/a*` yields a DFA that *accepts* the word `bab`,
which is not in the language of `a*/b*/a*`.  The determinized DFA has four
states, all final, needing three equivalence classes; `minimize`'s refinement
loop stops as soon as the partition *count* is unchanged, and since the empty
non-final block of the initial partition disappears in the first pass, the
loop exits one round early and merges distinguishable states. -/
theorem c6_minimize_accepts_outside_language :
    parse_pest "a*/b*/a*" = some reABA ∧
    dfaABA.accept ["b", "a", "b"] = true ∧
    reMatch reABA ["b", "a", "b"] = false := by
  refine ⟨by rfl, by rfl, by rfl⟩

/-! ## Claim C7 — incoming/outgoing enumeration symmetry (counterexample) -/

/-- C7, counterexample: over the `a+` DFA (`0 —a→ 1`, `1 —a→ 1`, both with
label `a` into state 1) and the single graph edge `10 —a→ 20 [1,9)`,
`get_outgoing_edges 10 1` yields `((20,1), [1,9))`, but
`get_incoming_edges 20 1` does not yield the reversed counterpart
`((10,1), [1,9))`: `DFA::add_transition` skipped the backward entry `(a, 1)`
of state 1 because an entry with label `a` (namely `(a, 0)`) was already
present. -/
theorem c7_counterexample :
    (((20, 1), (⟨1, 9⟩ : HalfOpenTimeInterval)) ∈ gAPlus.get_outgoing_edges 10 1) ∧
    (((10, 1), (⟨1, 9⟩ : HalfOpenTimeInterval)) ∉ gAPlus.get_incoming_edges 20 1) := by
  decide

/-- C7, amended: the claimed iff fails (see the counterexample — the
backward DFA table drops a label that re-enters a state), but the inclusion
that does hold on reachable graphs: whenever the backward DFA table is sound
w.r.t. the forward one, everything `get_incoming_edges(v, s)` yields is the
reversed counterpart of an edge `get_outgoing_edges` yields. -/
theorem c7_incoming_within_reversed_outgoing (g : Graph) (hR : g.Reachable)
    (hbs : g.query_automata.backwardSoundness) (v : Vertex) (s : State)
    (u : Vertex) (s' : State) (i : HalfOpenTimeInterval)
    (hmem : ((u, s'), i) ∈ g.get_incoming_edges v s) :
    ((v, s), i) ∈ g.get_outgoing_edges u s' := by
  obtain ⟨hnd, hwfn, hpl, hmir⟩ := hR.inv
  unfold Graph.get_incoming_edges at hmem
  rcases List.mem_flatMap.mp hmem with ⟨lt, hlt, hin⟩
  cases hgv : g.get_node v with
  | none =>
    rw [hgv] at hin
    cases hin
  | some node =>
    rw [hgv] at hin
    rcases List.mem_map.mp hin with ⟨e, he, heq⟩
    have he1 : e.1 = u := congrArg (fun x => x.1.1) heq
    have hlt2 : lt.2 = s' := congrArg (fun x => x.1.2) heq
    have hi : HalfOpenTimeInterval.mk e.2.1 e.2.2 = i := congrArg (fun x => x.2) heq
    have hwfv : node.wfKeys := by
      unfold Graph.get_node at hgv
      cases hguv : g.node_index.get v with
      | none =>
        rw [hguv] at hgv
        cases hgv
      | some s0 =>
        rw [hguv] at hgv
        have hs0 : s0.1 = node := by simpa using hgv
        rw [← hs0]
        exact hwfn (v, s0) (MinPQIndex.mem_of_get_eq_some hguv)
    have hinE : g.inEntry v lt.1 u = some e.2 := by
      have hval : node.inEntryN lt.1 u = some e.2 := by
        unfold GraphNode.inEntryN
        unfold GraphNode.get_incoming_edges at he
        cases hf : assocFind node.incoming_edges lt.1 with
        | none =>
          rw [hf] at he
          cases he
        | some pq =>
          rw [hf] at he
          simp only [Option.getD_some] at he ⊢
          rw [← he1]
          exact MinPQIndex.get_eq_some_of_mem
            (hwfv.2.2.2 (lt.1, pq) (assocFind_mem hf)) he
      unfold Graph.inEntry
      rw [hgv]
      exact hval
    have houtE : g.outEntry u lt.1 v = some e.2 := by
      rw [hmir u lt.1 v]
      exact hinE
    have hdfa : (lt.1, s) ∈ g.query_automata.get_outgoing_transitions s' := by
      have hx := hbs s lt hlt
      rw [hlt2] at hx
      exact hx
    unfold Graph.outEntry at houtE
    cases hgu : g.get_node u with
    | none =>
      rw [hgu] at houtE
      cases houtE
    | some nodeU =>
      rw [hgu] at houtE
      have houtE2 : nodeU.outEntryN lt.1 v = some e.2 := houtE
      have hgoal : ((v, s), i) ∈ List.map
          (fun e => ((e.1, s), HalfOpenTimeInterval.mk e.2.1 e.2.2))
          (nodeU.get_outgoing_edges lt.1) := by
        apply List.mem_map.mpr
        refine ⟨(v, e.2), ?_, ?_⟩
        · unfold GraphNode.get_outgoing_edges
          unfold GraphNode.outEntryN at houtE2
          cases hf2 : assocFind nodeU.outgoing_edges lt.1 with
          | none =>
            rw [hf2] at houtE2
            cases houtE2
          | some pqU =>
            rw [hf2] at houtE2
            simp only [Option.getD_some] at houtE2 ⊢
            exact MinPQIndex.mem_of_get_eq_some houtE2
        · rw [← hi]
      unfold Graph.get_outgoing_edges
      apply List.mem_flatMap.mpr
      refine ⟨(lt.1, s), hdfa, ?_⟩
      rw [hgu]
      exact hgoal

/-- C7, witness: on `gAPlus` (whose pruned backward table is still sound),
the incoming enumeration of `(20, 1)` yields `((10, 0), [1, 9))`, and the
amended inclusion places the reversed edge in the outgoing enumeration of
`(10, 0)`. -/
theorem c7_witness :
    Graph.Reachable gAPlus ∧ gAPlus.query_automata.backwardSoundness ∧
    (((10, 0), (⟨1, 9⟩ : HalfOpenTimeInterval)) ∈ gAPlus.get_incoming_edges 20 1) ∧
    (((20, 1), (⟨1, 9⟩ : HalfOpenTimeInterval)) ∈ gAPlus.get_outgoing_edges 10 0) := by
  have hbs : gAPlus.query_automata.backwardSoundness := by
    intro s
    rcases s with _ | _ | n
    · decide
    · decide
    · intro ls h
      have hlen : gAPlus.query_automata.backward_transitions.length = 2 := by decide
      have hnone : gAPlus.query_automata.backward_transitions.get? (n + 2) = none := by
        apply List.get?_eq_none.mpr
        omega
      unfold DFA.get_incoming_transitions at h
      rw [hnone] at h
      cases h
  have hR : Graph.Reachable gAPlus :=
    Graph.Reachable.insert (Graph.Reachable.empty dfaAPlus) 10 "a" 20 ⟨1, 9⟩
  exact ⟨hR, hbs, by decide,
    c7_incoming_within_reversed_outgoing gAPlus hR hbs 20 1 10 0 ⟨1, 9⟩ (by decide)⟩

/-! ## Claim C4 — invariant T1 (counterexample) -/

/-- C4, counterexample: in the tree reached by expanding from
`1 —a→ 2 [1,5)`, `2 —b→ 3 [1,5)` and then re-expanding after the edge
`1 —a→ 2` grew to `[3,8)`, the node `(3,2)` has parent `(2,1)` with interval
`[3,8)` and incoming-edge interval `[1,5)`, yet its stored interval is the
stale `[1,5) ≠ intersect([3,8), [1,5)) = [3,5)`: T1 is violated in a
reachable state (the re-expansion updates the parent but re-enqueues only
edges with expiry above the parent's old end, which the edge into `(3,2)`
does not clear). -/
theorem c4_counterexample :
    ((tC4b.get_vertex (3, 2)).map (fun n => (n.parent, n.timestamp, n.incoming_edge_ts))
       = some (some (2, 1), ⟨1, 5⟩, ⟨1, 5⟩)) ∧
    ((tC4b.get_vertex (2, 1)).map TreeNode.get_interval = some ⟨3, 8⟩) ∧
    HalfOpenTimeInterval.intersect ⟨3, 8⟩ ⟨1, 5⟩ ≠ ⟨1, 5⟩ := by
  decide

/-- C4, amended: T1 does hold at the moment a node is created —
`add_vertex(v, s, ts, parent)` stores the interval `ts` when the parent is
the root and `intersect(ts, parent.interval)` otherwise, with parent pointer
and incoming-edge interval recorded; the violation arises only later, when
`tree_expand` grows a parent's interval without re-intersecting children
whose edge expiry does not exceed the parent's old end. -/
theorem c4_add_vertex_establishes_T1 (t : SpanningTree) (v : Vertex) (s : State)
    (i : HalfOpenTimeInterval) (parent : VSPair)
    (habs : t.contains (v, s) = false) :
    (((t.add_vertex v s i parent).1.get_vertex (v, s)).map
        (fun nd => (nd.parent, nd.incoming_edge_ts, nd.timestamp))) =
      some (some parent, i,
        (if t.root_vertex = parent then i
         else HalfOpenTimeInterval.intersect i
           (((t.get_vertex parent).getD junkTreeNode).get_interval))) := by
  have hget : t.node_queue.get (v, s) = none := by
    unfold SpanningTree.contains at habs
    cases hg : t.node_queue.get (v, s) with
    | none => rfl
    | some w =>
      rw [hg] at habs
      cases habs
  unfold SpanningTree.add_vertex SpanningTree.add_chilren SpanningTree.get_vertex
  dsimp only
  by_cases hroot : parent = t.root_vertex
  · rw [if_pos hroot]
    dsimp only
    rw [MinPQIndex.get_push_self, hget]
    simp only [if_pos hroot.symm]
    rfl
  · rw [if_neg hroot]
    dsimp only
    rw [MinPQIndex.get_modifyValue]
    have hroot2 : ¬ (t.root_vertex = parent) := fun h => hroot h.symm
    by_cases hps : (v, s) = parent
    · rw [if_pos hps]
      rw [MinPQIndex.get_push_self, hget]
      simp only [if_neg hroot2]
      rfl
    · rw [if_neg hps]
      rw [MinPQIndex.get_push_self, hget]
      simp only [if_neg hroot2]
      rfl

/-- C4, witness: adding `(5, 1)` under the non-root parent `(2, 1)` of
`tC4a` stores exactly the T1 interval `intersect([2,6), [1,5)) = [2,5)`. -/
theorem c4_witness :
    tC4a.contains (5, 1) = false ∧
    (((tC4a.add_vertex 5 1 ⟨2, 6⟩ (2, 1)).1.get_vertex (5, 1)).map
        (fun nd => (nd.parent, nd.incoming_edge_ts, nd.timestamp))) =
      some (some (2, 1), ⟨2, 6⟩,
        (if tC4a.root_vertex = (2, 1) then ⟨2, 6⟩
         else HalfOpenTimeInterval.intersect ⟨2, 6⟩
           (((tC4a.get_vertex (2, 1)).getD junkTreeNode).get_interval))) :=
  ⟨by decide, c4_add_vertex_establishes_T1 tC4a 5 1 ⟨2, 6⟩ (2, 1) (by decide)⟩


/-! ## Claim C8 — no-grow inserts (counterexample) -/

/-- C8, counterexample: with `(1, a, 2, [1,10))` stored, driving the tuple
`(1, a, 2, [1,3))` — whose end 3 does not exceed the stored end 10 — emits
nothing and leaves the delta alone, but it *changes the product graph*:
`insert_edge` still calls `try_decrease_priority`, so vertex 1's priority in
the graph's vertex queue drops from 10 to 3. -/
theorem c8_counterexample :
    c8st1.graph.outEntry 1 "a" 2 = some (1, 10) ∧
    (processTuple c8st1 "res" 1 2 "a" ⟨1, 3⟩).2 = [] ∧
    ((processTuple c8st1 "res" 1 2 "a" ⟨1, 3⟩).1.graph.node_index.get 1).map Prod.snd
      = some 3 ∧
    (c8st1.graph.node_index.get 1).map Prod.snd = some 10 ∧
    (processTuple c8st1 "res" 1 2 "a" ⟨1, 3⟩).1.graph ≠ c8st1.graph := by
  decide

/-- C8, amended: inserting the same tuple twice is *exactly* the same driver
state as inserting it once (the second `processTuple` returns the state
unchanged and emits nothing).  A no-grow insert is, however, not a full
no-op: it leaves the delta untouched and emits nothing, and the stored
adjacency (both lookup views) is unchanged — but the product graph itself can
still change, because `insert_edge` unconditionally lowers the node's queue
priority (the counterexample shows `10 → 3`). -/
theorem c8_idempotent_and_no_grow (st : RPQState) (hR : st.graph.Reachable)
    (o : Label) (source target : Vertex) (label : Label)
    (i : HalfOpenTimeInterval) :
    processTuple (processTuple st o source target label i).1 o source target
        label i = ((processTuple st o source target label i).1, []) ∧
    ((st.graph.insert_edge source label target i).1 = false →
      (processTuple st o source target label i).1.delta_node_index =
        st.delta_node_index ∧
      (processTuple st o source target label i).1.delta_tree_queue =
        st.delta_tree_queue ∧
      (processTuple st o source target label i).2 = [] ∧
      (∀ u l v, (processTuple st o source target label i).1.graph.outEntry u l v =
        st.graph.outEntry u l v) ∧
      (∀ v l u, (processTuple st o source target label i).1.graph.inEntry v l u =
        st.graph.inEntry v l u)) := by
  have hg1R : Graph.Reachable (st.graph.insert_edge source label target i).2 :=
    Graph.Reachable.insert hR source label target i
  obtain ⟨hnd1, hwfn1, hpl1, hmir1⟩ := hg1R.inv
  obtain ⟨hnd0, hwfn0, hpl0, hmir0⟩ := hR.inv
  have hout1 : ∃ w, (st.graph.insert_edge source label target i).2.outEntry
      source label target = some w ∧ i.stop ≤ w.2 := by
    rw [Graph.insert_edge_outEntry, if_pos ⟨rfl, rfl, rfl⟩]
    cases hoe : st.graph.outEntry source label target with
    | none => exact ⟨(i.start, i.stop), rfl, Nat.le_refl _⟩
    | some w0 =>
      by_cases hc : i.stop ≤ w0.2
      · exact ⟨w0, by simp [hc], hc⟩
      · exact ⟨(w0.1, i.stop), by simp [hc], Nat.le_refl _⟩
  obtain ⟨w1, hw1, hw1le⟩ := hout1
  have hin1 : (st.graph.insert_edge source label target i).2.inEntry
      target label source = some w1 := by
    rw [← hmir1 source label target]
    exact hw1
  have hgs1 : ∃ n p, (st.graph.insert_edge source label target i).2.node_index.get
      source = some (n, p) ∧ p ≤ i.get_end := by
    rw [Graph.insert_edge_get]
    by_cases hst : source = target
    · rw [if_pos hst]
      exact ⟨_, _, rfl, Graph.insertPrioB_le st.graph source target i⟩
    · rw [if_neg hst, if_pos rfl]
      exact ⟨_, _, rfl, Graph.insertPrioA_le st.graph source i⟩
  have hgt1 : ∃ n p, (st.graph.insert_edge source label target i).2.node_index.get
      target = some (n, p) ∧ p ≤ i.get_end := by
    rw [Graph.insert_edge_get, if_pos rfl]
    exact ⟨_, _, rfl, Graph.insertPrioB_le st.graph source target i⟩
  obtain ⟨ns1, ps1, hgs1e, hps1⟩ := hgs1
  obtain ⟨nt1, pt1, hgt1e, hpt1⟩ := hgt1
  have hnoop : (st.graph.insert_edge source label target i).2.insert_edge
      source label target i =
      (false, (st.graph.insert_edge source label target i).2) :=
    Graph.insert_edge_noop _ source label target i hnd1 hwfn1 hw1 hw1le hin1
      hw1le hgs1e hps1 hgt1e hpt1
  have hg1 : (processTuple st o source target label i).1.graph =
      (st.graph.insert_edge source label target i).2 := by
    unfold processTuple
    dsimp only
    by_cases hr : (st.graph.insert_edge source label target i).1 = true
    · rw [if_pos hr]
      rw [Graph.expandTuple_graph]
    · rw [if_neg hr]
  constructor
  · have happly : ∀ st' : RPQState,
        st'.graph = (st.graph.insert_edge source label target i).2 →
        processTuple st' o source target label i = (st', []) := by
      intro st' hst
      unfold processTuple
      dsimp only
      rw [hst, hnoop]
      show ({st' with graph := (st.graph.insert_edge source label target i).2},
        ([] : List StreamingGraphTuple)) = (st', [])
      rw [← hst]
    exact happly _ hg1
  · intro hfalse
    have hpr : processTuple st o source target label i =
        ({st with graph := (st.graph.insert_edge source label target i).2}, []) := by
      unfold processTuple
      dsimp only
      rw [hfalse]
      rfl
    rw [hpr]
    refine ⟨rfl, rfl, rfl, ?_, ?_⟩
    · intro u l v
      show (st.graph.insert_edge source label target i).2.outEntry u l v =
        st.graph.outEntry u l v
      rw [Graph.insert_edge_outEntry]
      by_cases hcond : u = source ∧ l = label ∧ v = target
      · obtain ⟨h1, h2, h3⟩ := hcond
        rw [if_pos ⟨h1, h2, h3⟩]
        rw [Graph.insert_edge_flag] at hfalse
        cases hoe : st.graph.outEntry source label target with
        | none =>
          rw [hoe] at hfalse
          cases hfalse
        | some w0 =>
          rw [hoe] at hfalse
          have hge : i.stop ≤ w0.2 := by
            simp at hfalse
            omega
          rw [h1, h2, h3, hoe]
          simp [hge]
      · rw [if_neg hcond]
    · intro v l u
      show (st.graph.insert_edge source label target i).2.inEntry v l u =
        st.graph.inEntry v l u
      rw [Graph.insert_edge_inEntry]
      by_cases hcond : v = target ∧ l = label ∧ u = source
      · obtain ⟨h1, h2, h3⟩ := hcond
        rw [if_pos ⟨h1, h2, h3⟩]
        rw [Graph.insert_edge_flag] at hfalse
        cases hoe : st.graph.outEntry source label target with
        | none =>
          rw [hoe] at hfalse
          cases hfalse
        | some w0 =>
          rw [hoe] at hfalse
          have hge : i.stop ≤ w0.2 := by
            simp at hfalse
            omega
          have hin0 : st.graph.inEntry target label source = some w0 := by
            rw [← hmir0 source label target, hoe]
          rw [h1, h2, h3, hin0]
          simp [hge]
      · rw [if_neg hcond]

/-- C8, witness: the amended statement instantiated on a fresh driver for
the query `a` and the tuple `(1, a, 2, [1, 10))`. -/
theorem c8_witness :
    Graph.Reachable (RPQState.init dfaA1).graph ∧
    (processTuple (processTuple (RPQState.init dfaA1) "res" 1 2 "a" ⟨1, 10⟩).1
        "res" 1 2 "a" ⟨1, 10⟩ =
      ((processTuple (RPQState.init dfaA1) "res" 1 2 "a" ⟨1, 10⟩).1, []) ∧
     (((RPQState.init dfaA1).graph.insert_edge 1 "a" 2 ⟨1, 10⟩).1 = false →
      (processTuple (RPQState.init dfaA1) "res" 1 2 "a" ⟨1, 10⟩).1.delta_node_index =
        (RPQState.init dfaA1).delta_node_index ∧
      (processTuple (RPQState.init dfaA1) "res" 1 2 "a" ⟨1, 10⟩).1.delta_tree_queue =
        (RPQState.init dfaA1).delta_tree_queue ∧
      (processTuple (RPQState.init dfaA1) "res" 1 2 "a" ⟨1, 10⟩).2 = [] ∧
      (∀ u l v,
        (processTuple (RPQState.init dfaA1) "res" 1 2 "a" ⟨1, 10⟩).1.graph.outEntry
          u l v = (RPQState.init dfaA1).graph.outEntry u l v) ∧
      (∀ v l u,
        (processTuple (RPQState.init dfaA1) "res" 1 2 "a" ⟨1, 10⟩).1.graph.inEntry
          v l u = (RPQState.init dfaA1).graph.inEntry v l u))) :=
  ⟨Graph.Reachable.empty dfaA1,
   c8_idempotent_and_no_grow (RPQState.init dfaA1) (Graph.Reachable.empty dfaA1)
     "res" 1 2 "a" ⟨1, 10⟩⟩

/-! ## Claim C9 — eviction before insert at each closed timestamp -/

theorem foldl_state_graph {α : Type} (f : RPQState → α → RPQState)
    (hf : ∀ acc a, (f acc a).graph = acc.graph) :
    ∀ (L : List α) (acc : RPQState), (L.foldl f acc).graph = acc.graph := by
  intro L
  induction L with
  | nil => intro acc; rfl
  | cons a as ih =>
    intro acc
    simp only [List.foldl_cons]
    rw [ih, hf]

theorem foldl_pair_fst {α β γ : Type} (f1 : γ → α → γ)
    (f2 : γ × List β → α → γ × List β)
    (hf : ∀ acc a, (f2 acc a).1 = f1 acc.1 a) :
    ∀ (L : List α) (acc : γ × List β), (L.foldl f2 acc).1 = L.foldl f1 acc.1 := by
  intro L
  induction L with
  | nil => intro acc; rfl
  | cons a as ih =>
    intro acc
    simp only [List.foldl_cons]
    rw [ih, hf]

/-- The product graph after one notificator firing: the stash inserted, in
order, into the evicted graph — tree expiry and the expansion block never
write to the graph. -/
theorem processClosedTime_graph (st : RPQState) (o : Label) (w : Nat)
    (stash : List ((Vertex × Vertex × Label) × HalfOpenTimeInterval)) :
    (processClosedTime st o w stash).1.graph =
      stash.foldl (fun g kv => (g.insert_edge kv.1.1 kv.1.2.2 kv.1.2.1 kv.2).2)
        (st.graph.remove_edges w) := by
  unfold processClosedTime
  dsimp only
  rw [Graph.foldl_rpq_graph]
  · rw [foldl_pair_fst
      (fun g kv => (g.insert_edge kv.1.1 kv.1.2.2 kv.1.2.1 kv.2).2)]
    · rw [foldl_state_graph]
      intro acc tree
      dsimp only
      by_cases hc : (tree.expiry w).1.is_empty = true
      · simp only [hc, if_true]
      · simp only [hc, Bool.false_eq_true, if_false]
    · intro acc a
      rfl
  · intro acc a
    dsimp only
    rw [Graph.expandTuple_graph]

/-- C9: at every closed timestamp the driver evicts the product graph and
expires trees strictly before applying that timestamp's stashed inserts.
Consequently an edge arriving at time `t` with `window_size = 0` (interval
`[t, t)`) survives the closure of `t` — eviction at watermark `t` runs before
its insert — and is stored with interval `[t, t)`; when the next timestamp
`t+1` is closed, eviction removes the edge and its source node before the
(empty) inserts of `t+1`. -/
theorem c9_window0_edge_lifecycle (dfa : DFA) (o : Label) (t : Nat)
    (u : Vertex) (l : Label) (v : Vertex) (huv : u ≠ v) :
    (processClosedTime (RPQState.init dfa) o t
        [((u, v, l), ⟨t, t⟩)]).1.graph.outEntry u l v = some (t, t) ∧
    (processClosedTime (processClosedTime (RPQState.init dfa) o t
        [((u, v, l), ⟨t, t⟩)]).1 o (t + 1) []).1.graph.outEntry u l v = none ∧
    (processClosedTime (processClosedTime (RPQState.init dfa) o t
        [((u, v, l), ⟨t, t⟩)]).1 o (t + 1) []).1.graph.get_node u = none := by
  have hg1 : (processClosedTime (RPQState.init dfa) o t
      [((u, v, l), ⟨t, t⟩)]).1.graph =
      (((Graph.new dfa).remove_edges t).insert_edge u l v ⟨t, t⟩).2 := by
    rw [processClosedTime_graph]
    simp only [List.foldl_cons, List.foldl_nil]
    rfl
  have hR1 : Graph.Reachable
      ((((Graph.new dfa).remove_edges t).insert_edge u l v ⟨t, t⟩).2) :=
    Graph.Reachable.insert (Graph.Reachable.evict (Graph.Reachable.empty dfa) t)
      u l v ⟨t, t⟩
  obtain ⟨hnd1, hwfn1, hpl1, hmir1⟩ := hR1.inv
  have hout1 : (((Graph.new dfa).remove_edges t).insert_edge u l v
      ⟨t, t⟩).2.outEntry u l v = some (t, t) := by
    rw [Graph.insert_edge_outEntry, if_pos ⟨rfl, rfl, rfl⟩]
    rfl
  have hg2 : (processClosedTime (processClosedTime (RPQState.init dfa) o t
      [((u, v, l), ⟨t, t⟩)]).1 o (t + 1) []).1.graph =
      ((((Graph.new dfa).remove_edges t).insert_edge u l v
        ⟨t, t⟩).2.remove_edges (t + 1)) := by
    rw [processClosedTime_graph, hg1]
    rfl
  refine ⟨?_, ?_, ?_⟩
  · rw [hg1]
    exact hout1
  · rw [hg2]
    rw [Graph.remove_edges_outEntry _ _ hnd1 hwfn1 hpl1, hout1]
    have hng : ¬ (t + 1 < t) := by omega
    simp [hng]
  · rw [hg2]
    have hA : Graph.insertNodeA ((Graph.new dfa).remove_edges t) u l v ⟨t, t⟩ =
        ⟨u, [(l, ⟨[(v, t, t)]⟩)], []⟩ := rfl
    have hgu : (((Graph.new dfa).remove_edges t).insert_edge u l v
        ⟨t, t⟩).2.node_index.get u =
        some (Graph.insertNodeA ((Graph.new dfa).remove_edges t) u l v ⟨t, t⟩,
          Graph.insertPrioA ((Graph.new dfa).remove_edges t) u ⟨t, t⟩) := by
      rw [Graph.insert_edge_get, if_neg huv, if_pos rfl]
    have hprio : Graph.insertPrioA ((Graph.new dfa).remove_edges t) u ⟨t, t⟩ = t := rfl
    have hpop : (⟨[(v, t, t)]⟩ : MinPQIndex Vertex Nat).popLe (t + 1) = ⟨[]⟩ := by
      rw [MinPQIndex.popLe_spec]
      have hng : ¬ ((t : Nat) > t + 1) := by omega
      simp [hng]
    have hkeep : Graph.keepR (t + 1)
        (u, Graph.insertNodeA ((Graph.new dfa).remove_edges t) u l v ⟨t, t⟩, t) =
        false := by
      rw [hA]
      unfold Graph.keepR Graph.pruneR
      simp [GraphNode.remove_expired_inedges, GraphNode.remove_expired_outedges,
        GraphNode.is_isolated, hpop, MinPQIndex.is_empty]
    unfold Graph.get_node
    rw [Graph.remove_edges_get _ _ hnd1, hgu, hprio]
    have hle : t ≤ t + 1 := by omega
    simp only [if_pos hle, hkeep, Bool.false_eq_true, if_false]
    rfl

/-- C9, witness: the lifecycle on a concrete driver for the query `a`, with
the `[5, 5)` edge `1 —a→ 2`. -/
theorem c9_witness :
    (1 : Vertex) ≠ 2 ∧
    ((processClosedTime (RPQState.init dfaA1) "res" 5
        [((1, 2, "a"), ⟨5, 5⟩)]).1.graph.outEntry 1 "a" 2 = some (5, 5) ∧
     (processClosedTime (processClosedTime (RPQState.init dfaA1) "res" 5
        [((1, 2, "a"), ⟨5, 5⟩)]).1 "res" 6 []).1.graph.outEntry 1 "a" 2 = none ∧
     (processClosedTime (processClosedTime (RPQState.init dfaA1) "res" 5
        [((1, 2, "a"), ⟨5, 5⟩)]).1 "res" 6 []).1.graph.get_node 1 = none) :=
  ⟨by decide, c9_window0_edge_lifecycle dfaA1 "res" 5 1 "a" 2 (by decide)⟩

/-! ## Claim C10 — termination of the `tree_expand` work-queue loop -/

theorem le_foldr_max {xs : List Nat} {x : Nat} (h : x ∈ xs) :
    x ≤ xs.foldr max 0 := by
  induction xs with
  | nil => cases h
  | cons y ys ih =>
    simp only [List.foldr_cons]
    rcases List.mem_cons.mp h with h | h
    · subst h
      exact Nat.le_max_left _ _
    · exact Nat.le_trans (ih h) (Nat.le_max_right _ _)

theorem le_sum_of_mem {xs : List Nat} {x : Nat} (h : x ∈ xs) : x ≤ xs.sum := by
  induction xs with
  | nil => cases h
  | cons y ys ih =>
    simp only [List.sum_cons]
    rcases List.mem_cons.mp h with h | h
    · subst h
      exact Nat.le_add_right _ _
    · exact Nat.le_trans (ih h) (Nat.le_add_left _ _)

theorem sum_le_length_mul {xs : List Nat} {m : Nat} (h : ∀ x ∈ xs, x ≤ m) :
    xs.sum ≤ xs.length * m := by
  induction xs with
  | nil => simp
  | cons y ys ih =>
    simp only [List.sum_cons, List.length_cons]
    have h1 := h y (List.mem_cons_self y ys)
    have h2 := ih (fun x hx => h x (List.mem_cons_of_mem _ hx))
    calc y + ys.sum ≤ m + ys.length * m := Nat.add_le_add h1 h2
      _ = (ys.length + 1) * m := by ring

theorem countP_lt_of_witness {E : List Nat} {p q : Nat → Bool}
    (hmono : ∀ x ∈ E, p x = true → q x = true) {a : Nat} (ha : a ∈ E)
    (hpa : p a = false) (hqa : q a = true) : E.countP p < E.countP q := by
  induction E with
  | nil => cases ha
  | cons y ys ih =>
    rw [List.countP_cons, List.countP_cons]
    rcases List.mem_cons.mp ha with h | h
    · subst h
      rw [hpa, hqa, if_neg Bool.false_ne_true, if_pos rfl]
      have hmo := List.countP_mono_left
        (fun x hx => hmono x (List.mem_cons_of_mem _ hx))
      omega
    · have hstrict := ih (fun x hx h2 => hmono x (List.mem_cons_of_mem _ hx) h2) h
      have hhd : (if p y = true then 1 else 0) ≤ (if q y = true then 1 else 0) := by
        by_cases hpy : p y = true
        · rw [if_pos hpy, if_pos (hmono y (List.mem_cons_self y ys) hpy)]
        · rw [if_neg hpy]
          exact Nat.zero_le _
      omega

theorem sum_map_lt_of_mem {l : List VSPair} (hnd : l.Nodup) {p0 : VSPair}
    (hmem : p0 ∈ l) (f f2 : VSPair → Nat)
    (hcong : ∀ p, p ≠ p0 → f2 p = f p) (hlt : f2 p0 < f p0) :
    (l.map f2).sum < (l.map f).sum := by
  induction l with
  | nil => cases hmem
  | cons x xs ih =>
    simp only [List.map_cons, List.sum_cons]
    rcases List.mem_cons.mp hmem with h | h
    · have hxs : ∀ p ∈ xs, f2 p = f p := by
        intro p hp
        apply hcong
        intro hpp
        rw [hpp, h] at hp
        exact (List.nodup_cons.mp hnd).1 hp
      rw [List.map_congr_left hxs, ← h]
      exact Nat.add_lt_add_right hlt _
    · have hx : f2 x = f x := by
        apply hcong
        intro hxx
        apply (List.nodup_cons.mp hnd).1
        rw [hxx]
        exact h
      rw [hx]
      exact Nat.add_lt_add_left (ih (List.nodup_cons.mp hnd).2 h) _

theorem MinPQIndex.getValue_change_priority {K V : Type} [DecidableEq K]
    (pq : MinPQIndex K V) (k : K) (p : Nat) (u : K) :
    (pq.change_priority k p).getValue u = pq.getValue u := by
  unfold MinPQIndex.getValue
  rw [MinPQIndex.get_change_priority]
  by_cases h : u = k
  · rw [if_pos h]
    cases pq.get u <;> simp
  · rw [if_neg h]

theorem SpanningTree.tsView_eq_getValue (t : SpanningTree) (p : VSPair) :
    t.tsView p = (t.node_queue.getValue p).map (fun n => n.timestamp) := rfl

theorem tsview_modify_pres (pq : MinPQIndex VSPair TreeNode) (k : VSPair)
    (f : TreeNode → TreeNode) (hf : ∀ n, (f n).timestamp = n.timestamp)
    (p : VSPair) :
    ((pq.modifyValue k f).getValue p).map (fun n => n.timestamp) =
      (pq.getValue p).map (fun n => n.timestamp) := by
  rw [MinPQIndex.getValue_modifyValue]
  by_cases h : p = k
  · rw [if_pos h]
    cases pq.getValue p with
    | none => rfl
    | some n => simp [hf]
  · rw [if_neg h]

theorem SpanningTree.contains_eq_tsView (t : SpanningTree) (p : VSPair) :
    t.contains p = (t.tsView p).isSome := by
  unfold SpanningTree.contains SpanningTree.tsView SpanningTree.get_vertex
  cases t.node_queue.get p <;> rfl

theorem SpanningTree.tsView_update_node_expiry (t : SpanningTree)
    (child : VSPair) (w : Nat) (p : VSPair) :
    (t.update_node_expiry child w).tsView p = t.tsView p := by
  rw [SpanningTree.tsView_eq_getValue, SpanningTree.tsView_eq_getValue]
  unfold SpanningTree.update_node_expiry
  dsimp only
  rw [MinPQIndex.getValue_change_priority]

theorem SpanningTree.tsView_modifyVertex_setInterval (t : SpanningTree)
    (child : VSPair) (ni : HalfOpenTimeInterval) (p : VSPair) :
    (t.modifyVertex child (fun n => n.set_interval ni)).tsView p =
      if p = child then (t.tsView child).map (fun _ => ni) else t.tsView p := by
  rw [SpanningTree.tsView_eq_getValue]
  unfold SpanningTree.modifyVertex
  dsimp only
  rw [MinPQIndex.getValue_modifyValue]
  by_cases h : p = child
  · rw [if_pos h, if_pos h, h, SpanningTree.tsView_eq_getValue]
    cases t.node_queue.getValue child with
    | none => rfl
    | some n => rfl
  · rw [if_neg h, if_neg h, SpanningTree.tsView_eq_getValue]

theorem SpanningTree.tsView_update_parent (t : SpanningTree)
    (child node : VSPair) (cts : HalfOpenTimeInterval) (p : VSPair) :
    (t.update_parent child node cts).tsView p = t.tsView p := by
  rw [SpanningTree.tsView_eq_getValue, SpanningTree.tsView_eq_getValue]
  unfold SpanningTree.update_parent
  dsimp only
  by_cases h1 : ((((t.node_queue.get child).map (fun e => e.1)).getD
      junkTreeNode).parent.getD t.root_vertex) = t.root_vertex
  · rw [if_pos h1]
    dsimp only
    by_cases h2 : node = t.root_vertex
    · rw [if_pos h2]
      dsimp only
      exact tsview_modify_pres _ child (fun n => n.set_parent node cts) (fun n => rfl) p
    · rw [if_neg h2]
      dsimp only
      rw [tsview_modify_pres _ child (fun n => n.set_parent node cts) (fun n => rfl) p,
        tsview_modify_pres _ node (fun n => n.add_child child) (fun n => rfl) p]
  · rw [if_neg h1]
    dsimp only
    by_cases h2 : node = t.root_vertex
    · rw [if_pos h2]
      dsimp only
      rw [tsview_modify_pres _ child (fun n => n.set_parent node cts) (fun n => rfl) p,
        tsview_modify_pres _ _ (fun n => n.remove_child child) (fun n => rfl) p]
    · rw [if_neg h2]
      dsimp only
      rw [tsview_modify_pres _ child (fun n => n.set_parent node cts) (fun n => rfl) p,
        tsview_modify_pres _ node (fun n => n.add_child child) (fun n => rfl) p,
        tsview_modify_pres _ _ (fun n => n.remove_child child) (fun n => rfl) p]

theorem SpanningTree.tsView_add_vertex (t : SpanningTree) (c1 : Vertex)
    (c2 : State) (ts : HalfOpenTimeInterval) (parent : VSPair)
    (habs : t.node_queue.get (c1, c2) = none) (p : VSPair) :
    (t.add_vertex c1 c2 ts parent).1.tsView p =
      if p = (c1, c2) then some (addVertexInterval t ts parent)
      else t.tsView p := by
  have hgv : t.node_queue.getValue (c1, c2) = none := by
    unfold MinPQIndex.getValue
    rw [habs]
    rfl
  unfold SpanningTree.add_vertex SpanningTree.add_chilren
  dsimp only
  by_cases hroot : parent = t.root_vertex
  · rw [if_pos hroot]
    rw [SpanningTree.tsView_eq_getValue]
    dsimp only
    rw [MinPQIndex.getValue_push]
    by_cases hp : p = (c1, c2)
    · rw [if_pos hp, if_pos hp, hgv]
      rfl
    · rw [if_neg hp, if_neg hp, SpanningTree.tsView_eq_getValue]
  · rw [if_neg hroot]
    rw [SpanningTree.tsView_eq_getValue]
    dsimp only
    rw [tsview_modify_pres _ parent (fun n => n.add_child (c1, c2)) (fun n => rfl) p]
    rw [MinPQIndex.getValue_push]
    by_cases hp : p = (c1, c2)
    · rw [if_pos hp, if_pos hp, hgv]
      rfl
    · rw [if_neg hp, if_neg hp, SpanningTree.tsView_eq_getValue]

theorem costOf_tsView (E : List Nat) (t : SpanningTree) (p : VSPair) :
    costOf E t p =
      (match t.tsView p with
      | some i => E.countP (fun e => decide (e > i.stop))
      | none => E.length + 1) := by
  unfold costOf SpanningTree.tsView
  cases t.get_vertex p with
  | none => rfl
  | some n => rfl

theorem length_flatMap_le {α β : Type} (L : List α) (f : α → List β) (m : Nat)
    (h : ∀ a ∈ L, (f a).length ≤ m) : (L.flatMap f).length ≤ L.length * m := by
  induction L with
  | nil => simp
  | cons x xs ih =>
    simp only [List.flatMap_cons, List.length_append, List.length_cons]
    have h1 := h x (List.mem_cons_self x xs)
    have h2 := ih (fun a ha => h a (List.mem_cons_of_mem _ ha))
    calc (f x).length + (xs.flatMap f).length ≤ m + xs.length * m :=
          Nat.add_le_add h1 h2
      _ = (xs.length + 1) * m := by ring

theorem length_le_length_flatMap_id {α : Type} {L : List (List α)} {l : List α}
    (h : l ∈ L) : l.length ≤ (L.flatMap id).length := by
  induction L with
  | nil => cases h
  | cons x xs ih =>
    simp only [List.flatMap_cons, List.length_append, id_eq]
    rcases List.mem_cons.mp h with h | h
    · subst h
      exact Nat.le_add_right _ _
    · exact Nat.le_trans (ih h) (Nat.le_add_left _ _)

theorem Graph.get_node_mem {g : Graph} {a : Vertex} {node : GraphNode}
    (h : g.get_node a = some node) :
    ∃ pr, (a, node, pr) ∈ g.node_index.entries := by
  unfold Graph.get_node at h
  cases hga : g.node_index.get a with
  | none => rw [hga] at h; cases h
  | some s =>
    rw [hga] at h
    have h1 : s.1 = node := by simpa using h
    refine ⟨s.2, ?_⟩
    rw [← h1]
    exact MinPQIndex.mem_of_get_eq_some hga

theorem Graph.length_transitions_le (g : Graph) (b : State) :
    (g.query_automata.get_outgoing_transitions b).length ≤
      (g.query_automata.forward_transitions.flatMap id).length := by
  unfold DFA.get_outgoing_transitions
  cases hg2 : g.query_automata.forward_transitions.get? b with
  | none => exact Nat.zero_le _
  | some lst =>
    simp only [Option.getD_some]
    exact length_le_length_flatMap_id (List.get?_mem hg2)

theorem Graph.entries_length_le_max {g : Graph} {a : Vertex} {node : GraphNode}
    (hgn : g.get_node a = some node) {l : Label} {pq : MinPQIndex Vertex Nat}
    (hf : assocFind node.outgoing_edges l = some pq) :
    pq.entries.length ≤
      ((g.node_index.entries.flatMap (fun n =>
        n.2.1.outgoing_edges.map (fun lp => lp.2.entries.length))).foldr max 0) := by
  obtain ⟨pr, hmem⟩ := Graph.get_node_mem hgn
  apply le_foldr_max
  apply List.mem_flatMap.mpr
  exact ⟨(a, node, pr), hmem, List.mem_map_of_mem _ (assocFind_mem hf)⟩

theorem Graph.length_get_outgoing_edges_le (g : Graph) (a : Vertex) (b : State) :
    (g.get_outgoing_edges a b).length ≤ g.enqBound := by
  unfold Graph.get_outgoing_edges Graph.enqBound
  refine Nat.le_trans (length_flatMap_le _ _ _ ?_)
    (Nat.mul_le_mul_right _ (Graph.length_transitions_le g b))
  intro lt hlt
  cases hgn : g.get_node a with
  | none => exact Nat.zero_le _
  | some node =>
    dsimp only
    rw [List.length_map]
    unfold GraphNode.get_outgoing_edges
    cases hfa : assocFind node.outgoing_edges lt.1 with
    | none => exact Nat.zero_le _
    | some pq =>
      simp only [Option.getD_some]
      exact Graph.entries_length_le_max hgn hfa

theorem Graph.length_get_outgoing_larger_le (g : Graph) (a : Vertex) (b : State)
    (w : Nat) : (g.get_outgoing_edges_larger_than a b w).length ≤ g.enqBound := by
  unfold Graph.get_outgoing_edges_larger_than Graph.enqBound
  refine Nat.le_trans (length_flatMap_le _ _ _ ?_)
    (Nat.mul_le_mul_right _ (Graph.length_transitions_le g b))
  intro lt hlt
  cases hgn : g.get_node a with
  | none => exact Nat.zero_le _
  | some node =>
    dsimp only
    rw [List.length_map]
    unfold GraphNode.get_outgoing_edges_larger_than
    cases hfa : assocFind node.outgoing_edges lt.1 with
    | none => exact Nat.zero_le _
    | some pq =>
      simp only [Option.getD_some]
      exact Nat.le_trans (List.length_filter_le _ _)
        (Graph.entries_length_le_max hgn hfa)

theorem Graph.mem_larger_than_subset {g : Graph} {a : Vertex} {b : State}
    {w : Nat} {x : VSPair × HalfOpenTimeInterval}
    (hx : x ∈ g.get_outgoing_edges_larger_than a b w) :
    x ∈ g.get_outgoing_edges a b := by
  unfold Graph.get_outgoing_edges_larger_than at hx
  unfold Graph.get_outgoing_edges
  rcases List.mem_flatMap.mp hx with ⟨lt, hlt, hin⟩
  apply List.mem_flatMap.mpr
  refine ⟨lt, hlt, ?_⟩
  cases hgn : g.get_node a with
  | none => rw [hgn] at hin; simp at hin
  | some node =>
    rw [hgn] at hin
    dsimp only at hin ⊢
    rcases List.mem_map.mp hin with ⟨e, he, heq⟩
    apply List.mem_map.mpr
    refine ⟨e, ?_, heq⟩
    unfold GraphNode.get_outgoing_edges_larger_than at he
    unfold GraphNode.get_outgoing_edges
    exact (List.mem_filter.mp he).1

theorem Graph.mem_get_outgoing_edges {g : Graph} {a : Vertex} {b : State}
    {x : VSPair × HalfOpenTimeInterval} (hx : x ∈ g.get_outgoing_edges a b) :
    x.1 ∈ g.allOutPairs ∧ x.2.stop ∈ g.allOutEnds := by
  unfold Graph.get_outgoing_edges at hx
  rcases List.mem_flatMap.mp hx with ⟨lt, hlt, hin⟩
  cases hgn : g.get_node a with
  | none => rw [hgn] at hin; simp at hin
  | some node =>
    rw [hgn] at hin
    dsimp only at hin
    rcases List.mem_map.mp hin with ⟨e, he, heq⟩
    unfold GraphNode.get_outgoing_edges at he
    cases hfa : assocFind node.outgoing_edges lt.1 with
    | none => rw [hfa] at he; simp [MinPQIndex.default] at he
    | some pq =>
      rw [hfa] at he
      simp only [Option.getD_some] at he
      obtain ⟨pr, hmem⟩ := Graph.get_node_mem hgn
      have hlp := assocFind_mem hfa
      constructor
      · rw [← heq]
        show (e.1, lt.2) ∈ g.allOutPairs
        unfold Graph.allOutPairs
        apply List.mem_flatMap.mpr
        refine ⟨lt.2, ?_, ?_⟩
        · unfold DFA.get_outgoing_transitions at hlt
          cases hg2 : g.query_automata.forward_transitions.get? b with
          | none => rw [hg2] at hlt; simp at hlt
          | some lst =>
            rw [hg2] at hlt
            simp only [Option.getD_some] at hlt
            apply List.mem_flatMap.mpr
            exact ⟨lst, List.get?_mem hg2, List.mem_map_of_mem _ hlt⟩
        · apply List.mem_map.mpr
          refine ⟨e.1, ?_, rfl⟩
          apply List.mem_flatMap.mpr
          refine ⟨(a, node, pr), hmem, ?_⟩
          apply List.mem_flatMap.mpr
          exact ⟨(lt.1, pq), hlp, List.mem_map_of_mem _ he⟩
      · rw [← heq]
        show e.2.2 ∈ g.allOutEnds
        unfold Graph.allOutEnds
        apply List.mem_flatMap.mpr
        refine ⟨(a, node, pr), hmem, ?_⟩
        apply List.mem_flatMap.mpr
        exact ⟨(lt.1, pq), hlp, List.mem_map_of_mem _ he⟩

theorem addVertexInterval_stop_mem {E : List Nat} {t : SpanningTree}
    {ts : HalfOpenTimeInterval} {parent : VSPair}
    (hts : ts.stop ∈ E) (h0 : 0 ∈ E)
    (htree : ∀ p i, t.tsView p = some i → i.stop ∈ E) :
    (addVertexInterval t ts parent).stop ∈ E := by
  unfold addVertexInterval
  by_cases hrv : t.root_vertex = parent
  · rw [if_pos hrv]
    exact hts
  · rw [if_neg hrv]
    cases hgv : t.get_vertex parent with
    | none =>
      show min ts.stop (0 : Nat) ∈ E
      rw [Nat.min_zero]
      exact h0
    | some vn =>
      have hvE : vn.timestamp.stop ∈ E := htree parent vn.timestamp (by
        unfold SpanningTree.tsView
        rw [hgv]
        rfl)
      show min ts.stop vn.timestamp.stop ∈ E
      rcases min_choice ts.stop vn.timestamp.stop with h | h
      · rw [h]; exact hts
      · rw [h]; exact hvE

theorem expandNewInterval_stop_mem {E : List Nat} {tree : SpanningTree}
    {item : VSPair × VSPair × HalfOpenTimeInterval}
    (hts : item.2.2.stop ∈ E) (h0 : 0 ∈ E)
    (htree : ∀ p i, tree.tsView p = some i → i.stop ∈ E) :
    (expandNewInterval tree item).stop ∈ E := by
  unfold expandNewInterval
  by_cases hrv : (tree.get_root_vertex, 0) = item.1
  · rw [if_pos hrv]
    exact hts
  · rw [if_neg hrv]
    cases hgv : tree.get_vertex item.1 with
    | none =>
      show min item.2.2.stop (0 : Nat) ∈ E
      rw [Nat.min_zero]
      exact h0
    | some vn =>
      have hvE : vn.timestamp.stop ∈ E := htree item.1 vn.timestamp (by
        unfold SpanningTree.tsView
        rw [hgv]
        rfl)
      show min item.2.2.stop vn.timestamp.stop ∈ E
      rcases min_choice item.2.2.stop vn.timestamp.stop with h | h
      · rw [h]; exact hts
      · rw [h]; exact hvE

theorem expand_step_spec (graph : Graph) (E : List Nat) (S : List VSPair) (W : Nat)
    (hW : W = graph.enqBound + 1)
    (item : VSPair × VSPair × HalfOpenTimeInterval) (tree : SpanningTree)
    (results : List (VSPair × HalfOpenTimeInterval))
    (hq1 : item.2.1 ∈ S) (hq2 : item.2.2.stop ∈ E)
    (htree : ∀ p i, tree.tsView p = some i → i.stop ∈ E) (h0 : 0 ∈ E)
    (hS : ∀ x ∈ graph.allOutPairs, x ∈ S)
    (hE : ∀ x ∈ graph.allOutEnds, x ∈ E) :
    (W * (S.dedup.map (costOf E (treeExpandStep graph item tree results).1)).sum +
        (treeExpandStep graph item tree results).2.1.length <
      W * (S.dedup.map (costOf E tree)).sum + 1) ∧
    (∀ it ∈ (treeExpandStep graph item tree results).2.1,
      it.2.1 ∈ S ∧ it.2.2.stop ∈ E) ∧
    (∀ p i, (treeExpandStep graph item tree results).1.tsView p = some i →
      i.stop ∈ E) := by
  by_cases hcond : ((tree.get_root_vertex, 0) = item.1) ∨
      (((tree.get_vertex item.1).map
        (fun v => v.get_interval.overlaps item.2.2)).getD false = true)
  · cases hct : tree.contains item.2.1 with
    | false =>
      have habs : tree.node_queue.get (item.2.1.1, item.2.1.2) = none := by
        have h1 : (tree.node_queue.get item.2.1).isSome = false := hct
        cases hg : tree.node_queue.get item.2.1 with
        | none => rfl
        | some s => rw [hg] at h1; simp at h1
      have hr : treeExpandStep graph item tree results =
          ((tree.add_vertex item.2.1.1 item.2.1.2 item.2.2 item.1).1,
           ((graph.get_outgoing_edges item.2.1.1 item.2.1.2).filter
             (fun e => (tree.add_vertex item.2.1.1 item.2.1.2 item.2.2
               item.1).2.get_interval.overlaps e.2)).map
             (fun e => (item.2.1, e.1, e.2)),
           results ++ [(item.2.1,
             (tree.add_vertex item.2.1.1 item.2.1.2 item.2.2
               item.1).2.get_interval)]) := by
        unfold treeExpandStep
        dsimp only
        rw [if_pos hcond, hct]
        rfl
      have hview := SpanningTree.tsView_add_vertex tree item.2.1.1 item.2.1.2
        item.2.2 item.1 habs
      have hNVE : (addVertexInterval tree item.2.2 item.1).stop ∈ E :=
        addVertexInterval_stop_mem hq2 h0 htree
      rw [hr]
      refine ⟨?_, ?_, ?_⟩
      · dsimp only
        have hsum : (S.dedup.map (costOf E
            (tree.add_vertex item.2.1.1 item.2.1.2 item.2.2 item.1).1)).sum <
            (S.dedup.map (costOf E tree)).sum := by
          refine sum_map_lt_of_mem (List.nodup_dedup S) (List.mem_dedup.mpr hq1)
            (costOf E tree)
            (costOf E (tree.add_vertex item.2.1.1 item.2.1.2 item.2.2 item.1).1)
            ?_ ?_
          · intro p hp
            rw [costOf_tsView, costOf_tsView, hview p, if_neg (fun h => hp h)]
          · rw [costOf_tsView, costOf_tsView, hview item.2.1, if_pos rfl]
            have hnone : tree.tsView item.2.1 = none := by
              have habs2 : tree.node_queue.get item.2.1 = none := habs
              unfold SpanningTree.tsView SpanningTree.get_vertex
              rw [habs2]
              rfl
            rw [hnone]
            exact Nat.lt_succ_of_le (List.countP_le_length _)
        have hk : (((graph.get_outgoing_edges item.2.1.1 item.2.1.2).filter
            (fun e => (tree.add_vertex item.2.1.1 item.2.1.2 item.2.2
              item.1).2.get_interval.overlaps e.2)).map
            (fun e => (item.2.1, e.1, e.2))).length < W := by
          rw [hW, List.length_map]
          exact Nat.lt_succ_of_le (Nat.le_trans (List.length_filter_le _ _)
            (Graph.length_get_outgoing_edges_le graph item.2.1.1 item.2.1.2))
        have hmul : W * (S.dedup.map (costOf E
            (tree.add_vertex item.2.1.1 item.2.1.2 item.2.2 item.1).1)).sum + W ≤
            W * (S.dedup.map (costOf E tree)).sum := by
          have h2 := Nat.mul_le_mul_left W (Nat.succ_le_of_lt hsum)
          rw [Nat.mul_succ] at h2
          exact h2
        exact Nat.lt_of_lt_of_le (Nat.add_lt_add_left hk _)
          (Nat.le_trans hmul (Nat.le_succ _))
      · intro it hit
        dsimp only at hit
        rcases List.mem_map.mp hit with ⟨e, he, heq⟩
        have hm := Graph.mem_get_outgoing_edges (List.mem_filter.mp he).1
        rw [← heq]
        exact ⟨hS _ hm.1, hE _ hm.2⟩
      · intro p i hpi
        dsimp only at hpi
        rw [hview p] at hpi
        by_cases hp : p = (item.2.1.1, item.2.1.2)
        · rw [if_pos hp] at hpi
          injection hpi with h
          rw [← h]
          exact hNVE
        · rw [if_neg hp] at hpi
          exact htree p i hpi
    | true =>
      have h1 : (tree.node_queue.get item.2.1).isSome = true := hct
      cases hg2 : tree.node_queue.get item.2.1 with
      | none => rw [hg2] at h1; simp at h1
      | some s =>
        have hcn : tree.get_vertex item.2.1 = some s.1 := by
          unfold SpanningTree.get_vertex
          rw [hg2]
          rfl
        by_cases hgrow : ((tree.get_vertex item.2.1).getD
            junkTreeNode).get_expiry_timestamp <
            (if (tree.get_root_vertex, 0) = item.1 then item.2.2
             else HalfOpenTimeInterval.intersect item.2.2
               ((tree.get_vertex item.1).getD junkTreeNode).get_interval).stop
        · have hr : treeExpandStep graph item tree results =
              (((tree.update_parent item.2.1 item.1 item.2.2).modifyVertex item.2.1
                  (fun n => n.set_interval
                    (expandNewInterval tree item))).update_node_expiry
                 item.2.1 (expandNewInterval tree item).stop,
               (graph.get_outgoing_edges_larger_than item.2.1.1 item.2.1.2
                 ((tree.get_vertex item.2.1).getD
                   junkTreeNode).get_expiry_timestamp).map
                 (fun e => (item.2.1, e.1, e.2)),
               results ++ [(item.2.1, expandNewInterval tree item)]) := by
            unfold treeExpandStep
            dsimp only
            rw [if_pos hcond, hct]
            simp only [Bool.not_true, Bool.false_eq_true, if_false]
            rw [if_pos hgrow]
            rfl
          have hgrow2 : s.1.timestamp.stop < (expandNewInterval tree item).stop := by
            have h3 := hgrow
            rw [hcn] at h3
            exact h3
          have hNVE : (expandNewInterval tree item).stop ∈ E :=
            expandNewInterval_stop_mem hq2 h0 htree
          have htv : tree.tsView item.2.1 = some s.1.timestamp := by
            unfold SpanningTree.tsView
            rw [hcn]
            rfl
          have hview : ∀ p,
              (((tree.update_parent item.2.1 item.1 item.2.2).modifyVertex item.2.1
                (fun n => n.set_interval
                  (expandNewInterval tree item))).update_node_expiry
                item.2.1 (expandNewInterval tree item).stop).tsView p =
              if p = item.2.1 then some (expandNewInterval tree item)
              else tree.tsView p := by
            intro p
            rw [SpanningTree.tsView_update_node_expiry,
              SpanningTree.tsView_modifyVertex_setInterval,
              SpanningTree.tsView_update_parent,
              SpanningTree.tsView_update_parent]
            by_cases hp : p = item.2.1
            · rw [if_pos hp, if_pos hp, htv]
              rfl
            · rw [if_neg hp, if_neg hp]
          rw [hr]
          refine ⟨?_, ?_, ?_⟩
          · dsimp only
            have hsum : (S.dedup.map (costOf E
                (((tree.update_parent item.2.1 item.1 item.2.2).modifyVertex
                  item.2.1 (fun n => n.set_interval
                    (expandNewInterval tree item))).update_node_expiry
                  item.2.1 (expandNewInterval tree item).stop))).sum <
                (S.dedup.map (costOf E tree)).sum := by
              refine sum_map_lt_of_mem (List.nodup_dedup S) (List.mem_dedup.mpr hq1)
                (costOf E tree)
                (costOf E (((tree.update_parent item.2.1 item.1
                  item.2.2).modifyVertex item.2.1 (fun n => n.set_interval
                    (expandNewInterval tree item))).update_node_expiry
                  item.2.1 (expandNewInterval tree item).stop))
                ?_ ?_
              · intro p hp
                rw [costOf_tsView, costOf_tsView, hview p, if_neg hp]
              · rw [costOf_tsView, costOf_tsView, hview item.2.1, if_pos rfl, htv]
                exact countP_lt_of_witness
                  (fun x hx hpx => decide_eq_true
                    (Nat.lt_trans hgrow2 (of_decide_eq_true hpx)))
                  hNVE (decide_eq_false (Nat.lt_irrefl _))
                  (decide_eq_true hgrow2)
            have hk : ((graph.get_outgoing_edges_larger_than item.2.1.1 item.2.1.2
                ((tree.get_vertex item.2.1).getD
                  junkTreeNode).get_expiry_timestamp).map
                (fun e => (item.2.1, e.1, e.2))).length < W := by
              rw [hW, List.length_map]
              exact Nat.lt_succ_of_le (Graph.length_get_outgoing_larger_le graph
                item.2.1.1 item.2.1.2 _)
            have hmul : W * (S.dedup.map (costOf E
                (((tree.update_parent item.2.1 item.1 item.2.2).modifyVertex
                  item.2.1 (fun n => n.set_interval
                    (expandNewInterval tree item))).update_node_expiry
                  item.2.1 (expandNewInterval tree item).stop))).sum + W ≤
                W * (S.dedup.map (costOf E tree)).sum := by
              have h2 := Nat.mul_le_mul_left W (Nat.succ_le_of_lt hsum)
              rw [Nat.mul_succ] at h2
              exact h2
            exact Nat.lt_of_lt_of_le (Nat.add_lt_add_left hk _)
              (Nat.le_trans hmul (Nat.le_succ _))
          · intro it hit
            dsimp only at hit
            rcases List.mem_map.mp hit with ⟨e, he, heq⟩
            have hm := Graph.mem_get_outgoing_edges (Graph.mem_larger_than_subset he)
            rw [← heq]
            exact ⟨hS _ hm.1, hE _ hm.2⟩
          · intro p i hpi
            dsimp only at hpi
            rw [hview p] at hpi
            by_cases hp : p = item.2.1
            · rw [if_pos hp] at hpi
              injection hpi with h
              rw [← h]
              exact hNVE
            · rw [if_neg hp] at hpi
              exact htree p i hpi
        · have hr : treeExpandStep graph item tree results = (tree, [], results) := by
            unfold treeExpandStep
            dsimp only
            rw [if_pos hcond, hct]
            simp only [Bool.not_true, Bool.false_eq_true, if_false]
            rw [if_neg hgrow]
          rw [hr]
          refine ⟨?_, fun it hit => absurd hit (List.not_mem_nil it),
            fun p i hpi => htree p i hpi⟩
          dsimp only
          simp only [List.length_nil, Nat.add_zero]
          exact Nat.lt_succ_self _
  · have hr : treeExpandStep graph item tree results = (tree, [], results) := by
      unfold treeExpandStep
      dsimp only
      rw [if_neg hcond]
    rw [hr]
    refine ⟨?_, fun it hit => absurd hit (List.not_mem_nil it),
      fun p i hpi => htree p i hpi⟩
    dsimp only
    simp only [List.length_nil, Nat.add_zero]
    exact Nat.lt_succ_self _

theorem treeExpandGo_drains (graph : Graph) (E : List Nat) (S : List VSPair)
    (W : Nat) (hW : W = graph.enqBound + 1) (h0 : 0 ∈ E)
    (hS : ∀ x ∈ graph.allOutPairs, x ∈ S)
    (hE : ∀ x ∈ graph.allOutEnds, x ∈ E) :
    ∀ (fuel : Nat) (cfg : ExpandCfg),
      (∀ it ∈ cfg.queue, it.2.1 ∈ S ∧ it.2.2.stop ∈ E) →
      (∀ p i, cfg.tree.tsView p = some i → i.stop ∈ E) →
      W * (S.dedup.map (costOf E cfg.tree)).sum + cfg.queue.length ≤ fuel →
      (treeExpandGo graph fuel cfg).queue = [] := by
  intro fuel
  induction fuel with
  | zero =>
    intro cfg hq ht hpot
    have hlen : cfg.queue.length = 0 := by omega
    exact List.length_eq_zero.mp hlen
  | succ fuel ih =>
    intro cfg hq ht hpot
    cases hqc : cfg.queue with
    | nil =>
      have hstep : treeExpandGo graph (fuel + 1) cfg = cfg := by
        conv_lhs => unfold treeExpandGo
        rw [hqc]
      rw [hstep, hqc]
    | cons item rest =>
      have hmem : item ∈ cfg.queue := by
        rw [hqc]
        exact List.mem_cons_self _ _
      obtain ⟨hdec, hnew, htree2⟩ := expand_step_spec graph E S W hW item cfg.tree
        cfg.results (hq item hmem).1 (hq item hmem).2 ht h0 hS hE
      have hne : treeExpandGo graph (fuel + 1) cfg =
          treeExpandGo graph fuel
            ⟨(treeExpandStep graph item cfg.tree cfg.results).1,
             rest ++ (treeExpandStep graph item cfg.tree cfg.results).2.1,
             (treeExpandStep graph item cfg.tree cfg.results).2.2⟩ := by
        conv_lhs => unfold treeExpandGo
        rw [hqc]
      rw [hne]
      apply ih
      · intro it hit
        rcases List.mem_append.mp hit with h | h
        · refine hq it ?_
          rw [hqc]
          exact List.mem_cons_of_mem _ h
        · exact hnew it h
      · exact htree2
      · dsimp only
        rw [List.length_append]
        rw [hqc, List.length_cons] at hpot
        omega

/-- C10: the work-queue loop of `tree_expand` terminates on every finite
spanning tree and finite product graph.  Formally: `tree_expand` runs the
fuelled loop `treeExpandGo` with the fuel `expandFuel graph cfg`, and for
every graph and every starting configuration that much fuel always suffices
to drain the work queue completely — the loop never runs out of fuel, i.e.
the unfuelled Rust `while let Some(..) = queue.pop_front()` loop terminates.
The potential argument mirrors the claim: each iteration either dequeues
without enqueueing, adds a `(vertex, state)` pair not yet in the tree, or
strictly raises an existing node's expiry end towards a finite set of
candidate end-timestamps, and each enqueue batch is bounded by the graph. -/
theorem c10_tree_expand_terminates (graph : Graph) (cfg : ExpandCfg) :
    (treeExpandGo graph (expandFuel graph cfg) cfg).queue = [] := by
  apply treeExpandGo_drains graph (expandEnds graph cfg) (expandPairs graph cfg)
    (graph.enqBound + 1) rfl
  · exact List.mem_cons_self _ _
  · intro x hx
    show x ∈ expandPairs graph cfg
    unfold expandPairs
    exact List.mem_append.mpr (Or.inr hx)
  · intro x hx
    show x ∈ expandEnds graph cfg
    unfold expandEnds
    exact List.mem_cons_of_mem _ (List.mem_append.mpr (Or.inr hx))
  · intro it hit
    constructor
    · show it.2.1 ∈ expandPairs graph cfg
      unfold expandPairs
      exact List.mem_append.mpr (Or.inl (List.mem_map_of_mem _ hit))
    · show it.2.2.stop ∈ expandEnds graph cfg
      unfold expandEnds
      apply List.mem_cons_of_mem
      apply List.mem_append.mpr
      left
      exact List.mem_append.mpr (Or.inr (List.mem_map_of_mem _ hit))
  · intro p i hpi
    show i.stop ∈ expandEnds graph cfg
    unfold expandEnds
    apply List.mem_cons_of_mem
    apply List.mem_append.mpr
    left
    apply List.mem_append.mpr
    left
    unfold SpanningTree.tsView SpanningTree.get_vertex at hpi
    unfold SpanningTree.allEnds
    cases hg : cfg.tree.node_queue.get p with
    | none => rw [hg] at hpi; simp at hpi
    | some s =>
      rw [hg] at hpi
      have h1 : s.1.timestamp = i := by simpa using hpi
      have hm := MinPQIndex.mem_of_get_eq_some hg
      rw [← h1]
      exact List.mem_map.mpr ⟨(p, s), hm, rfl⟩
  · exact Nat.le_refl _

end SGraffito
